import Mathlib

/-!
# Chessqdl: bitboard move generation and evaluation

A shallow embedding of `src/Engine/const.h`, `bitboard.cpp`, `movegen.cpp` and
`utils.cpp`.  A `U64` (`std::bitset<64>`) is a natural number below `2 ^ 64`;
left shifts are reduced modulo `2 ^ 64`, complement is exclusive-or with the
all-ones word.  Loops that run while a word is non-zero carry a fuel counter
and return `none` when the fuel runs out before the word is exhausted.
-/

namespace chessqdl

/-! ## const.h -/

/-- Colour tags of `enum enumColor`; `nColor` selects the mask of all pieces. -/
inductive enumColor
  | nWhite
  | nBlack
  | nColor
  deriving DecidableEq, Repr

/-- Piece-type tags of `enum enumType` (`nPawn = 3` up to `nKing = 8`). -/
inductive enumType
  | nPawn
  | nKnight
  | nBishop
  | nRook
  | nQueen
  | nKing
  deriving DecidableEq, Repr

/-- Shift amounts of `enum enumDirections` (absolute values; the sign selects
left or right shift in the shift primitives). -/
def noWe : Nat := 7
def nort : Nat := 8
def noEa : Nat := 9
def west : Nat := 1
def east : Nat := 1
def soWe : Nat := 9
def sout : Nat := 8
def soEa : Nat := 7

/-! ## 64-bit words -/

/-- All-ones 64-bit word. -/
def allOnes : Nat := 0xffffffffffffffff

/-- Left shift on 64-bit words: bits shifted past bit 63 are dropped. -/
def shl (x n : Nat) : Nat := (x <<< n) % 2 ^ 64

/-- Right shift on 64-bit words. -/
def shr (x n : Nat) : Nat := x >>> n

/-- Bitwise complement of a 64-bit word (`~x`). -/
def bnot (x : Nat) : Nat := x ^^^ allOnes

/-- The call `std::bitset<64>::count()`: number of set bits among bits 0..63. -/
def popcount (x : Nat) : Nat := ((List.range 64).filter (fun i => x.testBit i)).length

/-- Modelled from the spec: the constant `notAFile` is declared in a header that is
not part of the sources; the spec calls it the file-wrap guard that is the
complement of file a. -/
def notAFile : Nat := 0xfefefefefefefefe

/-- Modelled from the spec: the constant `notHFile` is declared in a header that is
not part of the sources; the spec calls it the file-wrap guard that is the
complement of file h. -/
def notHFile : Nat := 0x7f7f7f7f7f7f7f7f

/-! ## The bitboard array -/

/-- The array `U64 bitBoards[9]`, indexed by `enumColor` (0..2) and `enumType` (3..8). -/
structure BitbArray where
  white : Nat
  black : Nat
  all : Nat
  pawn : Nat
  knight : Nat
  bishop : Nat
  rook : Nat
  queen : Nat
  king : Nat
  deriving DecidableEq, Repr

/-- The entry `bitboard[color]`. -/
def BitbArray.color (b : BitbArray) : enumColor → Nat
  | .nWhite => b.white
  | .nBlack => b.black
  | .nColor => b.all

/-- The entry `bitboard[piece]`. -/
def BitbArray.piece (b : BitbArray) : enumType → Nat
  | .nPawn => b.pawn
  | .nKnight => b.knight
  | .nBishop => b.bishop
  | .nRook => b.rook
  | .nQueen => b.queen
  | .nKing => b.king

/-- Assignment `bitboard[piece] = v`. -/
def BitbArray.setPiece (b : BitbArray) (k : enumType) (v : Nat) : BitbArray :=
  match k with
  | .nPawn => { b with pawn := v }
  | .nKnight => { b with knight := v }
  | .nBishop => { b with bishop := v }
  | .nRook => { b with rook := v }
  | .nQueen => { b with queen := v }
  | .nKing => { b with king := v }

/-- Every entry is a 64-bit word. -/
def BitbArray.WF (b : BitbArray) : Prop :=
  b.white < 2 ^ 64 ∧ b.black < 2 ^ 64 ∧ b.all < 2 ^ 64 ∧ b.pawn < 2 ^ 64 ∧
  b.knight < 2 ^ 64 ∧ b.bishop < 2 ^ 64 ∧ b.rook < 2 ^ 64 ∧ b.queen < 2 ^ 64 ∧
  b.king < 2 ^ 64

instance (b : BitbArray) : Decidable b.WF := by
  unfold BitbArray.WF; infer_instance

/-! ## bitboard.cpp -/

/-- The default constructor `Bitboard::Bitboard()`: the standard starting position. -/
def Bitboard.standard : BitbArray :=
  let black := shl 0xffff 48
  let white := 0xffff
  { black := black
    white := white
    all := white ||| black
    pawn := shl 0xff 48 ||| shl 0xff 8
    knight := 0x42 ||| shl 0x42 56
    bishop := 0x24 ||| shl 0x24 56
    rook := 0x81 ||| shl 0x81 56
    queen := 0x8 ||| shl 0x8 56
    king := 0x10 ||| shl 0x10 56 }

/-! ## movegen.cpp: shift primitives -/

def shiftNorthWest (bitboard : Nat) : Nat := shl bitboard noWe &&& notHFile
def shiftNorth (bitboard : Nat) : Nat := shl bitboard nort
def shiftNorthEast (bitboard : Nat) : Nat := shl bitboard noEa &&& notAFile
def shiftEast (bitboard : Nat) : Nat := shl bitboard east &&& notAFile
def shiftSouthEast (bitboard : Nat) : Nat := shr bitboard soEa &&& notAFile
def shiftSouth (bitboard : Nat) : Nat := shr bitboard sout
def shiftSouthWest (bitboard : Nat) : Nat := shr bitboard soWe &&& notHFile
def shiftWest (bitboard : Nat) : Nat := shr bitboard west &&& notHFile

/-! ## movegen.cpp: Kogge-Stone occluded fills -/

def soutOccl (gen pro : Nat) : Nat :=
  let gen := gen ||| (pro &&& shr gen 8)
  let pro := pro &&& shr pro 8
  let gen := gen ||| (pro &&& shr gen 16)
  let pro := pro &&& shr pro 16
  let gen := gen ||| (pro &&& shr gen 32)
  gen

def nortOccl (gen pro : Nat) : Nat :=
  let gen := gen ||| (pro &&& shl gen 8)
  let pro := pro &&& shl pro 8
  let gen := gen ||| (pro &&& shl gen 16)
  let pro := pro &&& shl pro 16
  let gen := gen ||| (pro &&& shl gen 32)
  gen

def eastOccl (gen pro : Nat) : Nat :=
  let pro := pro &&& notAFile
  let gen := gen ||| (pro &&& shl gen 1)
  let pro := pro &&& shl pro 1
  let gen := gen ||| (pro &&& shl gen 2)
  let pro := pro &&& shl pro 2
  let gen := gen ||| (pro &&& shl gen 4)
  gen

def noEaOccl (gen pro : Nat) : Nat :=
  let pro := pro &&& notAFile
  let gen := gen ||| (pro &&& shl gen 9)
  let pro := pro &&& shl pro 9
  let gen := gen ||| (pro &&& shl gen 18)
  let pro := pro &&& shl pro 18
  let gen := gen ||| (pro &&& shl gen 36)
  gen

def soEaOccl (gen pro : Nat) : Nat :=
  let pro := pro &&& notAFile
  let gen := gen ||| (pro &&& shr gen 7)
  let pro := pro &&& shr pro 7
  let gen := gen ||| (pro &&& shr gen 14)
  let pro := pro &&& shr pro 14
  let gen := gen ||| (pro &&& shr gen 28)
  gen

def westOccl (gen pro : Nat) : Nat :=
  let pro := pro &&& notHFile
  let gen := gen ||| (pro &&& shr gen 1)
  let pro := pro &&& shr pro 1
  let gen := gen ||| (pro &&& shr gen 2)
  let pro := pro &&& shr pro 2
  let gen := gen ||| (pro &&& shr gen 4)
  gen

def soWeOccl (gen pro : Nat) : Nat :=
  let pro := pro &&& notHFile
  let gen := gen ||| (pro &&& shr gen 9)
  let pro := pro &&& shr pro 9
  let gen := gen ||| (pro &&& shr gen 18)
  let pro := pro &&& shr pro 18
  let gen := gen ||| (pro &&& shr gen 36)
  gen

def noWeOccl (gen pro : Nat) : Nat :=
  let pro := pro &&& notHFile
  let gen := gen ||| (pro &&& shl gen 7)
  let pro := pro &&& shl pro 7
  let gen := gen ||| (pro &&& shl gen 14)
  let pro := pro &&& shl pro 14
  let gen := gen ||| (pro &&& shl gen 28)
  gen

/-! ## movegen.cpp: per-piece generators -/

/-- White branch of `getPawnMoves`. -/
def getPawnMovesWhite (bitboard : BitbArray) : Nat :=
  let pawns := bitboard.piece .nPawn &&& bitboard.color .nWhite
  let attacks := shiftNorthEast pawns ||| shiftNorthWest pawns
  let attacks := attacks &&& bitboard.color .nBlack
  let moves := shiftNorth pawns
  let moves := moves &&& bnot (bitboard.color .nColor)
  let aux := moves
  let aux := shl aux 40
  let aux := shr aux 56
  let aux := shl aux 16
  let moves := moves ||| shiftNorth aux
  let moves := moves &&& bnot (bitboard.color .nColor)
  attacks ||| moves

/-- Black branch of `getPawnMoves`. -/
def getPawnMovesBlack (bitboard : BitbArray) : Nat :=
  let pawns := bitboard.piece .nPawn &&& bitboard.color .nBlack
  let attacks := shiftSouthWest pawns ||| shiftSouthEast pawns
  let attacks := attacks &&& bitboard.color .nWhite
  let moves := shiftSouth pawns
  let moves := moves &&& bnot (bitboard.color .nColor)
  let aux := moves
  let aux := shl aux 16
  let aux := shr aux 56
  let aux := shl aux 40
  let moves := moves ||| shiftSouth aux
  let moves := moves &&& bnot (bitboard.color .nColor)
  attacks ||| moves

/-- The method `MoveGenerator::getPawnMoves`. -/
def getPawnMoves (bitboard : BitbArray) : enumColor → Nat
  | .nWhite => getPawnMovesWhite bitboard
  | .nBlack => getPawnMovesBlack bitboard
  | .nColor => getPawnMovesBlack bitboard ||| getPawnMovesWhite bitboard

/-- The method `MoveGenerator::getKingMoves`; there is no separate branch for `nColor`. -/
def getKingMoves (bitboard : BitbArray) (color : enumColor) : Nat :=
  let king := bitboard.piece .nKing &&& bitboard.color color
  let moves := shiftNorth king ||| shiftNorthEast king ||| shiftEast king |||
    shiftSouthEast king ||| shiftSouth king ||| shiftSouthWest king |||
    shiftWest king ||| shiftNorthWest king
  let validSquares := bnot (bitboard.color color)
  moves &&& validSquares

/-- Body of `getKnightMoves` after the `nColor` dispatch. -/
def getKnightMovesOne (bitboard : BitbArray) (color : enumColor) : Nat :=
  let knights := bitboard.piece .nKnight &&& bitboard.color color
  let WWN := shiftNorthWest (shiftWest knights)
  let WNN := shiftNorthWest (shiftNorth knights)
  let ENN := shiftNorthEast (shiftNorth knights)
  let EEN := shiftNorthEast (shiftEast knights)
  let EES := shiftSouthEast (shiftEast knights)
  let ESS := shiftSouthEast (shiftSouth knights)
  let WSS := shiftSouthWest (shiftSouth knights)
  let WWS := shiftSouthWest (shiftWest knights)
  let moves := WWN ||| WNN ||| ENN ||| EEN ||| EES ||| ESS ||| WSS ||| WWS
  let notAlly := bnot (bitboard.color color)
  moves &&& notAlly

/-- The method `MoveGenerator::getKnightMoves`. -/
def getKnightMoves (bitboard : BitbArray) : enumColor → Nat
  | .nColor => getKnightMovesOne bitboard .nBlack ||| getKnightMovesOne bitboard .nWhite
  | color => getKnightMovesOne bitboard color

/-- Body of `getBishopMoves` after the `nColor` dispatch. -/
def getBishopMovesOne (bitboard : BitbArray) (color : enumColor) (piece : enumType) : Nat :=
  let bishops := bitboard.piece piece &&& bitboard.color color
  let empty := bnot (bitboard.color .nColor)
  let noEaOcc := noEaOccl bishops empty
  let soEaOcc := soEaOccl bishops empty
  let noWeOcc := noWeOccl bishops empty
  let soWeOcc := soWeOccl bishops empty
  let noEaAttacks := shiftNorthEast noEaOcc
  let soEaAttacks := shiftSouthEast soEaOcc
  let noWeAttacks := shiftNorthWest noWeOcc
  let soWeAttacks := shiftSouthWest soWeOcc
  let attacks := noEaAttacks ||| soEaAttacks ||| noWeAttacks ||| soWeAttacks
  let attacks := attacks &&& bnot (bitboard.color color)
  let moves := noEaOcc ||| soEaOcc ||| noWeOcc ||| soWeOcc
  let moves := moves &&& bnot (bitboard.piece piece)
  moves ||| attacks

/-- The method `MoveGenerator::getBishopMoves`. -/
def getBishopMoves (bitboard : BitbArray) (color : enumColor) (piece : enumType) : Nat :=
  match color with
  | .nColor => getBishopMovesOne bitboard .nWhite piece ||| getBishopMovesOne bitboard .nBlack piece
  | color => getBishopMovesOne bitboard color piece

/-- Body of `getRookMoves` after the `nColor` dispatch. -/
def getRookMovesOne (bitboard : BitbArray) (color : enumColor) (piece : enumType) : Nat :=
  let rooks := bitboard.piece piece &&& bitboard.color color
  let empty := bnot (bitboard.color .nColor)
  let soutOcc := soutOccl rooks empty
  let nortOcc := nortOccl rooks empty
  let eastOcc := eastOccl rooks empty
  let westOcc := westOccl rooks empty
  let soutAttacks := shiftSouth soutOcc
  let nortAttacks := shiftNorth nortOcc
  let eastAttacks := shiftEast eastOcc
  let westAttacks := shiftWest westOcc
  let attacks := soutAttacks ||| nortAttacks ||| eastAttacks ||| westAttacks
  let attacks := attacks &&& bnot (bitboard.color color)
  let moves := soutOcc ||| nortOcc ||| eastOcc ||| westOcc
  let moves := moves &&& bnot (bitboard.piece piece)
  moves ||| attacks

/-- The method `MoveGenerator::getRookMoves`. -/
def getRookMoves (bitboard : BitbArray) (color : enumColor) (piece : enumType) : Nat :=
  match color with
  | .nColor => getRookMovesOne bitboard .nWhite piece ||| getRookMovesOne bitboard .nBlack piece
  | color => getRookMovesOne bitboard color piece

/-- The method `MoveGenerator::getQueenMoves`. -/
def getQueenMoves (bitboard : BitbArray) : enumColor → Nat
  | .nColor =>
    (getBishopMoves bitboard .nWhite .nQueen ||| getRookMoves bitboard .nWhite .nQueen) |||
    (getBishopMoves bitboard .nBlack .nQueen ||| getRookMoves bitboard .nBlack .nQueen)
  | color => getBishopMoves bitboard color .nQueen ||| getRookMoves bitboard color .nQueen

/-! ## utils.cpp -/

/-- Modelled from the spec: the table `mapPositions` is declared in a header that is
not part of the sources; the spec names squares in algebraic file-letter and
rank-digit notation under the little-endian rank-file mapping (index = rank * 8 + file). -/
def mapPositions : List String :=
  ["a1", "b1", "c1", "d1", "e1", "f1", "g1", "h1",
   "a2", "b2", "c2", "d2", "e2", "f2", "g2", "h2",
   "a3", "b3", "c3", "d3", "e3", "f3", "g3", "h3",
   "a4", "b4", "c4", "d4", "e4", "f4", "g4", "h4",
   "a5", "b5", "c5", "d5", "e5", "f5", "g5", "h5",
   "a6", "b6", "c6", "d6", "e6", "f6", "g6", "h6",
   "a7", "b7", "c7", "d7", "e7", "f7", "g7", "h7",
   "a8", "b8", "c8", "d8", "e8", "f8", "g8", "h8"]

/-- Integer part of the binary logarithm (the value of `log2` on a power of two),
by repeated halving; 64 halvings exhaust a 64-bit word. -/
def log2Fuel : Nat → Nat → Nat
  | 0, _ => 0
  | fuel + 1, x => if x ≤ 1 then 0 else 1 + log2Fuel fuel (x / 2)

/-- Two's complement negation of a 64-bit word (`-pos` on `uint64_t`). -/
def neg64 (x : Nat) : Nat := (2 ^ 64 - x) % 2 ^ 64

/-- The function `chessqdl::posToStr`: name of the square of the least significant set bit. -/
def posToStr (pos : Nat) : String :=
  let pos := pos &&& neg64 pos
  mapPositions.getD (log2Fuel 64 pos) ""

/-- Modelled from the spec: the helper `leastSignificantSetBit` is not part of the
sources; the spec describes it as least-significant-set-bit extraction, the
index of the lowest set bit of a non-zero word. -/
def lsbFuel : Nat → Nat → Nat
  | 0, _ => 0
  | fuel + 1, x => if x % 2 = 1 then 0 else 1 + lsbFuel fuel (x / 2)

/-- Modelled from the spec: the helper `leastSignificantSetBit` is not part of the
sources; index of the lowest set bit of a non-zero 64-bit word. -/
def leastSignificantSetBit (x : Nat) : Nat := lsbFuel 64 x

/-- Modelled from the spec: the helper `moveName` is not part of the sources; the spec
gives a move as the origin square name followed by the destination square name. -/
def moveName (fromPos toPos : Nat) : String := posToStr fromPos ++ posToStr toPos

/-! ## movegen.cpp: promotions and the aggregate move list -/

/-- The two loops `while (uWhitePromotions)` and `while (uBlackPromotions)` of
`getPawnPromotions` (their bodies are the same). -/
def promotionLoop (fromPos : Nat) : Nat → Nat → List String → Option (List String)
  | 0, u, promotions => if u = 0 then some promotions else none
  | fuel + 1, u, promotions =>
    if u = 0 then some promotions
    else
      let i := leastSignificantSetBit u
      let toPos := shl 1 i
      let u := u ^^^ toPos
      let move := moveName fromPos toPos
      promotionLoop fromPos fuel u
        (promotions ++ [move ++ "n", move ++ "b", move ++ "r", move ++ "q"])

/-- The method `MoveGenerator::getPawnPromotions`: returns the updated `pawnMoves`
(passed by reference) and the list of promotions. -/
def getPawnPromotions (pawnMoves fromPos : Nat) : Option (Nat × List String) :=
  let whitePromotions := pawnMoves &&& shl 0xff 56
  let blackPromotions := pawnMoves &&& 0xff
  let pawnMoves := pawnMoves ^^^ whitePromotions
  let pawnMoves := pawnMoves ^^^ blackPromotions
  match promotionLoop fromPos 64 whitePromotions [] with
  | none => none
  | some promotions =>
    match promotionLoop fromPos 64 blackPromotions promotions with
    | none => none
    | some promotions => some (pawnMoves, promotions)

/-- The inner loop `while (umoves)` of `getPseudoLegalMoves`. -/
def destLoop (fromPos : Nat) : Nat → Nat → List String → Option (List String)
  | 0, umoves, moves => if umoves = 0 then some moves else none
  | fuel + 1, umoves, moves =>
    if umoves = 0 then some moves
    else
      let j := leastSignificantSetBit umoves
      let umoves := umoves ^^^ shl 1 j
      let toPos := shl 1 j
      destLoop fromPos fuel umoves (moves ++ [moveName fromPos toPos])

/-- Modelled from the spec: the default value of the parameter `piece` of
`getBishopMoves` is declared in a header that is not part of the sources; the spec
fills the diagonals from the bishops' own squares. -/
def bishopDefaultPiece : enumType := .nBishop

/-- Modelled from the spec: the default value of the parameter `piece` of
`getRookMoves` is declared in a header that is not part of the sources; the spec
fills the orthogonals from the rooks' own squares. -/
def rookDefaultPiece : enumType := .nRook

/-- The statement `switch (k)` of `getPseudoLegalMoves`: the move mask of the isolated
piece, and the move list extended by the promotions of a pawn. -/
def pieceSwitch (bitboardCopy : BitbArray) (color : enumColor) (k : enumType)
    (fromPos : Nat) (moves : List String) : Option (Nat × List String) :=
  match k with
  | .nPawn =>
    match getPawnPromotions (getPawnMoves bitboardCopy color) fromPos with
    | none => none
    | some (pieceMoves, promotions) =>
      some (pieceMoves, if promotions.isEmpty then moves else moves ++ promotions)
  | .nKnight => some (getKnightMoves bitboardCopy color, moves)
  | .nBishop => some (getBishopMoves bitboardCopy color bishopDefaultPiece, moves)
  | .nRook => some (getRookMoves bitboardCopy color rookDefaultPiece, moves)
  | .nQueen => some (getQueenMoves bitboardCopy color, moves)
  | .nKing => some (getKingMoves bitboardCopy color, moves)

/-- The loop `while (upieces)` of `getPseudoLegalMoves`, threading the scratch copy
and the move list. -/
def pieceLoop (color : enumColor) (k : enumType) :
    Nat → Nat → BitbArray → List String → Option (BitbArray × List String)
  | 0, upieces, bitboardCopy, moves => if upieces = 0 then some (bitboardCopy, moves) else none
  | fuel + 1, upieces, bitboardCopy, moves =>
    if upieces = 0 then some (bitboardCopy, moves)
    else
      let i := leastSignificantSetBit upieces
      let upieces := upieces ^^^ shl 1 i
      let bitboardCopy := bitboardCopy.setPiece k (0 ||| shl 1 i)
      let fromPos := shl 1 i
      match pieceSwitch bitboardCopy color k fromPos moves with
      | none => none
      | some (pieceMoves, moves) =>
        match destLoop fromPos 64 pieceMoves moves with
        | none => none
        | some moves => pieceLoop color k fuel upieces bitboardCopy moves

/-- The loop `for (int k = nPawn; k <= nKing; k++)` of `getPseudoLegalMoves`, over the
piece types still to be visited. -/
def typeLoop (bitboard : BitbArray) (color : enumColor) :
    List enumType → BitbArray → List String → Option (BitbArray × List String)
  | [], bitboardCopy, moves => some (bitboardCopy, moves)
  | k :: ks, bitboardCopy, moves =>
    let pieces := bitboard.piece k
    let pieces := pieces &&& bitboard.color color
    match pieceLoop color k 64 pieces bitboardCopy moves with
    | none => none
    | some (bitboardCopy, moves) => typeLoop bitboard color ks bitboardCopy moves

/-- Body of `getPseudoLegalMoves` after the `nColor` dispatch. -/
def getPseudoLegalMovesOne (bitboard : BitbArray) (color : enumColor) : Option (List String) :=
  match typeLoop bitboard color [.nPawn, .nKnight, .nBishop, .nRook, .nQueen, .nKing]
      bitboard [] with
  | none => none
  | some (_, moves) => some moves

/-- The method `MoveGenerator::getPseudoLegalMoves`. -/
def getPseudoLegalMoves (bitboard : BitbArray) : enumColor → Option (List String)
  | .nColor =>
    match getPseudoLegalMovesOne bitboard .nWhite with
    | none => none
    | some white =>
      match getPseudoLegalMovesOne bitboard .nBlack with
      | none => none
      | some black => some (white ++ black)
  | color => getPseudoLegalMovesOne bitboard color

/-! ## utils.cpp: evaluation

The statement `score += 0.1 * (m - mPrime)` is computed in IEEE-754 binary64 and
converted back to `int`.  Every double that occurs there is an integer multiple of
`2 ^ (-55)` with magnitude far below the overflow range, so a double is represented
by its integer numerator over the fixed denominator `2 ^ 55`, and rounding to
nearest (ties to even) keeps 53 significant bits of the numerator. -/

/-- Number of binary digits of a natural number, by repeated halving. -/
def bitLength : Nat → Nat → Nat
  | 0, _ => 0
  | fuel + 1, x => if x = 0 then 0 else 1 + bitLength fuel (x / 2)

/-- Rounding of a magnitude to 53 significant bits, to nearest, ties to even. -/
def round53 (a : Nat) : Nat :=
  let s := bitLength 128 a - 53
  let q := a >>> s
  let r := a % 2 ^ s
  if 2 * r < 2 ^ s then q <<< s
  else if 2 * r = 2 ^ s then (if q % 2 = 0 then q <<< s else (q + 1) <<< s)
  else (q + 1) <<< s

/-- Rounding of a signed numerator (over `2 ^ 55`) to the nearest double. -/
def roundDouble (z : Int) : Int :=
  if 0 ≤ z then (round53 z.toNat : Int) else -(round53 (-z).toNat : Int)

/-- Numerator over `2 ^ 55` of the double nearest to the literal `0.1`. -/
def pointOne : Int := 3602879701896397

/-- The statement `score += 0.1 * (m - mPrime)` on an `int score`: the product and
the sum are rounded to double, the result is truncated toward zero. -/
def addMobility (score d : Int) : Int :=
  let product := roundDouble (pointOne * d)
  let sum := roundDouble (score * 2 ^ 55 + product)
  Int.tdiv sum (2 ^ 55)

/-- The function `chessqdl::evaluateBoard`. -/
def evaluateBoard (board : BitbArray) (color : enumColor) : Option Int :=
  let k : Int := popcount (board.piece .nKing &&& board.color color)
  let kPrime : Int := popcount (board.piece .nKing) - k
  let q : Int := popcount (board.piece .nQueen &&& board.color color)
  let qPrime : Int := popcount (board.piece .nQueen) - q
  let r : Int := popcount (board.piece .nRook &&& board.color color)
  let rPrime : Int := popcount (board.piece .nRook) - r
  let n : Int := popcount (board.piece .nKnight &&& board.color color)
  let nPrime : Int := popcount (board.piece .nKnight) - n
  let b : Int := popcount (board.piece .nBishop &&& board.color color)
  let bPrime : Int := popcount (board.piece .nBishop) - b
  let p : Int := popcount (board.piece .nPawn &&& board.color color)
  let pPrime : Int := popcount (board.piece .nPawn) - p
  let enemyColor := if color = .nWhite then enumColor.nBlack else enumColor.nWhite
  match getPseudoLegalMoves board color with
  | none => none
  | some ownMoves =>
    match getPseudoLegalMoves board enemyColor with
    | none => none
    | some enemyMoves =>
      let m : Int := ownMoves.length
      let mPrime : Int := enemyMoves.length
      let score : Int := 200 * (k - kPrime) + 9 * (q - qPrime) + 5 * (r - rPrime) +
        3 * (n - nPrime + b - bPrime) + (p - pPrime)
      some (addMobility score (m - mPrime))

/-! ## Position invariants -/

/-- The position invariants the generators rely on: every mask is a 64-bit word,
the union mask is the union of the two colour masks, and the colours are disjoint. -/
structure ColorsOk (b : BitbArray) : Prop where
  wf : b.WF
  union : b.all = b.white ||| b.black
  disjoint : b.white &&& b.black = 0

/-! ## Board geometry and destination sets in the words of the claims -/

/-- File (0 = a .. 7 = h) of a square index. -/
def fileOf (sq : Nat) : Nat := sq % 8

/-- Rank (0 = first rank .. 7 = eighth rank) of a square index. -/
def rankOf (sq : Nat) : Nat := sq / 8

/-- Square `u` lies strictly between `s` and `t` on their common file or rank. -/
def betweenOrth (s t u : Nat) : Prop :=
  (fileOf s = fileOf t ∧ fileOf u = fileOf s ∧
    ((rankOf s < rankOf u ∧ rankOf u < rankOf t) ∨ (rankOf t < rankOf u ∧ rankOf u < rankOf s))) ∨
  (rankOf s = rankOf t ∧ rankOf u = rankOf s ∧
    ((fileOf s < fileOf u ∧ fileOf u < fileOf t) ∨ (fileOf t < fileOf u ∧ fileOf u < fileOf s)))

instance (s t u : Nat) : Decidable (betweenOrth s t u) := by
  unfold betweenOrth; infer_instance

/-- Squares `s` and `t` lie on a common diagonal (either orientation). -/
def sameDiagonal (s t : Nat) : Prop :=
  fileOf s + rankOf t = fileOf t + rankOf s ∨ fileOf s + rankOf s = fileOf t + rankOf t

instance (s t : Nat) : Decidable (sameDiagonal s t) := by
  unfold sameDiagonal; infer_instance

/-- Square `u` lies strictly between `s` and `t` on their common diagonal. -/
def betweenDiag (s t u : Nat) : Prop :=
  (fileOf s + rankOf t = fileOf t + rankOf s ∧ fileOf u + rankOf s = fileOf s + rankOf u ∧
    ((rankOf s < rankOf u ∧ rankOf u < rankOf t) ∨ (rankOf t < rankOf u ∧ rankOf u < rankOf s))) ∨
  (fileOf s + rankOf s = fileOf t + rankOf t ∧ fileOf u + rankOf u = fileOf s + rankOf s ∧
    ((rankOf s < rankOf u ∧ rankOf u < rankOf t) ∨ (rankOf t < rankOf u ∧ rankOf u < rankOf s)))

instance (s t u : Nat) : Decidable (betweenDiag s t u) := by
  unfold betweenDiag; infer_instance

/-- Destination squares of the rooks of colour `c`, in the words of the claim: `t` is
on the board and not occupied by colour `c`, and some rook `s` of colour `c` is on the
same rank or file as `t`, different from `t`, with every square strictly between
them unoccupied. -/
def rookDestination (b : BitbArray) (c : enumColor) (t : Nat) : Prop :=
  t < 64 ∧ (b.color c).testBit t = false ∧
  ∃ s, s < 64 ∧ ((b.rook &&& b.color c).testBit s = true ∧ s ≠ t ∧
    (fileOf s = fileOf t ∨ rankOf s = rankOf t) ∧
    ∀ u, u < 64 → betweenOrth s t u → b.all.testBit u = false)

instance (b : BitbArray) (c : enumColor) (t : Nat) : Decidable (rookDestination b c t) := by
  unfold rookDestination; infer_instance

/-- Destination squares of the bishops of colour `c`, in the words of the claim: `t`
is on the board and not occupied by colour `c`, and some bishop `s` of colour `c` is
on a common diagonal with `t`, different from `t`, with every square strictly
between them on that diagonal unoccupied. -/
def bishopDestination (b : BitbArray) (c : enumColor) (t : Nat) : Prop :=
  t < 64 ∧ (b.color c).testBit t = false ∧
  ∃ s, s < 64 ∧ ((b.bishop &&& b.color c).testBit s = true ∧ s ≠ t ∧
    sameDiagonal s t ∧
    ∀ u, u < 64 → betweenDiag s t u → b.all.testBit u = false)

instance (b : BitbArray) (c : enumColor) (t : Nat) : Decidable (bishopDestination b c t) := by
  unfold bishopDestination; infer_instance

/-- The set of squares of a mask, as a list of square indices in increasing order. -/
def squaresOf (x : Nat) : List Nat := (List.range 64).filter (fun i => x.testBit i)

/-! ## Auxiliary predicates for the occluded fills -/

/-- Square `t` is reached from a set bit of `gen` by at most `n` steps of `d` bit
positions upward, every square after the origin being in `pro`. -/
def reachL (d gen pro n t : Nat) : Prop :=
  ∃ k, k ≤ n ∧ k * d ≤ t ∧ gen.testBit (t - k * d) = true ∧
    ∀ j, j < k → pro.testBit (t - j * d) = true

/-- The `m` squares ending at `t` in steps of `d` bit positions are all in `pro`. -/
def runL (d pro m t : Nat) : Prop :=
  ∀ j, j < m → j * d ≤ t ∧ pro.testBit (t - j * d) = true

/-- Square `t` is reached from a set bit of `gen` by at most `n` steps of `d` bit
positions downward, every square after the origin being in `pro`. -/
def reachR (d gen pro n t : Nat) : Prop :=
  ∃ k, k ≤ n ∧ gen.testBit (t + k * d) = true ∧
    ∀ j, j < k → pro.testBit (t + j * d) = true

/-- The `m` squares starting at `t` in steps of `d` bit positions are all in `pro`. -/
def runR (d pro m t : Nat) : Prop :=
  ∀ j, j < m → pro.testBit (t + j * d) = true

/-- The three doubling steps shared by the upward fills (`nortOccl`, `eastOccl`,
`noEaOccl`, `noWeOccl`), for a step of `d` bit positions. -/
def koggeL (d gen pro : Nat) : Nat :=
  let gen := gen ||| (pro &&& shl gen d)
  let pro := pro &&& shl pro d
  let gen := gen ||| (pro &&& shl gen (2 * d))
  let pro := pro &&& shl pro (2 * d)
  let gen := gen ||| (pro &&& shl gen (4 * d))
  gen

/-- The three doubling steps shared by the downward fills (`soutOccl`, `westOccl`,
`soEaOccl`, `soWeOccl`), for a step of `d` bit positions. -/
def koggeR (d gen pro : Nat) : Nat :=
  let gen := gen ||| (pro &&& shr gen d)
  let pro := pro &&& shr pro d
  let gen := gen ||| (pro &&& shr gen (2 * d))
  let pro := pro &&& shr pro (2 * d)
  let gen := gen ||| (pro &&& shr gen (4 * d))
  gen

/-- Example position for the occlusion property: a white rook on a1 and one further
piece of type `k` on a4, white when `a4White` holds and black otherwise. -/
def rookOnA1 (k : enumType) (a4White : Bool) : BitbArray :=
  let a1 := shl 1 0
  let a4 := shl 1 24
  let base : BitbArray :=
    { white := if a4White then a1 ||| a4 else a1
      black := if a4White then 0 else a4
      all := a1 ||| a4
      pawn := 0
      knight := 0
      bishop := 0
      rook := a1
      queen := 0
      king := 0 }
  base.setPiece k (base.piece k ||| a4)

/-- Example position: a single white bishop on square `sq` of an otherwise empty board. -/
def loneBishop (sq : Nat) : BitbArray :=
  { white := shl 1 sq
    black := 0
    all := shl 1 sq
    pawn := 0
    knight := 0
    bishop := shl 1 sq
    rook := 0
    queen := 0
    king := 0 }

/-- Example position for the combined-colour king query: a white king on e1 and a
black pawn on e2. -/
def kingFacingPawn : BitbArray :=
  { white := shl 1 4
    black := shl 1 12
    all := shl 1 4 ||| shl 1 12
    pawn := shl 1 12
    knight := 0
    bishop := 0
    rook := 0
    queen := 0
    king := shl 1 4 }

/-- Example position: a single white pawn on the seventh rank, on file `x` (0 = a). -/
def lonePawnOnSeventh (x : Nat) : BitbArray :=
  { white := shl 1 (48 + x)
    black := 0
    all := shl 1 (48 + x)
    pawn := shl 1 (48 + x)
    knight := 0
    bishop := 0
    rook := 0
    queen := 0
    king := 0 }

/-! ## Auxiliary description of the bit-extraction loops -/

/-- The common shape of the loops `while (u) { i = leastSignificantSetBit(u); u ^= 1 << i; ... }`:
the body is run on the extracted index and the loop state. -/
def bitIter {σ : Type} (body : Nat → σ → Option σ) : Nat → Nat → σ → Option σ
  | 0, u, s => if u = 0 then some s else none
  | fuel + 1, u, s =>
    if u = 0 then some s
    else
      match body (leastSignificantSetBit u) s with
      | none => none
      | some s' => bitIter body fuel (u ^^^ shl 1 (leastSignificantSetBit u)) s'

/-- Running a loop body over a list of indices, left to right. -/
def runBody {σ : Type} (body : Nat → σ → Option σ) : List Nat → σ → Option σ
  | [], s => some s
  | i :: is, s =>
    match body i s with
    | none => none
    | some s' => runBody body is s'

/-- The four promotion moves for the destination bit `i`, in the order n, b, r, q. -/
def promotionsTo (fromPos i : Nat) : List String :=
  [moveName fromPos (shl 1 i) ++ "n", moveName fromPos (shl 1 i) ++ "b",
   moveName fromPos (shl 1 i) ++ "r", moveName fromPos (shl 1 i) ++ "q"]

/-- One pass of the body of the loop `while (upieces)` for the origin bit `i`. -/
def pieceBody (color : enumColor) (k : enumType) (i : Nat) (st : BitbArray × List String) :
    Option (BitbArray × List String) :=
  match pieceSwitch (st.1.setPiece k (0 ||| shl 1 i)) color k (shl 1 i) st.2 with
  | none => none
  | some (pieceMoves, moves) =>
    match destLoop (shl 1 i) 64 pieceMoves moves with
    | none => none
    | some moves => some (st.1.setPiece k (0 ||| shl 1 i), moves)

/-- Name of the square with index `t` in the table `mapPositions`. -/
def sqName (t : Nat) : String := mapPositions.getD t ""

/-- The promotion letters in the order in which `getPawnPromotions` emits them. -/
def promotionSuffixes : List String := ["n", "b", "r", "q"]

/-- The mask `U64(0xffL << 56)` of the eighth rank. -/
def rank8 : Nat := shl 0xff 56

/-- The mask `U64(0xffL)` of the first rank. -/
def rank1 : Nat := 0xff

/-! ## Closed form of the aggregate move list -/

/-- The generator selected by `switch (k)` in `getPseudoLegalMoves`. -/
def generatorOf (k : enumType) (board : BitbArray) (color : enumColor) : Nat :=
  match k with
  | .nPawn => getPawnMoves board color
  | .nKnight => getKnightMoves board color
  | .nBishop => getBishopMoves board color .nBishop
  | .nRook => getRookMoves board color .nRook
  | .nQueen => getQueenMoves board color
  | .nKing => getKingMoves board color

/-- One plain move per set bit of a move mask, in increasing bit order. -/
def plainMoves (i mask : Nat) : List String :=
  (squaresOf mask).flatMap (fun j => [moveName (shl 1 i) (shl 1 j)])

/-- The moves emitted for the origin bit `i` of piece type `k`: the piece-type mask
is replaced by the single bit `i`, the generator is run, a pawn's promotions come
first and the plain moves follow. -/
def originMoves (board : BitbArray) (color : enumColor) (k : enumType) (i : Nat) : List String :=
  match k with
  | .nPawn =>
    (squaresOf (generatorOf k (board.setPiece k (shl 1 i)) color &&& rank8) ++
      squaresOf (generatorOf k (board.setPiece k (shl 1 i)) color &&& rank1)).flatMap
        (promotionsTo (shl 1 i)) ++
    plainMoves i (generatorOf k (board.setPiece k (shl 1 i)) color ^^^
      (generatorOf k (board.setPiece k (shl 1 i)) color &&& rank8) ^^^
      (generatorOf k (board.setPiece k (shl 1 i)) color &&& rank1))
  | _ => plainMoves i (generatorOf k (board.setPiece k (shl 1 i)) color)

/-- The piece types in the order of the loop `for (int k = nPawn; k <= nKing; k++)`. -/
def pieceTypes : List enumType := [.nPawn, .nKnight, .nBishop, .nRook, .nQueen, .nKing]

/-- The moves of all pieces of type `k` and colour `color`, origin by origin. -/
def typeMoves (board : BitbArray) (color : enumColor) (k : enumType) : List String :=
  (squaresOf (board.piece k &&& board.color color)).flatMap (originMoves board color k)

/-- The move list of one colour: piece types in loop order, origins in increasing
bit order, destinations in increasing bit order. -/
def moveList (board : BitbArray) (color : enumColor) : List String :=
  pieceTypes.flatMap (typeMoves board color)

/-- Two bitboard sets with the same colour and union masks. -/
def SameColors (b b' : BitbArray) : Prop :=
  b.white = b'.white ∧ b.black = b'.black ∧ b.all = b'.all

/-! ## Evaluation in the words of the claims -/

/-- The opposing colour of White or Black. -/
def enemyOf : enumColor → enumColor
  | .nWhite => .nBlack
  | _ => .nWhite

/-- Truncation of a rational number toward zero. -/
def truncateTowardZero (x : ℚ) : ℤ := if 0 ≤ x then ⌊x⌋ else ⌈x⌉

/-- The exact value of the evaluation formula: each count is the population count of a
piece-type mask intersected with the own or the enemy colour mask, `m` and `m'` are
the numbers of own and enemy moves. -/
def exactScore (board : BitbArray) (own enemy : enumColor) (m m' : Nat) : ℚ :=
  200 * ((popcount (board.king &&& board.color own) : ℚ) -
      popcount (board.king &&& board.color enemy)) +
  9 * ((popcount (board.queen &&& board.color own) : ℚ) -
      popcount (board.queen &&& board.color enemy)) +
  5 * ((popcount (board.rook &&& board.color own) : ℚ) -
      popcount (board.rook &&& board.color enemy)) +
  3 * ((popcount (board.knight &&& board.color own) : ℚ) -
      popcount (board.knight &&& board.color enemy) +
      popcount (board.bishop &&& board.color own) -
      popcount (board.bishop &&& board.color enemy)) +
  ((popcount (board.pawn &&& board.color own) : ℚ) -
      popcount (board.pawn &&& board.color enemy)) +
  ((m : ℚ) - m') / 10

/-- The integer part of the evaluation as the source computes it: the enemy count of a
piece type is the total count minus the own count. -/
def materialScore (board : BitbArray) (color : enumColor) : Int :=
  200 * ((popcount (board.piece .nKing &&& board.color color) : Int) -
    ((popcount (board.piece .nKing) : Int) -
      (popcount (board.piece .nKing &&& board.color color) : Int))) +
  9 * ((popcount (board.piece .nQueen &&& board.color color) : Int) -
    ((popcount (board.piece .nQueen) : Int) -
      (popcount (board.piece .nQueen &&& board.color color) : Int))) +
  5 * ((popcount (board.piece .nRook &&& board.color color) : Int) -
    ((popcount (board.piece .nRook) : Int) -
      (popcount (board.piece .nRook &&& board.color color) : Int))) +
  3 * ((popcount (board.piece .nKnight &&& board.color color) : Int) -
    ((popcount (board.piece .nKnight) : Int) -
      (popcount (board.piece .nKnight &&& board.color color) : Int)) +
    (popcount (board.piece .nBishop &&& board.color color) : Int) -
    ((popcount (board.piece .nBishop) : Int) -
      (popcount (board.piece .nBishop &&& board.color color) : Int))) +
  ((popcount (board.piece .nPawn &&& board.color color) : Int) -
    ((popcount (board.piece .nPawn) : Int) -
      (popcount (board.piece .nPawn &&& board.color color) : Int)))

/-- Every piece-type mask lies inside the union of the two colour masks. -/
def PiecesInColors (b : BitbArray) : Prop :=
  ∀ k, b.piece k &&& (b.white ||| b.black) = b.piece k

/-- Example position for the truncation of the score: a white king on a1, a white pawn
on h2 and a black king on e5 (White is a pawn up and has three moves fewer). -/
def pawnUpFewerMoves : BitbArray :=
  { white := shl 1 0 ||| shl 1 15
    black := shl 1 36
    all := shl 1 0 ||| shl 1 15 ||| shl 1 36
    pawn := shl 1 15
    knight := 0
    bishop := 0
    rook := 0
    queen := 0
    king := shl 1 0 ||| shl 1 36 }

/-! ## bitboard.cpp: the description constructor -/

/-- The position with all eight masks cleared (`b.reset()` on every entry). -/
def emptyBoard : BitbArray :=
  { white := 0, black := 0, all := 0, pawn := 0, knight := 0, bishop := 0, rook := 0,
    queen := 0, king := 0 }

/-- The call `std::bitset<64>::set(pos)` with an `int` argument: the bit is set when
`pos` is an index of the word; otherwise `std::out_of_range` is thrown, which is
`none` here. -/
def bitsetSet (x : Nat) (pos : Int) : Option Nat :=
  if 0 ≤ pos ∧ pos < 64 then some (x ||| shl 1 pos.toNat) else none

/-- One piece case of the `switch`: the bit `pos` is set in the mask of type `k`, then
in the white mask when the character is the upper-case letter, else in the black mask. -/
def setPieceAt (b : BitbArray) (k : enumType) (isUpper : Bool) (pos : Int) : Option BitbArray :=
  match bitsetSet (b.piece k) pos with
  | none => none
  | some v =>
    if isUpper then
      match bitsetSet (b.setPiece k v).white pos with
      | none => none
      | some w => some { b.setPiece k v with white := w }
    else
      match bitsetSet (b.setPiece k v).black pos with
      | none => none
      | some w => some { b.setPiece k v with black := w }

/-- The body of the loop over the description: the `switch (tolower(fen[i]))` followed
by `pos++`.  The result is the updated array and cursor, or `none` when `set` throws. -/
def fenStep (b : BitbArray) (pos : Int) (c : Char) : Option (BitbArray × Int) :=
  if c.toLower = '/' then some (b, pos - 17 + 1)
  else if c.toLower = 'p' then
    (setPieceAt b .nPawn (decide (c = 'P')) pos).map (fun b => (b, pos + 1))
  else if c.toLower = 'n' then
    (setPieceAt b .nKnight (decide (c = 'N')) pos).map (fun b => (b, pos + 1))
  else if c.toLower = 'b' then
    (setPieceAt b .nBishop (decide (c = 'B')) pos).map (fun b => (b, pos + 1))
  else if c.toLower = 'r' then
    (setPieceAt b .nRook (decide (c = 'R')) pos).map (fun b => (b, pos + 1))
  else if c.toLower = 'q' then
    (setPieceAt b .nQueen (decide (c = 'Q')) pos).map (fun b => (b, pos + 1))
  else if c.toLower = 'k' then
    (setPieceAt b .nKing (decide (c = 'K')) pos).map (fun b => (b, pos + 1))
  else some (b, pos + ((c.toNat : Int) - ('0'.toNat : Int) - 1) + 1)

/-- The call `fen.find_first_of(c)`: index of the first occurrence, `none` for `npos`. -/
def findFirstOf (c : Char) : List Char → Option Nat
  | [] => none
  | x :: xs => if x = c then some 0 else (findFirstOf c xs).map (fun i => i + 1)

/-- The loop `for (i = 0; i < fen.find_first_of(' '); i++)`, with `n` iterations left
and the next index `i`. -/
def fenLoop (fen : List Char) : Nat → Nat → BitbArray → Int → Option (BitbArray × Int)
  | 0, _, b, pos => some (b, pos)
  | n + 1, i, b, pos =>
    match fenStep b pos (fen.getD i (Char.ofNat 0)) with
    | none => none
    | some (b, pos) => fenLoop fen n (i + 1) b pos

/-- The constructor `Bitboard::Bitboard(std::string fen)`.  The result is `none` when
`set` throws, and also when the description has no space (the loop bound is then
`npos` and the loop reads past the end of the string).  The characters of the string
stand for the bytes the code reads, which is exact for descriptions of ASCII
characters. -/
def Bitboard.fromFen (fen : String) : Option BitbArray :=
  match findFirstOf ' ' fen.data with
  | none => none
  | some stop =>
    match fenLoop fen.data stop 0 emptyBoard 56 with
    | none => none
    | some (b, _) => some { b with all := b.black ||| b.white }


/-! ## Descriptions in the words of the claims -/

/-- The twelve piece letters of a description. -/
def pieceLetters : List Char := ['p', 'n', 'b', 'r', 'q', 'k', 'P', 'N', 'B', 'R', 'Q', 'K']

/-- The digits 1 to 8 of a description. -/
def skipDigits : List Char := ['1', '2', '3', '4', '5', '6', '7', '8']

/-- The piece type named by a letter, in either case. -/
def letterType (c : Char) : Option enumType :=
  if c = 'p' ∨ c = 'P' then some .nPawn
  else if c = 'n' ∨ c = 'N' then some .nKnight
  else if c = 'b' ∨ c = 'B' then some .nBishop
  else if c = 'r' ∨ c = 'R' then some .nRook
  else if c = 'q' ∨ c = 'Q' then some .nQueen
  else if c = 'k' ∨ c = 'K' then some .nKing
  else none

/-- Upper-case piece letters stand for white pieces. -/
def isWhiteLetter (c : Char) : Bool := decide (c ∈ ['P', 'N', 'B', 'R', 'Q', 'K'])

/-- Lower-case piece letters stand for black pieces. -/
def isBlackLetter (c : Char) : Bool := decide (c ∈ ['p', 'n', 'b', 'r', 'q', 'k'])

/-- The squares a character of a rank accounts for: a letter is one occupied square, a
digit is that many empty squares. -/
def squaresOfChar (c : Char) : List (Option Char) :=
  if c ∈ pieceLetters then [some c] else List.replicate (c.toNat - 48) none

/-- The eight squares of a rank, from file a to file h. -/
def expandRank (r : List Char) : List (Option Char) := r.flatMap squaresOfChar

/-- A rank of piece letters and digits 1 to 8 that accounts for exactly eight squares. -/
def WellFormedRank (r : List Char) : Prop :=
  (∀ c, c ∈ r → c ∈ pieceLetters ∨ c ∈ skipDigits) ∧ (expandRank r).length = 8

instance (r : List Char) : Decidable (WellFormedRank r) := by
  unfold WellFormedRank; infer_instance

/-- Eight well-formed ranks, the eighth rank first. -/
def WellFormedRanks (ranks : List (List Char)) : Prop :=
  ranks.length = 8 ∧ ∀ r, r ∈ ranks → WellFormedRank r

instance (ranks : List (List Char)) : Decidable (WellFormedRanks ranks) := by
  unfold WellFormedRanks; infer_instance

/-- The ranks written one after the other, separated by `/`. -/
def joinRanks : List (List Char) → List Char
  | [] => []
  | [r] => r
  | r :: r' :: rs => r ++ '/' :: joinRanks (r' :: rs)

/-- A description: the ranks separated by `/`, a space, and any further content. -/
def description (ranks : List (List Char)) (rest : List Char) : String :=
  String.mk (joinRanks ranks ++ ' ' :: rest)

/-- The character standing on square `sq` in a description of eight ranks: the letter
of the square, or `none` when the square is covered by a digit.  Rank 8 is the first
rank of the list, file a the first square of a rank. -/
def contentAt (ranks : List (List Char)) (sq : Nat) : Option Char :=
  (expandRank (ranks.getD (7 - sq / 8) [])).getD (sq % 8) none

/-- The position invariants of the data model: the union mask is the union of the
colour masks, the colours are disjoint, the six piece-type masks are pairwise disjoint
and their union is the union mask. -/
def PositionInvariant (b : BitbArray) : Prop :=
  b.all = b.white ||| b.black ∧ b.white &&& b.black = 0 ∧
  (∀ k k' : enumType, k ≠ k' → b.piece k &&& b.piece k' = 0) ∧
  b.pawn ||| b.knight ||| b.bishop ||| b.rook ||| b.queen ||| b.king = b.all

/-! ## Auxiliary description of the description constructor -/

/-- The loop body run over a list of characters. -/
def runFen : List Char → BitbArray → Int → Option (BitbArray × Int)
  | [], b, pos => some (b, pos)
  | c :: cs, b, pos =>
    match fenStep b pos c with
    | none => none
    | some (b, pos) => runFen cs b pos

/-- The array after a piece of type `k` and the given colour is put on square `p`. -/
def place (b : BitbArray) (k : enumType) (isUpper : Bool) (p : Nat) : BitbArray :=
  if isUpper then { b.setPiece k (b.piece k ||| shl 1 p) with white := b.white ||| shl 1 p }
  else { b.setPiece k (b.piece k ||| shl 1 p) with black := b.black ||| shl 1 p }

/-- The array after the letters of a list of (square, letter) pairs are put on it. -/
def placeAll (b : BitbArray) : List (Nat × Char) → BitbArray
  | [] => b
  | (p, c) :: l =>
    match letterType c with
    | none => placeAll b l
    | some k => placeAll (place b k (isWhiteLetter c) p) l

/-- The (square, letter) pairs of a rank whose first square is `p`. -/
def traceRank : List Char → Nat → List (Nat × Char)
  | [], _ => []
  | c :: cs, p =>
    if c ∈ pieceLetters then (p, c) :: traceRank cs (p + 1)
    else traceRank cs (p + (c.toNat - 48))

/-- The (square, letter) pairs of a list of ranks whose last rank is the first rank of
the board. -/
def traceRanks : List (List Char) → List (Nat × Char)
  | [] => []
  | r :: rs => traceRank r (8 * rs.length) ++ traceRanks rs

/-! ## Example descriptions -/

/-- The ranks of the standard start position, the eighth rank first. -/
def standardRanks : List (List Char) :=
  ["rnbqkbnr".data, "pppppppp".data, "8".data, "8".data, "8".data, "8".data,
    "PPPPPPPP".data, "RNBQKBNR".data]

/-- The fields of a description that follow the ranks of the standard start position. -/
def standardRest : List Char := "w KQkq - 0 1".data

/-! ## Directions, one-square steps and slides -/

/-- The eight directions of the board. -/
inductive Direction where
  | north | northEast | east | southEast | south | southWest | west | northWest
  deriving DecidableEq, Repr

/-- The file offset of one step in a direction (east is towards file h). -/
def Direction.df : Direction → Int
  | .north => 0 | .northEast => 1 | .east => 1 | .southEast => 1
  | .south => 0 | .southWest => -1 | .west => -1 | .northWest => -1

/-- The rank offset of one step in a direction (north is towards rank 8). -/
def Direction.dr : Direction → Int
  | .north => 1 | .northEast => 1 | .east => 0 | .southEast => -1
  | .south => -1 | .southWest => -1 | .west => 0 | .northWest => 1

/-- The shift primitive of a direction. -/
def shiftDir : Direction → Nat → Nat
  | .north => shiftNorth | .northEast => shiftNorthEast | .east => shiftEast
  | .southEast => shiftSouthEast | .south => shiftSouth | .southWest => shiftSouthWest
  | .west => shiftWest | .northWest => shiftNorthWest

/-- The occluded-fill routine of a direction. -/
def occlDir : Direction → Nat → Nat → Nat
  | .north => nortOccl | .northEast => noEaOccl | .east => eastOccl
  | .southEast => soEaOccl | .south => soutOccl | .southWest => soWeOccl
  | .west => westOccl | .northWest => noWeOccl

/-- The index of the square on file `f` and rank `r` (both counted from 0), when the
square lies on the board. -/
def squareAt (f r : Int) : Option Nat :=
  if 0 ≤ f ∧ f < 8 ∧ 0 ≤ r ∧ r < 8 then some (8 * r + f).toNat else none

/-- The square one step from `s` in direction `d`, when it lies on the board. -/
def stepSq (d : Direction) (s : Nat) : Option Nat :=
  squareAt ((fileOf s : Int) + d.df) ((rankOf s : Int) + d.dr)

/-- The naive flood fill, written after the text of the specification: `n` rounds of
`g <- g | (pro & shiftDir(g))`, starting from `g = gen`. -/
def floodIter (d : Direction) (gen pro : Nat) : Nat → Nat
  | 0 => gen
  | n + 1 => floodIter d gen pro n ||| (pro &&& shiftDir d (floodIter d gen pro n))

/-- The naive flood fill of seven rounds. -/
def floodFill (d : Direction) (gen pro : Nat) : Nat := floodIter d gen pro 7

/-- The squares a slider on `s` passes when it slides at most `n` steps in direction
`d` through squares that are not occupied: `s` itself, then every further square as long
as it is on the board and empty.  The first occupied square is not part of the slide. -/
def slide (d : Direction) (occ : Nat) : Nat → Nat → List Nat
  | 0, s => [s]
  | n + 1, s =>
    s :: (match stepSq d s with
      | none => []
      | some u => if occ.testBit u then [] else slide d occ n u)

/-! ## Pawn moves, knight moves and the order of the move list in the words of the claims -/

/-- The mask of the second rank, the home rank of the white pawns. -/
def rank2 : Nat := shl 0xff 8

/-- The mask of the seventh rank, the home rank of the black pawns. -/
def rank7 : Nat := shl 0xff 48

/-- The distance between two file numbers or two rank numbers. -/
def absDiff (a b : Nat) : Nat := (a - b) + (b - a)

/-- Square `t` is a knight's jump away from square `s`: the file distance and the rank
distance are 1 and 2 in some order. -/
def knightJump (s t : Nat) : Prop :=
  (absDiff (fileOf t) (fileOf s) = 1 ∧ absDiff (rankOf t) (rankOf s) = 2) ∨
  (absDiff (fileOf t) (fileOf s) = 2 ∧ absDiff (rankOf t) (rankOf s) = 1)

instance (s t : Nat) : Decidable (knightJump s t) := by
  unfold knightJump; infer_instance

/-- The moves listed for one destination square `j` of the piece of type `k` on square
`i`: the four promotion variants in the order n, b, r, q when a pawn arrives on the
eighth or the first rank, the plain move otherwise. -/
def movesTo (k : enumType) (i j : Nat) : List String :=
  if k = .nPawn ∧ (rankOf j = 7 ∨ rankOf j = 0) then promotionsTo (shl 1 i) j
  else [moveName (shl 1 i) (shl 1 j)]

/-- The move list in the order the specification describes: piece types in the order
pawn, knight, bishop, rook, queen, king; for one piece type the origin squares in
increasing index; for one origin square the destination squares in increasing index. -/
def orderedMoves (board : BitbArray) (color : enumColor) : List String :=
  pieceTypes.flatMap (fun k =>
    (squaresOf (board.piece k &&& board.color color)).flatMap (fun i =>
      (squaresOf (generatorOf k (board.setPiece k (shl 1 i)) color)).flatMap (movesTo k i)))

/-! ## Per-square isolation in the words of the claims -/

/-- The bitwise OR of the masks `f i` over the squares `i` of a list. -/
def unionOver (l : List Nat) (f : Nat → Nat) : Nat :=
  (l.map f).foldr (fun x y => x ||| y) 0

/-- A map of 64-bit masks that works square by square: the image of a mask is a 64-bit
mask, the union of the images of its single squares. -/
def Additive (F : Nat → Nat) : Prop :=
  ∀ P, P < 2 ^ 64 → F P < 2 ^ 64 ∧
    ∀ t, (F P).testBit t = true ↔
      ∃ i, i < 64 ∧ P.testBit i = true ∧ (F (shl 1 i)).testBit t = true

/-! ## The cursor of the description constructor -/

theorem testBit_shl (x n i : Nat) :
    (shl x n).testBit i = (decide (i < 64) && (decide (n ≤ i) && x.testBit (i - n))) := by
  unfold shl
  rw [Nat.testBit_mod_two_pow, Nat.testBit_shiftLeft]

theorem testBit_shr (x n i : Nat) : (shr x n).testBit i = x.testBit (i + n) := by
  unfold shr
  rw [Nat.testBit_shiftRight, Nat.add_comm]

theorem testBit_allOnes (i : Nat) : allOnes.testBit i = decide (i < 64) := by
  have : allOnes = 2 ^ 64 - 1 := by decide
  rw [this, Nat.testBit_two_pow_sub_one]

theorem testBit_bnot (x i : Nat) :
    (bnot x).testBit i = (x.testBit i ^^ decide (i < 64)) := by
  unfold bnot
  rw [Nat.testBit_xor, testBit_allOnes]

theorem testBit_of_lt {x i : Nat} (hx : x < 2 ^ 64) (h : x.testBit i = true) : i < 64 := by
  by_contra hi
  have : x < 2 ^ i := lt_of_lt_of_le hx (Nat.pow_le_pow_right (by decide) (by omega))
  rw [Nat.testBit_lt_two_pow this] at h
  exact Bool.noConfusion h

theorem testBit_notAFile (i : Nat) :
    notAFile.testBit i = (decide (i < 64) && decide (i % 8 ≠ 0)) := by
  by_cases h : i < 64
  · have : ∀ j < 64, notAFile.testBit j = (decide (j < 64) && decide (j % 8 ≠ 0)) := by decide
    exact this i h
  · have h1 : notAFile < 2 ^ i :=
      lt_of_lt_of_le (by decide : notAFile < 2 ^ 64) (Nat.pow_le_pow_right (by decide) (by omega))
    rw [Nat.testBit_lt_two_pow h1]
    simp [h]

theorem testBit_notHFile (i : Nat) :
    notHFile.testBit i = (decide (i < 64) && decide (i % 8 ≠ 7)) := by
  by_cases h : i < 64
  · have : ∀ j < 64, notHFile.testBit j = (decide (j < 64) && decide (j % 8 ≠ 7)) := by decide
    exact this i h
  · have h1 : notHFile < 2 ^ i :=
      lt_of_lt_of_le (by decide : notHFile < 2 ^ 64) (Nat.pow_le_pow_right (by decide) (by omega))
    rw [Nat.testBit_lt_two_pow h1]
    simp [h]

/-! ## C1: move count at the standard starting position -/

/-- C1: on the position built by the default constructor, the move list for White has
exactly 20 entries: the pawn pass of the piece-type loop yields the 16 pawn moves,
the knight pass adds the 4 knight moves, and the bishop, rook, queen and king passes
add nothing; the move list for Black also has exactly 20 entries. -/
theorem C1_standard_position_move_count :
    (typeLoop Bitboard.standard .nWhite [.nPawn] Bitboard.standard []).map (fun r => r.2) =
      some ["a2a3", "a2a4", "b2b3", "b2b4", "c2c3", "c2c4", "d2d3", "d2d4",
            "e2e3", "e2e4", "f2f3", "f2f4", "g2g3", "g2g4", "h2h3", "h2h4"] ∧
    (typeLoop Bitboard.standard .nWhite [.nPawn, .nKnight] Bitboard.standard []).map
        (fun r => r.2) =
      some ["a2a3", "a2a4", "b2b3", "b2b4", "c2c3", "c2c4", "d2d3", "d2d4",
            "e2e3", "e2e4", "f2f3", "f2f4", "g2g3", "g2g4", "h2h3", "h2h4",
            "b1a3", "b1c3", "g1f3", "g1h3"] ∧
    getPseudoLegalMoves Bitboard.standard .nWhite =
      some ["a2a3", "a2a4", "b2b3", "b2b4", "c2c3", "c2c4", "d2d3", "d2d4",
            "e2e3", "e2e4", "f2f3", "f2f4", "g2g3", "g2g4", "h2h3", "h2h4",
            "b1a3", "b1c3", "g1f3", "g1h3"] ∧
    (getPseudoLegalMoves Bitboard.standard .nWhite).map List.length = some 20 ∧
    getPseudoLegalMoves Bitboard.standard .nBlack =
      some ["a7a5", "a7a6", "b7b5", "b7b6", "c7c5", "c7c6", "d7d5", "d7d6",
            "e7e5", "e7e6", "f7f5", "f7f6", "g7g5", "g7g6", "h7h5", "h7h6",
            "b8a6", "b8c6", "g8f6", "g8h6"] ∧
    (getPseudoLegalMoves Bitboard.standard .nBlack).map List.length = some 20 := by
  refine ⟨by decide, by decide, by decide, by decide, by decide, by decide⟩

/-! ## C2: no generated destination is occupied by the mover's own colour -/

theorem soutOccl_subset (gen pro t : Nat) (h : (soutOccl gen pro).testBit t = true) :
    gen.testBit t = true ∨ pro.testBit t = true := by
  unfold soutOccl at h
  simp only [Nat.testBit_or, Nat.testBit_and, Bool.or_eq_true, Bool.and_eq_true] at h
  tauto

theorem nortOccl_subset (gen pro t : Nat) (h : (nortOccl gen pro).testBit t = true) :
    gen.testBit t = true ∨ pro.testBit t = true := by
  unfold nortOccl at h
  simp only [Nat.testBit_or, Nat.testBit_and, Bool.or_eq_true, Bool.and_eq_true] at h
  tauto

theorem eastOccl_subset (gen pro t : Nat) (h : (eastOccl gen pro).testBit t = true) :
    gen.testBit t = true ∨ pro.testBit t = true := by
  unfold eastOccl at h
  simp only [Nat.testBit_or, Nat.testBit_and, Bool.or_eq_true, Bool.and_eq_true] at h
  tauto

theorem westOccl_subset (gen pro t : Nat) (h : (westOccl gen pro).testBit t = true) :
    gen.testBit t = true ∨ pro.testBit t = true := by
  unfold westOccl at h
  simp only [Nat.testBit_or, Nat.testBit_and, Bool.or_eq_true, Bool.and_eq_true] at h
  tauto

theorem noEaOccl_subset (gen pro t : Nat) (h : (noEaOccl gen pro).testBit t = true) :
    gen.testBit t = true ∨ pro.testBit t = true := by
  unfold noEaOccl at h
  simp only [Nat.testBit_or, Nat.testBit_and, Bool.or_eq_true, Bool.and_eq_true] at h
  tauto

theorem soEaOccl_subset (gen pro t : Nat) (h : (soEaOccl gen pro).testBit t = true) :
    gen.testBit t = true ∨ pro.testBit t = true := by
  unfold soEaOccl at h
  simp only [Nat.testBit_or, Nat.testBit_and, Bool.or_eq_true, Bool.and_eq_true] at h
  tauto

theorem noWeOccl_subset (gen pro t : Nat) (h : (noWeOccl gen pro).testBit t = true) :
    gen.testBit t = true ∨ pro.testBit t = true := by
  unfold noWeOccl at h
  simp only [Nat.testBit_or, Nat.testBit_and, Bool.or_eq_true, Bool.and_eq_true] at h
  tauto

theorem soWeOccl_subset (gen pro t : Nat) (h : (soWeOccl gen pro).testBit t = true) :
    gen.testBit t = true ∨ pro.testBit t = true := by
  unfold soWeOccl at h
  simp only [Nat.testBit_or, Nat.testBit_and, Bool.or_eq_true, Bool.and_eq_true] at h
  tauto

theorem ColorsOk.own_lt {b : BitbArray} (h : ColorsOk b) (c : enumColor) :
    b.color c < 2 ^ 64 := by
  obtain ⟨hw, hb, ha, -⟩ := h.wf
  cases c <;> assumption

theorem ColorsOk.own_sub_all {b : BitbArray} (h : ColorsOk b) (c : enumColor) (t : Nat)
    (ht : (b.color c).testBit t = true) : b.all.testBit t = true := by
  cases c
  · simp only [BitbArray.color] at ht; rw [h.union, Nat.testBit_or, ht]; rfl
  · simp only [BitbArray.color] at ht; rw [h.union, Nat.testBit_or, ht]; simp
  · exact ht

theorem ColorsOk.white_black {b : BitbArray} (h : ColorsOk b) (t : Nat)
    (hw : b.white.testBit t = true) (hb : b.black.testBit t = true) : False := by
  have := congrArg (fun x => x.testBit t) h.disjoint
  simp [Nat.testBit_and, hw, hb] at this

/-- A square of the complement of the union mask is not occupied by either colour. -/
theorem ColorsOk.not_own_of_empty {b : BitbArray} (h : ColorsOk b) (c : enumColor) (t : Nat)
    (ht : (bnot b.all).testBit t = true) : (b.color c).testBit t = false := by
  rw [testBit_bnot] at ht
  cases hc : (b.color c).testBit t
  · rfl
  · have ha := h.own_sub_all c t hc
    have h64 := testBit_of_lt (h.own_lt c) hc
    simp [ha, h64] at ht

/-- A mask that vanishes on every set bit of `y` has empty intersection with `y`. -/
theorem and_eq_zero_of_testBit (x y : Nat)
    (h : ∀ t, x.testBit t = true → y.testBit t = false) : x &&& y = 0 := by
  apply Nat.eq_of_testBit_eq
  intro t
  rw [Nat.testBit_and, Nat.zero_testBit]
  cases hx : x.testBit t
  · rfl
  · rw [h t hx]; rfl

theorem getPawnMoves_own (b : BitbArray) (h : ColorsOk b) (c : enumColor) (hc : c ≠ .nColor) :
    getPawnMoves b c &&& b.color c = 0 := by
  apply and_eq_zero_of_testBit
  intro t ht
  cases c
  · simp only [getPawnMoves, getPawnMovesWhite, BitbArray.color, Nat.testBit_or,
      Nat.testBit_and, Bool.or_eq_true, Bool.and_eq_true] at ht
    rcases ht with ⟨_, hb⟩ | ⟨_, he⟩
    · cases hw : b.white.testBit t
      · exact hw
      · exact (h.white_black t hw hb).elim
    · exact h.not_own_of_empty .nWhite t he
  · simp only [getPawnMoves, getPawnMovesBlack, BitbArray.color, Nat.testBit_or,
      Nat.testBit_and, Bool.or_eq_true, Bool.and_eq_true] at ht
    rcases ht with ⟨_, hw⟩ | ⟨_, he⟩
    · cases hb : b.black.testBit t
      · exact hb
      · exact (h.white_black t hw hb).elim
    · exact h.not_own_of_empty .nBlack t he
  · exact (hc rfl).elim

/-- A set bit of the complement of a 64-bit word `y` is clear in `y`. -/
theorem not_testBit_of_bnot (y t : Nat) (hy : y < 2 ^ 64) (h : (bnot y).testBit t = true) :
    y.testBit t = false := by
  rw [testBit_bnot] at h
  cases hyt : y.testBit t
  · rfl
  · have := testBit_of_lt hy hyt
    simp [hyt, this] at h

theorem getKingMoves_own (b : BitbArray) (h : ColorsOk b) (c : enumColor) :
    getKingMoves b c &&& b.color c = 0 := by
  apply and_eq_zero_of_testBit
  intro t ht
  simp only [getKingMoves, Nat.testBit_and, Bool.and_eq_true] at ht
  exact not_testBit_of_bnot _ t (h.own_lt c) ht.2

theorem getKnightMovesOne_own (b : BitbArray) (h : ColorsOk b) (c : enumColor) :
    getKnightMovesOne b c &&& b.color c = 0 := by
  apply and_eq_zero_of_testBit
  intro t ht
  simp only [getKnightMovesOne, Nat.testBit_and, Bool.and_eq_true] at ht
  exact not_testBit_of_bnot _ t (h.own_lt c) ht.2

theorem BitbArray.WF.piece_lt {b : BitbArray} (h : b.WF) (k : enumType) : b.piece k < 2 ^ 64 := by
  obtain ⟨-, -, -, h1, h2, h3, h4, h5, h6⟩ := h
  cases k <;> assumption

/-- A filled square outside the piece mask is an empty square, hence not the mover's. -/
theorem fill_not_own (b : BitbArray) (h : ColorsOk b) (c : enumColor) (k : enumType) (t : Nat)
    (hfill : (b.piece k &&& b.color c).testBit t = true ∨ (bnot b.all).testBit t = true)
    (hk : (bnot (b.piece k)).testBit t = true) : (b.color c).testBit t = false := by
  rcases hfill with hg | he
  · rw [Nat.testBit_and, Bool.and_eq_true] at hg
    have := not_testBit_of_bnot _ t (h.wf.piece_lt k) hk
    rw [hg.1] at this
    exact Bool.noConfusion this
  · exact h.not_own_of_empty c t he

theorem getBishopMovesOne_own (b : BitbArray) (h : ColorsOk b) (c : enumColor) (k : enumType) :
    getBishopMovesOne b c k &&& b.color c = 0 := by
  apply and_eq_zero_of_testBit
  intro t ht
  simp only [getBishopMovesOne, Nat.testBit_or, Nat.testBit_and, Bool.or_eq_true,
    Bool.and_eq_true] at ht
  rcases ht with ⟨hm, hk⟩ | ⟨_, ho⟩
  · refine fill_not_own b h c k t ?_ hk
    rcases hm with ((hm | hm) | hm) | hm
    · exact noEaOccl_subset _ _ t hm
    · exact soEaOccl_subset _ _ t hm
    · exact noWeOccl_subset _ _ t hm
    · exact soWeOccl_subset _ _ t hm
  · exact not_testBit_of_bnot _ t (h.own_lt c) ho

theorem getRookMovesOne_own (b : BitbArray) (h : ColorsOk b) (c : enumColor) (k : enumType) :
    getRookMovesOne b c k &&& b.color c = 0 := by
  apply and_eq_zero_of_testBit
  intro t ht
  simp only [getRookMovesOne, Nat.testBit_or, Nat.testBit_and, Bool.or_eq_true,
    Bool.and_eq_true] at ht
  rcases ht with ⟨hm, hk⟩ | ⟨_, ho⟩
  · refine fill_not_own b h c k t ?_ hk
    rcases hm with ((hm | hm) | hm) | hm
    · exact soutOccl_subset _ _ t hm
    · exact nortOccl_subset _ _ t hm
    · exact eastOccl_subset _ _ t hm
    · exact westOccl_subset _ _ t hm
  · exact not_testBit_of_bnot _ t (h.own_lt c) ho

theorem or_and_eq_zero (x y z : Nat) (hx : x &&& z = 0) (hy : y &&& z = 0) :
    (x ||| y) &&& z = 0 := by
  apply Nat.eq_of_testBit_eq
  intro t
  have h1 := congrArg (fun v => v.testBit t) hx
  have h2 := congrArg (fun v => v.testBit t) hy
  simp only [Nat.testBit_and, Nat.zero_testBit] at h1 h2
  simp only [Nat.testBit_and, Nat.testBit_or, Nat.zero_testBit]
  cases hz : z.testBit t
  · simp
  · rw [hz] at h1 h2
    simp only [Bool.and_true] at h1 h2
    simp [h1, h2]

/-- C2: on a bitboard set whose union mask is the union of the two disjoint colour
masks, for White and for Black, the mask returned by each of the six per-piece
generators has no bit in common with the mover's own colour mask. -/
theorem C2_no_move_onto_own_piece (b : BitbArray) (hwf : b.WF)
    (hunion : b.all = b.white ||| b.black) (hdisj : b.white &&& b.black = 0)
    (c : enumColor) (hc : c ≠ .nColor) :
    getPawnMoves b c &&& b.color c = 0 ∧
    getKnightMoves b c &&& b.color c = 0 ∧
    getBishopMoves b c .nBishop &&& b.color c = 0 ∧
    getRookMoves b c .nRook &&& b.color c = 0 ∧
    getQueenMoves b c &&& b.color c = 0 ∧
    getKingMoves b c &&& b.color c = 0 := by
  have h : ColorsOk b := ⟨hwf, hunion, hdisj⟩
  refine ⟨getPawnMoves_own b h c hc, ?_, ?_, ?_, ?_, getKingMoves_own b h c⟩
  · cases c
    · exact getKnightMovesOne_own b h _
    · exact getKnightMovesOne_own b h _
    · exact (hc rfl).elim
  · cases c
    · exact getBishopMovesOne_own b h _ _
    · exact getBishopMovesOne_own b h _ _
    · exact (hc rfl).elim
  · cases c
    · exact getRookMovesOne_own b h _ _
    · exact getRookMovesOne_own b h _ _
    · exact (hc rfl).elim
  · cases c
    · exact or_and_eq_zero _ _ _ (getBishopMovesOne_own b h _ _) (getRookMovesOne_own b h _ _)
    · exact or_and_eq_zero _ _ _ (getBishopMovesOne_own b h _ _) (getRookMovesOne_own b h _ _)
    · exact (hc rfl).elim

/-- Witness for C2 at the standard starting position, White to move. -/
theorem C2_no_move_onto_own_piece_witness :
    Bitboard.standard.WF ∧
    Bitboard.standard.all = Bitboard.standard.white ||| Bitboard.standard.black ∧
    Bitboard.standard.white &&& Bitboard.standard.black = 0 ∧
    enumColor.nWhite ≠ enumColor.nColor ∧
    (getPawnMoves Bitboard.standard .nWhite &&& Bitboard.standard.color .nWhite = 0 ∧
    getKnightMoves Bitboard.standard .nWhite &&& Bitboard.standard.color .nWhite = 0 ∧
    getBishopMoves Bitboard.standard .nWhite .nBishop &&& Bitboard.standard.color .nWhite = 0 ∧
    getRookMoves Bitboard.standard .nWhite .nRook &&& Bitboard.standard.color .nWhite = 0 ∧
    getQueenMoves Bitboard.standard .nWhite &&& Bitboard.standard.color .nWhite = 0 ∧
    getKingMoves Bitboard.standard .nWhite &&& Bitboard.standard.color .nWhite = 0) :=
  ⟨by decide, by decide, by decide, by decide,
    C2_no_move_onto_own_piece Bitboard.standard (by decide) (by decide) (by decide)
      .nWhite (by decide)⟩

/-! ## Kogge-Stone fills: bit-level characterisation -/

theorem reachL_zero (d gen pro t : Nat) : reachL d gen pro 0 t ↔ gen.testBit t = true := by
  constructor
  · rintro ⟨k, hk, -, hg, -⟩
    have : k = 0 := by omega
    subst this
    simpa using hg
  · intro h
    exact ⟨0, le_refl _, by simp, by simpa using h, fun j hj => absurd hj (by omega)⟩

theorem runL_one (d pro t : Nat) : runL d pro 1 t ↔ pro.testBit t = true := by
  constructor
  · intro h
    simpa using (h 0 (by omega)).2
  · intro h j hj
    have : j = 0 := by omega
    subst this
    exact ⟨by simp, by simpa using h⟩

theorem stepL_pro (d pro P n : Nat) (hpro : pro < 2 ^ 64)
    (hP : ∀ t, P.testBit t = true ↔ runL d pro (n + 1) t) (t : Nat) :
    (P &&& shl P ((n + 1) * d)).testBit t = true ↔ runL d pro (2 * n + 2) t := by
  rw [Nat.testBit_and, testBit_shl]
  simp only [Bool.and_eq_true, decide_eq_true_eq]
  rw [hP, hP]
  constructor
  · rintro ⟨h1, -, hle, h2⟩ j hj
    by_cases hjn : j < n + 1
    · exact h1 j hjn
    · obtain ⟨h3, h4⟩ := h2 (j - (n + 1)) (by omega)
      have e : j * d = (n + 1) * d + (j - (n + 1)) * d := by
        rw [← Nat.add_mul]; congr 1; omega
      refine ⟨by omega, ?_⟩
      rw [e, ← Nat.sub_sub]
      exact h4
  · intro h
    have h0 := (h 0 (by omega)).2
    have hle := (h (n + 1) (by omega)).1
    refine ⟨fun j hj => h j (by omega), ?_, hle, ?_⟩
    · exact testBit_of_lt hpro (by simpa using h0)
    · intro j hj
      obtain ⟨h3, h4⟩ := h (n + 1 + j) (by omega)
      have e : (n + 1 + j) * d = (n + 1) * d + j * d := Nat.add_mul _ _ _
      rw [e] at h3 h4
      refine ⟨by omega, ?_⟩
      rw [Nat.sub_sub]
      exact h4

theorem stepL_gen (d gen pro G P n : Nat) (hpro : pro < 2 ^ 64)
    (hG : ∀ t, G.testBit t = true ↔ reachL d gen pro n t)
    (hP : ∀ t, P.testBit t = true ↔ runL d pro (n + 1) t) (t : Nat) :
    (G ||| (P &&& shl G ((n + 1) * d))).testBit t = true ↔ reachL d gen pro (2 * n + 1) t := by
  rw [Nat.testBit_or, Nat.testBit_and, testBit_shl]
  simp only [Bool.or_eq_true, Bool.and_eq_true, decide_eq_true_eq]
  rw [hG, hG, hP]
  constructor
  · rintro (⟨k, hk, hle, hg, hp⟩ | ⟨hrun, -, hle, k, hk, hle2, hg, hp⟩)
    · exact ⟨k, by omega, hle, hg, hp⟩
    · have e : (n + 1 + k) * d = (n + 1) * d + k * d := Nat.add_mul _ _ _
      refine ⟨n + 1 + k, by omega, by omega, ?_, ?_⟩
      · rw [e, ← Nat.sub_sub]; exact hg
      · intro j hj
        by_cases hjn : j < n + 1
        · exact (hrun j hjn).2
        · have e2 : j * d = (n + 1) * d + (j - (n + 1)) * d := by
            rw [← Nat.add_mul]; congr 1; omega
          rw [e2, ← Nat.sub_sub]
          exact hp _ (by omega)
  · rintro ⟨k, hk, hle, hg, hp⟩
    by_cases hkn : k ≤ n
    · exact Or.inl ⟨k, hkn, hle, hg, hp⟩
    · right
      have e : k * d = (n + 1) * d + (k - (n + 1)) * d := by
        rw [← Nat.add_mul]; congr 1; omega
      have h0 := hp 0 (by omega)
      refine ⟨?_, ?_, by omega, k - (n + 1), by omega, by omega, ?_, ?_⟩
      · intro j hj
        have e3 : j * d ≤ k * d := Nat.mul_le_mul_right d (by omega)
        exact ⟨by omega, hp j (by omega)⟩
      · exact testBit_of_lt hpro (by simpa using h0)
      · rw [Nat.sub_sub, ← e]; exact hg
      · intro j hj
        have e2 : (n + 1 + j) * d = (n + 1) * d + j * d := Nat.add_mul _ _ _
        have := hp (n + 1 + j) (by omega)
        rw [e2, ← Nat.sub_sub] at this
        exact this

/-- Bits of an upward fill: the squares reached from `gen` in at most seven steps
through `pro`. -/
theorem koggeL_testBit (d gen pro : Nat) (hpro : pro < 2 ^ 64) (t : Nat) :
    (koggeL d gen pro).testBit t = true ↔ reachL d gen pro 7 t := by
  have g0 : ∀ t, gen.testBit t = true ↔ reachL d gen pro 0 t := fun t => (reachL_zero _ _ _ t).symm
  have p0 : ∀ t, pro.testBit t = true ↔ runL d pro (0 + 1) t := fun t => (runL_one _ _ t).symm
  have g1 := stepL_gen d gen pro _ _ 0 hpro g0 p0
  have p1 := stepL_pro d pro _ 0 hpro p0
  have g2 := stepL_gen d gen pro _ _ 1 hpro g1 p1
  have p2 := stepL_pro d pro _ 1 hpro p1
  have g3 := stepL_gen d gen pro _ _ 3 hpro g2 p2
  simp only [Nat.zero_add, Nat.one_mul, Nat.reduceAdd, Nat.reduceMul] at g3
  exact g3 t

theorem reachR_zero (d gen pro t : Nat) : reachR d gen pro 0 t ↔ gen.testBit t = true := by
  constructor
  · rintro ⟨k, hk, hg, -⟩
    have : k = 0 := by omega
    subst this
    simpa using hg
  · intro h
    exact ⟨0, le_refl _, by simpa using h, fun j hj => absurd hj (by omega)⟩

theorem runR_one (d pro t : Nat) : runR d pro 1 t ↔ pro.testBit t = true := by
  constructor
  · intro h
    simpa using h 0 (by omega)
  · intro h j hj
    have : j = 0 := by omega
    subst this
    simpa using h

theorem stepR_pro (d pro P n : Nat)
    (hP : ∀ t, P.testBit t = true ↔ runR d pro (n + 1) t) (t : Nat) :
    (P &&& shr P ((n + 1) * d)).testBit t = true ↔ runR d pro (2 * n + 2) t := by
  rw [Nat.testBit_and, testBit_shr]
  simp only [Bool.and_eq_true]
  rw [hP, hP]
  constructor
  · rintro ⟨h1, h2⟩ j hj
    by_cases hjn : j < n + 1
    · exact h1 j hjn
    · have h4 := h2 (j - (n + 1)) (by omega)
      have e : j * d = (n + 1) * d + (j - (n + 1)) * d := by
        rw [← Nat.add_mul]; congr 1; omega
      rw [e, ← Nat.add_assoc]
      exact h4
  · intro h
    refine ⟨fun j hj => h j (by omega), ?_⟩
    intro j hj
    have h4 := h (n + 1 + j) (by omega)
    have e : (n + 1 + j) * d = (n + 1) * d + j * d := Nat.add_mul _ _ _
    rw [e, ← Nat.add_assoc] at h4
    exact h4

theorem stepR_gen (d gen pro G P n : Nat)
    (hG : ∀ t, G.testBit t = true ↔ reachR d gen pro n t)
    (hP : ∀ t, P.testBit t = true ↔ runR d pro (n + 1) t) (t : Nat) :
    (G ||| (P &&& shr G ((n + 1) * d))).testBit t = true ↔ reachR d gen pro (2 * n + 1) t := by
  rw [Nat.testBit_or, Nat.testBit_and, testBit_shr]
  simp only [Bool.or_eq_true, Bool.and_eq_true]
  rw [hG, hG, hP]
  constructor
  · rintro (⟨k, hk, hg, hp⟩ | ⟨hrun, k, hk, hg, hp⟩)
    · exact ⟨k, by omega, hg, hp⟩
    · have e : (n + 1 + k) * d = (n + 1) * d + k * d := Nat.add_mul _ _ _
      refine ⟨n + 1 + k, by omega, ?_, ?_⟩
      · rw [e, ← Nat.add_assoc]; exact hg
      · intro j hj
        by_cases hjn : j < n + 1
        · exact hrun j hjn
        · have e2 : j * d = (n + 1) * d + (j - (n + 1)) * d := by
            rw [← Nat.add_mul]; congr 1; omega
          rw [e2, ← Nat.add_assoc]
          exact hp _ (by omega)
  · rintro ⟨k, hk, hg, hp⟩
    by_cases hkn : k ≤ n
    · exact Or.inl ⟨k, hkn, hg, hp⟩
    · right
      have e : k * d = (n + 1) * d + (k - (n + 1)) * d := by
        rw [← Nat.add_mul]; congr 1; omega
      refine ⟨fun j hj => hp j (by omega), k - (n + 1), by omega, ?_, ?_⟩
      · rw [Nat.add_assoc, ← e]; exact hg
      · intro j hj
        have e2 : (n + 1 + j) * d = (n + 1) * d + j * d := Nat.add_mul _ _ _
        have := hp (n + 1 + j) (by omega)
        rw [e2, ← Nat.add_assoc] at this
        exact this

/-- Bits of a downward fill: the squares reached from `gen` in at most seven steps
through `pro`. -/
theorem koggeR_testBit (d gen pro : Nat) (t : Nat) :
    (koggeR d gen pro).testBit t = true ↔ reachR d gen pro 7 t := by
  have g0 : ∀ t, gen.testBit t = true ↔ reachR d gen pro 0 t := fun t => (reachR_zero _ _ _ t).symm
  have p0 : ∀ t, pro.testBit t = true ↔ runR d pro (0 + 1) t := fun t => (runR_one _ _ t).symm
  have g1 := stepR_gen d gen pro _ _ 0 g0 p0
  have p1 := stepR_pro d pro _ 0 p0
  have g2 := stepR_gen d gen pro _ _ 1 g1 p1
  have p2 := stepR_pro d pro _ 1 p1
  have g3 := stepR_gen d gen pro _ _ 3 g2 p2
  simp only [Nat.zero_add, Nat.one_mul, Nat.reduceAdd, Nat.reduceMul] at g3
  exact g3 t

theorem nortOccl_eq (gen pro : Nat) : nortOccl gen pro = koggeL 8 gen pro := rfl
theorem eastOccl_eq (gen pro : Nat) : eastOccl gen pro = koggeL 1 gen (pro &&& notAFile) := rfl
theorem noEaOccl_eq (gen pro : Nat) : noEaOccl gen pro = koggeL 9 gen (pro &&& notAFile) := rfl
theorem noWeOccl_eq (gen pro : Nat) : noWeOccl gen pro = koggeL 7 gen (pro &&& notHFile) := rfl
theorem soutOccl_eq (gen pro : Nat) : soutOccl gen pro = koggeR 8 gen pro := rfl
theorem westOccl_eq (gen pro : Nat) : westOccl gen pro = koggeR 1 gen (pro &&& notHFile) := rfl
theorem soWeOccl_eq (gen pro : Nat) : soWeOccl gen pro = koggeR 9 gen (pro &&& notHFile) := rfl
theorem soEaOccl_eq (gen pro : Nat) : soEaOccl gen pro = koggeR 7 gen (pro &&& notAFile) := rfl

/-! ## One ray of a slider: fill shifted one further step -/

theorem bnot_lt (x : Nat) (hx : x < 2 ^ 64) : bnot x < 2 ^ 64 := by
  unfold bnot
  exact Nat.xor_lt_two_pow hx (by decide)

theorem testBit_empty (all u : Nat) (hall : all < 2 ^ 64) :
    (bnot all).testBit u = true ↔ (u < 64 ∧ all.testBit u = false) := by
  constructor
  · intro h
    exact ⟨testBit_of_lt (bnot_lt all hall) h, not_testBit_of_bnot all u hall h⟩
  · rintro ⟨h1, h2⟩
    rw [testBit_bnot, h2]
    simp [h1]

theorem and_lt_left (x y : Nat) (hx : x < 2 ^ 64) : x &&& y < 2 ^ 64 :=
  lt_of_le_of_lt Nat.and_le_left hx

/-- Upward ray with file guard `M`: the squares attacked along the ray are those `t`
from which some origin is found `m` steps back, every square on the way (and `t`
itself) passing the guard and every square strictly between being empty. -/
theorem attackL (d M : Nat) (cond : Nat → Prop)
    (hM : ∀ u, M.testBit u = true ↔ (u < 64 ∧ cond u)) (all gen t : Nat)
    (hall : all < 2 ^ 64) :
    (shl (koggeL d gen (bnot all &&& M)) d &&& M).testBit t = true ↔
      t < 64 ∧ ∃ m, 1 ≤ m ∧ m ≤ 8 ∧ m * d ≤ t ∧ gen.testBit (t - m * d) = true ∧
        (∀ j, j < m → cond (t - j * d)) ∧
        (∀ j, 1 ≤ j → j < m → all.testBit (t - j * d) = false) := by
  have hpro : bnot all &&& M < 2 ^ 64 := and_lt_left _ _ (bnot_lt all hall)
  have hp' : ∀ u, (bnot all &&& M).testBit u = true ↔ (all.testBit u = false ∧ u < 64 ∧ cond u) := by
    intro u
    rw [Nat.testBit_and, Bool.and_eq_true, testBit_empty all u hall, hM]
    tauto
  rw [Nat.testBit_and, testBit_shl]
  simp only [Bool.and_eq_true, decide_eq_true_eq]
  rw [koggeL_testBit d gen _ hpro, hM]
  constructor
  · rintro ⟨⟨h64, hd, k, hk, hle, hg, hp⟩, -, hc⟩
    have e : (k + 1) * d = d + k * d := by rw [Nat.add_mul, Nat.one_mul, Nat.add_comm]
    refine ⟨h64, k + 1, by omega, by omega, by omega, ?_, ?_, ?_⟩
    · rw [e, ← Nat.sub_sub]; exact hg
    · intro j hj
      rcases Nat.eq_zero_or_pos j with h0 | h0
      · subst h0; simpa using hc
      · have := ((hp' _).1 (hp (j - 1) (by omega))).2.2
        have e2 : j * d = d + (j - 1) * d := by
          rw [Nat.sub_mul, Nat.one_mul]
          have : d ≤ j * d := Nat.le_mul_of_pos_left d h0
          omega
        rw [e2, ← Nat.sub_sub]; exact this
    · intro j h1 hj
      have := ((hp' _).1 (hp (j - 1) (by omega))).1
      have e2 : j * d = d + (j - 1) * d := by
        rw [Nat.sub_mul, Nat.one_mul]
        have : d ≤ j * d := Nat.le_mul_of_pos_left d h1
        omega
      rw [e2, ← Nat.sub_sub]; exact this
  · rintro ⟨h64, m, h1, h8, hle, hg, hc, hp⟩
    have e : m * d = d + (m - 1) * d := by
      rw [Nat.sub_mul, Nat.one_mul]
      have : d ≤ m * d := Nat.le_mul_of_pos_left d h1
      omega
    refine ⟨⟨h64, by omega, m - 1, by omega, by omega, ?_, ?_⟩, h64, by simpa using hc 0 (by omega)⟩
    · rw [Nat.sub_sub, ← e]; exact hg
    · intro j hj
      have e2 : (j + 1) * d = d + j * d := by rw [Nat.add_mul, Nat.one_mul, Nat.add_comm]
      rw [hp', Nat.sub_sub, ← e2]
      exact ⟨hp (j + 1) (by omega) (by omega), by omega, hc (j + 1) (by omega)⟩

/-- A filled square of an upward ray is an origin or is attacked along the ray. -/
theorem fillL_sub_attack (d M gen pro t : Nat) (hM : M < 2 ^ 64)
    (h : (koggeL d gen (pro &&& M)).testBit t = true) :
    gen.testBit t = true ∨ (shl (koggeL d gen (pro &&& M)) d &&& M).testBit t = true := by
  have hpro : pro &&& M < 2 ^ 64 := lt_of_le_of_lt Nat.and_le_right hM
  have h' := (koggeL_testBit d gen _ hpro t).1 h
  obtain ⟨k, hk, hle, hg, hp⟩ := h'
  rcases Nat.eq_zero_or_pos k with h0 | h0
  · subst h0; left; simpa using hg
  · right
    have hpt := hp 0 h0
    simp only [Nat.zero_mul, Nat.sub_zero] at hpt
    have h64 := testBit_of_lt hpro hpt
    have e : k * d = d + (k - 1) * d := by
      rw [Nat.sub_mul, Nat.one_mul]
      have : d ≤ k * d := Nat.le_mul_of_pos_left d h0
      omega
    rw [Nat.testBit_and, testBit_shl]
    simp only [Bool.and_eq_true, decide_eq_true_eq]
    rw [Nat.testBit_and, Bool.and_eq_true] at hpt
    refine ⟨⟨h64, by omega, ?_⟩, hpt.2⟩
    rw [koggeL_testBit d gen _ hpro]
    refine ⟨k - 1, by omega, by omega, ?_, ?_⟩
    · rw [Nat.sub_sub, ← e]; exact hg
    · intro j hj
      have e2 : (j + 1) * d = d + j * d := by rw [Nat.add_mul, Nat.one_mul, Nat.add_comm]
      rw [Nat.sub_sub, ← e2]
      exact hp (j + 1) (by omega)

/-- Downward ray with file guard `M`: the squares attacked along the ray are those
`t` from which some origin is found `m` steps ahead, every square on the way (and
`t` itself) passing the guard and every square strictly between being empty. -/
theorem attackR (d M : Nat) (cond : Nat → Prop)
    (hM : ∀ u, M.testBit u = true ↔ (u < 64 ∧ cond u)) (all gen t : Nat)
    (hall : all < 2 ^ 64) (hgen : gen < 2 ^ 64) :
    (shr (koggeR d gen (bnot all &&& M)) d &&& M).testBit t = true ↔
      t < 64 ∧ ∃ m, 1 ≤ m ∧ m ≤ 8 ∧ gen.testBit (t + m * d) = true ∧
        (∀ j, j < m → cond (t + j * d)) ∧
        (∀ j, 1 ≤ j → j < m → all.testBit (t + j * d) = false) := by
  have hp' : ∀ u, (bnot all &&& M).testBit u = true ↔ (all.testBit u = false ∧ u < 64 ∧ cond u) := by
    intro u
    rw [Nat.testBit_and, Bool.and_eq_true, testBit_empty all u hall, hM]
    tauto
  rw [Nat.testBit_and, testBit_shr]
  simp only [Bool.and_eq_true]
  rw [koggeR_testBit d gen _, hM]
  constructor
  · rintro ⟨⟨k, hk, hg, hp⟩, h64, hc⟩
    have e : (k + 1) * d = d + k * d := by rw [Nat.add_mul, Nat.one_mul, Nat.add_comm]
    refine ⟨h64, k + 1, by omega, by omega, ?_, ?_, ?_⟩
    · rw [e, ← Nat.add_assoc]; exact hg
    · intro j hj
      rcases Nat.eq_zero_or_pos j with h0 | h0
      · subst h0; simpa using hc
      · have := ((hp' _).1 (hp (j - 1) (by omega))).2.2
        have e2 : j * d = d + (j - 1) * d := by
          rw [Nat.sub_mul, Nat.one_mul]
          have : d ≤ j * d := Nat.le_mul_of_pos_left d h0
          omega
        rw [e2, ← Nat.add_assoc]; exact this
    · intro j h1 hj
      have := ((hp' _).1 (hp (j - 1) (by omega))).1
      have e2 : j * d = d + (j - 1) * d := by
        rw [Nat.sub_mul, Nat.one_mul]
        have : d ≤ j * d := Nat.le_mul_of_pos_left d h1
        omega
      rw [e2, ← Nat.add_assoc]; exact this
  · rintro ⟨h64, m, h1, h8, hg, hc, hp⟩
    have e : m * d = d + (m - 1) * d := by
      rw [Nat.sub_mul, Nat.one_mul]
      have : d ≤ m * d := Nat.le_mul_of_pos_left d h1
      omega
    refine ⟨⟨m - 1, by omega, ?_, ?_⟩, h64, by simpa using hc 0 (by omega)⟩
    · rw [Nat.add_assoc, ← e]; exact hg
    · intro j hj
      have e2 : (j + 1) * d = d + j * d := by rw [Nat.add_mul, Nat.one_mul, Nat.add_comm]
      have hcj := hc (j + 1) (by omega)
      have hpj := hp (j + 1) (by omega) (by omega)
      rw [hp', Nat.add_assoc, ← e2]
      refine ⟨hpj, ?_, hcj⟩
      have hm64 := testBit_of_lt hgen hg
      have : (j + 1) * d ≤ m * d := Nat.mul_le_mul_right d (by omega)
      omega

/-- A filled square of a downward ray is an origin or is attacked along the ray. -/
theorem fillR_sub_attack (d M gen pro t : Nat)
    (h : (koggeR d gen (pro &&& M)).testBit t = true) :
    gen.testBit t = true ∨ (shr (koggeR d gen (pro &&& M)) d &&& M).testBit t = true := by
  have h' := (koggeR_testBit d gen _ t).1 h
  obtain ⟨k, hk, hg, hp⟩ := h'
  rcases Nat.eq_zero_or_pos k with h0 | h0
  · subst h0; left; simpa using hg
  · right
    have hpt := hp 0 h0
    simp only [Nat.zero_mul, Nat.add_zero] at hpt
    have e : k * d = d + (k - 1) * d := by
      rw [Nat.sub_mul, Nat.one_mul]
      have : d ≤ k * d := Nat.le_mul_of_pos_left d h0
      omega
    rw [Nat.testBit_and, testBit_shr]
    simp only [Bool.and_eq_true]
    rw [Nat.testBit_and, Bool.and_eq_true] at hpt
    refine ⟨?_, hpt.2⟩
    rw [koggeR_testBit d gen _]
    refine ⟨k - 1, by omega, ?_, ?_⟩
    · rw [Nat.add_assoc, ← e]; exact hg
    · intro j hj
      have e2 : (j + 1) * d = d + j * d := by rw [Nat.add_mul, Nat.one_mul, Nat.add_comm]
      rw [Nat.add_assoc, ← e2]
      exact hp (j + 1) (by omega)

/-! ## Rays in board coordinates -/

theorem notAFile_iff (u : Nat) : notAFile.testBit u = true ↔ (u < 64 ∧ u % 8 ≠ 0) := by
  rw [testBit_notAFile]; simp

theorem notHFile_iff (u : Nat) : notHFile.testBit u = true ↔ (u < 64 ∧ u % 8 ≠ 7) := by
  rw [testBit_notHFile]; simp

theorem allOnes_iff (u : Nat) : allOnes.testBit u = true ↔ (u < 64 ∧ True) := by
  rw [testBit_allOnes]; simp

theorem and_allOnes (x : Nat) (hx : x < 2 ^ 64) : x &&& allOnes = x := by
  apply Nat.eq_of_testBit_eq
  intro i
  rw [Nat.testBit_and, testBit_allOnes]
  cases h : x.testBit i
  · rfl
  · simp [testBit_of_lt hx h]

theorem walkE (t m : Nat) (h : ∀ j, j < m → (t - j * 1) % 8 ≠ 0) (hm : m * 1 ≤ t) :
    (t - m * 1) / 8 = t / 8 ∧ (t - m * 1) % 8 + m = t % 8 := by
  induction m with
  | zero => simp
  | succ m ih =>
    have := ih (fun j hj => h j (by omega)) (by omega)
    have := h m (by omega)
    omega

theorem east_attack (all gen t : Nat) (hall : all < 2 ^ 64) :
    (shiftEast (eastOccl gen (bnot all))).testBit t = true ↔
      t < 64 ∧ ∃ s, s < 64 ∧ gen.testBit s = true ∧ rankOf s = rankOf t ∧ fileOf s < fileOf t ∧
        ∀ u, u < 64 → rankOf u = rankOf s → fileOf s < fileOf u → fileOf u < fileOf t →
          all.testBit u = false := by
  unfold shiftEast east
  rw [eastOccl_eq, attackL 1 notAFile (fun u => u % 8 ≠ 0) notAFile_iff all gen t hall]
  unfold rankOf fileOf
  constructor
  · rintro ⟨h64, m, h1, h8, hle, hg, hc, hp⟩
    have hw := walkE t m hc hle
    refine ⟨h64, t - m * 1, by omega, hg, by omega, by omega, ?_⟩
    intro u hu hr hf1 hf2
    have := hp (t - u) (by omega) (by omega)
    have e : t - (t - u) * 1 = u := by omega
    rw [e] at this
    exact this
  · rintro ⟨h64, s, hs, hg, hr, hf, hp⟩
    refine ⟨h64, t - s, by omega, by omega, by omega, ?_, ?_, ?_⟩
    · have e : t - (t - s) * 1 = s := by omega
      rw [e]; exact hg
    · intro j hj
      show (t - j * 1) % 8 ≠ 0
      omega
    · intro j h1 hj
      exact hp (t - j * 1) (by omega) (by omega) (by omega) (by omega)

theorem sub_mul9 (t j : Nat) (a1 : j ≤ t % 8) (a2 : j ≤ t / 8) :
    (t - j * 9) % 8 = t % 8 - j ∧ (t - j * 9) / 8 = t / 8 - j := by
  have a3 : t - j * 9 = 8 * (t / 8 - j) + (t % 8 - j) := by omega
  have a4 : t % 8 - j < 8 := by omega
  constructor
  · rw [a3, Nat.mul_add_mod, Nat.mod_eq_of_lt a4]
  · rw [a3, Nat.mul_add_div (by decide), Nat.div_eq_of_lt a4, Nat.add_zero]

theorem sub_mul7 (t j : Nat) (a1 : t % 8 + j ≤ 7) (a2 : j ≤ t / 8) :
    (t - j * 7) % 8 = t % 8 + j ∧ (t - j * 7) / 8 = t / 8 - j := by
  have a3 : t - j * 7 = 8 * (t / 8 - j) + (t % 8 + j) := by omega
  have a4 : t % 8 + j < 8 := by omega
  constructor
  · rw [a3, Nat.mul_add_mod, Nat.mod_eq_of_lt a4]
  · rw [a3, Nat.mul_add_div (by decide), Nat.div_eq_of_lt a4, Nat.add_zero]

theorem add_mul7 (t j : Nat) (a1 : j ≤ t % 8) :
    (t + j * 7) % 8 = t % 8 - j ∧ (t + j * 7) / 8 = t / 8 + j := by
  have a3 : t + j * 7 = 8 * (t / 8 + j) + (t % 8 - j) := by omega
  have a4 : t % 8 - j < 8 := by omega
  constructor
  · rw [a3, Nat.mul_add_mod, Nat.mod_eq_of_lt a4]
  · rw [a3, Nat.mul_add_div (by decide), Nat.div_eq_of_lt a4, Nat.add_zero]

theorem add_mul9 (t j : Nat) (a1 : t % 8 + j ≤ 7) :
    (t + j * 9) % 8 = t % 8 + j ∧ (t + j * 9) / 8 = t / 8 + j := by
  have a3 : t + j * 9 = 8 * (t / 8 + j) + (t % 8 + j) := by omega
  have a4 : t % 8 + j < 8 := by omega
  constructor
  · rw [a3, Nat.mul_add_mod, Nat.mod_eq_of_lt a4]
  · rw [a3, Nat.mul_add_div (by decide), Nat.div_eq_of_lt a4, Nat.add_zero]

theorem walkW (t m : Nat) (h : ∀ j, j < m → (t + j * 1) % 8 ≠ 7) :
    (t + m * 1) / 8 = t / 8 ∧ (t + m * 1) % 8 = t % 8 + m := by
  induction m with
  | zero => simp
  | succ m ih =>
    have := ih (fun j hj => h j (by omega))
    have := h m (by omega)
    omega

theorem walkNE (t m : Nat) (h : ∀ j, j < m → (t - j * 9) % 8 ≠ 0) (hm : m * 9 ≤ t) :
    (t - m * 9) / 8 + m = t / 8 ∧ (t - m * 9) % 8 + m = t % 8 := by
  induction m with
  | zero => simp
  | succ m ih =>
    have := ih (fun j hj => h j (by omega)) (by omega)
    have := h m (by omega)
    omega

theorem walkNW (t m : Nat) (h : ∀ j, j < m → (t - j * 7) % 8 ≠ 7) (hm : m * 7 ≤ t) :
    (t - m * 7) / 8 + m = t / 8 ∧ (t - m * 7) % 8 = t % 8 + m := by
  induction m with
  | zero => simp
  | succ m ih =>
    have := ih (fun j hj => h j (by omega)) (by omega)
    have := h m (by omega)
    omega

theorem walkSE (t m : Nat) (h : ∀ j, j < m → (t + j * 7) % 8 ≠ 0) :
    (t + m * 7) / 8 = t / 8 + m ∧ (t + m * 7) % 8 + m = t % 8 := by
  induction m with
  | zero => simp
  | succ m ih =>
    have := ih (fun j hj => h j (by omega))
    have := h m (by omega)
    omega

theorem walkSW (t m : Nat) (h : ∀ j, j < m → (t + j * 9) % 8 ≠ 7) :
    (t + m * 9) / 8 = t / 8 + m ∧ (t + m * 9) % 8 = t % 8 + m := by
  induction m with
  | zero => simp
  | succ m ih =>
    have := ih (fun j hj => h j (by omega))
    have := h m (by omega)
    omega

theorem west_attack (all gen t : Nat) (hall : all < 2 ^ 64) (hgen : gen < 2 ^ 64) :
    (shiftWest (westOccl gen (bnot all))).testBit t = true ↔
      t < 64 ∧ ∃ s, s < 64 ∧ gen.testBit s = true ∧ rankOf s = rankOf t ∧ fileOf t < fileOf s ∧
        ∀ u, u < 64 → rankOf u = rankOf s → fileOf t < fileOf u → fileOf u < fileOf s →
          all.testBit u = false := by
  unfold shiftWest west
  rw [westOccl_eq, attackR 1 notHFile (fun u => u % 8 ≠ 7) notHFile_iff all gen t hall hgen]
  unfold rankOf fileOf
  constructor
  · rintro ⟨h64, m, h1, h8, hg, hc, hp⟩
    have hw := walkW t m hc
    have hs := testBit_of_lt hgen hg
    refine ⟨h64, t + m * 1, hs, hg, by omega, by omega, ?_⟩
    intro u hu hr hf1 hf2
    have := hp (u - t) (by omega) (by omega)
    have e : t + (u - t) * 1 = u := by omega
    rw [e] at this
    exact this
  · rintro ⟨h64, s, hs, hg, hr, hf, hp⟩
    refine ⟨h64, s - t, by omega, by omega, ?_, ?_, ?_⟩
    · have e : t + (s - t) * 1 = s := by omega
      rw [e]; exact hg
    · intro j hj
      show (t + j * 1) % 8 ≠ 7
      omega
    · intro j h1 hj
      exact hp (t + j * 1) (by omega) (by omega) (by omega) (by omega)

theorem noEa_attack (all gen t : Nat) (hall : all < 2 ^ 64) :
    (shiftNorthEast (noEaOccl gen (bnot all))).testBit t = true ↔
      t < 64 ∧ ∃ s, s < 64 ∧ gen.testBit s = true ∧
        fileOf s + rankOf t = fileOf t + rankOf s ∧ rankOf s < rankOf t ∧
        ∀ u, u < 64 → fileOf u + rankOf s = fileOf s + rankOf u → rankOf s < rankOf u →
          rankOf u < rankOf t → all.testBit u = false := by
  unfold shiftNorthEast noEa
  rw [noEaOccl_eq, attackL 9 notAFile (fun u => u % 8 ≠ 0) notAFile_iff all gen t hall]
  unfold rankOf fileOf
  constructor
  · rintro ⟨h64, m, h1, h8, hle, hg, hc, hp⟩
    have hw := walkNE t m hc hle
    refine ⟨h64, t - m * 9, by omega, hg, by omega, by omega, ?_⟩
    intro u hu hd hr1 hr2
    have := hp (t / 8 - u / 8) (by omega) (by omega)
    have e : t - (t / 8 - u / 8) * 9 = u := by omega
    rw [e] at this
    exact this
  · rintro ⟨h64, s, hs, hg, hd, hr, hp⟩
    refine ⟨h64, t / 8 - s / 8, by omega, by omega, by omega, ?_, ?_, ?_⟩
    · have e : t - (t / 8 - s / 8) * 9 = s := by omega
      rw [e]; exact hg
    · intro j hj
      show (t - j * 9) % 8 ≠ 0
      have := sub_mul9 t j (by omega) (by omega)
      omega
    · intro j h1 hj
      have := sub_mul9 t j (by omega) (by omega)
      exact hp (t - j * 9) (by omega) (by omega) (by omega) (by omega)

theorem noWe_attack (all gen t : Nat) (hall : all < 2 ^ 64) :
    (shiftNorthWest (noWeOccl gen (bnot all))).testBit t = true ↔
      t < 64 ∧ ∃ s, s < 64 ∧ gen.testBit s = true ∧
        fileOf s + rankOf s = fileOf t + rankOf t ∧ rankOf s < rankOf t ∧
        ∀ u, u < 64 → fileOf u + rankOf u = fileOf s + rankOf s → rankOf s < rankOf u →
          rankOf u < rankOf t → all.testBit u = false := by
  unfold shiftNorthWest noWe
  rw [noWeOccl_eq, attackL 7 notHFile (fun u => u % 8 ≠ 7) notHFile_iff all gen t hall]
  unfold rankOf fileOf
  constructor
  · rintro ⟨h64, m, h1, h8, hle, hg, hc, hp⟩
    have hw := walkNW t m hc hle
    refine ⟨h64, t - m * 7, by omega, hg, by omega, by omega, ?_⟩
    intro u hu hd hr1 hr2
    have := hp (t / 8 - u / 8) (by omega) (by omega)
    have e : t - (t / 8 - u / 8) * 7 = u := by omega
    rw [e] at this
    exact this
  · rintro ⟨h64, s, hs, hg, hd, hr, hp⟩
    refine ⟨h64, t / 8 - s / 8, by omega, by omega, by omega, ?_, ?_, ?_⟩
    · have e : t - (t / 8 - s / 8) * 7 = s := by omega
      rw [e]; exact hg
    · intro j hj
      show (t - j * 7) % 8 ≠ 7
      have := sub_mul7 t j (by omega) (by omega)
      omega
    · intro j h1 hj
      have := sub_mul7 t j (by omega) (by omega)
      exact hp (t - j * 7) (by omega) (by omega) (by omega) (by omega)

theorem soEa_attack (all gen t : Nat) (hall : all < 2 ^ 64) (hgen : gen < 2 ^ 64) :
    (shiftSouthEast (soEaOccl gen (bnot all))).testBit t = true ↔
      t < 64 ∧ ∃ s, s < 64 ∧ gen.testBit s = true ∧
        fileOf s + rankOf s = fileOf t + rankOf t ∧ rankOf t < rankOf s ∧
        ∀ u, u < 64 → fileOf u + rankOf u = fileOf s + rankOf s → rankOf t < rankOf u →
          rankOf u < rankOf s → all.testBit u = false := by
  unfold shiftSouthEast soEa
  rw [soEaOccl_eq, attackR 7 notAFile (fun u => u % 8 ≠ 0) notAFile_iff all gen t hall hgen]
  unfold rankOf fileOf
  constructor
  · rintro ⟨h64, m, h1, h8, hg, hc, hp⟩
    have hw := walkSE t m hc
    have hs := testBit_of_lt hgen hg
    refine ⟨h64, t + m * 7, hs, hg, by omega, by omega, ?_⟩
    intro u hu hd hr1 hr2
    have := hp (u / 8 - t / 8) (by omega) (by omega)
    have e : t + (u / 8 - t / 8) * 7 = u := by omega
    rw [e] at this
    exact this
  · rintro ⟨h64, s, hs, hg, hd, hr, hp⟩
    refine ⟨h64, s / 8 - t / 8, by omega, by omega, ?_, ?_, ?_⟩
    · have e : t + (s / 8 - t / 8) * 7 = s := by omega
      rw [e]; exact hg
    · intro j hj
      show (t + j * 7) % 8 ≠ 0
      have := add_mul7 t j (by omega)
      omega
    · intro j h1 hj
      have := add_mul7 t j (by omega)
      exact hp (t + j * 7) (by omega) (by omega) (by omega) (by omega)

theorem soWe_attack (all gen t : Nat) (hall : all < 2 ^ 64) (hgen : gen < 2 ^ 64) :
    (shiftSouthWest (soWeOccl gen (bnot all))).testBit t = true ↔
      t < 64 ∧ ∃ s, s < 64 ∧ gen.testBit s = true ∧
        fileOf s + rankOf t = fileOf t + rankOf s ∧ rankOf t < rankOf s ∧
        ∀ u, u < 64 → fileOf u + rankOf s = fileOf s + rankOf u → rankOf t < rankOf u →
          rankOf u < rankOf s → all.testBit u = false := by
  unfold shiftSouthWest soWe
  rw [soWeOccl_eq, attackR 9 notHFile (fun u => u % 8 ≠ 7) notHFile_iff all gen t hall hgen]
  unfold rankOf fileOf
  constructor
  · rintro ⟨h64, m, h1, h8, hg, hc, hp⟩
    have hw := walkSW t m hc
    have hs := testBit_of_lt hgen hg
    refine ⟨h64, t + m * 9, hs, hg, by omega, by omega, ?_⟩
    intro u hu hd hr1 hr2
    have := hp (u / 8 - t / 8) (by omega) (by omega)
    have e : t + (u / 8 - t / 8) * 9 = u := by omega
    rw [e] at this
    exact this
  · rintro ⟨h64, s, hs, hg, hd, hr, hp⟩
    refine ⟨h64, s / 8 - t / 8, by omega, by omega, ?_, ?_, ?_⟩
    · have e : t + (s / 8 - t / 8) * 9 = s := by omega
      rw [e]; exact hg
    · intro j hj
      show (t + j * 9) % 8 ≠ 7
      have := add_mul9 t j (by omega)
      omega
    · intro j h1 hj
      have := add_mul9 t j (by omega)
      exact hp (t + j * 9) (by omega) (by omega) (by omega) (by omega)

theorem shl_lt (x n : Nat) : shl x n < 2 ^ 64 := Nat.mod_lt _ (by decide)

theorem koggeR_lt (d gen pro : Nat) (hgen : gen < 2 ^ 64) (hpro : pro < 2 ^ 64) :
    koggeR d gen pro < 2 ^ 64 := by
  apply Nat.lt_pow_two_of_testBit
  intro i hi
  cases h : (koggeR d gen pro).testBit i
  · rfl
  · exfalso
    obtain ⟨k, hk, hg, hp⟩ := (koggeR_testBit d gen pro i).1 h
    rcases Nat.eq_zero_or_pos k with h0 | h0
    · subst h0
      have := testBit_of_lt hgen hg
      omega
    · have := testBit_of_lt hpro (hp 0 h0)
      omega

theorem shr_lt (x n : Nat) (hx : x < 2 ^ 64) : shr x n < 2 ^ 64 := by
  unfold shr
  rw [Nat.shiftRight_eq_div_pow]
  exact lt_of_le_of_lt (Nat.div_le_self _ _) hx

theorem nort_attack (all gen t : Nat) (hall : all < 2 ^ 64) :
    (shiftNorth (nortOccl gen (bnot all))).testBit t = true ↔
      t < 64 ∧ ∃ s, s < 64 ∧ gen.testBit s = true ∧ fileOf s = fileOf t ∧ rankOf s < rankOf t ∧
        ∀ u, u < 64 → fileOf u = fileOf s → rankOf s < rankOf u → rankOf u < rankOf t →
          all.testBit u = false := by
  unfold shiftNorth nort
  have e1 : bnot all = bnot all &&& allOnes := (and_allOnes _ (bnot_lt all hall)).symm
  have e2 : shl (koggeL 8 gen (bnot all &&& allOnes)) 8 =
      shl (koggeL 8 gen (bnot all &&& allOnes)) 8 &&& allOnes := (and_allOnes _ (shl_lt _ _)).symm
  rw [nortOccl_eq, e1, e2, attackL 8 allOnes (fun _ => True) allOnes_iff all gen t hall]
  unfold rankOf fileOf
  constructor
  · rintro ⟨h64, m, h1, h8, hle, hg, -, hp⟩
    refine ⟨h64, t - m * 8, by omega, hg, by omega, by omega, ?_⟩
    intro u hu hf hr1 hr2
    have := hp (t / 8 - u / 8) (by omega) (by omega)
    have e : t - (t / 8 - u / 8) * 8 = u := by omega
    rw [e] at this
    exact this
  · rintro ⟨h64, s, hs, hg, hf, hr, hp⟩
    refine ⟨h64, t / 8 - s / 8, by omega, by omega, by omega, ?_, fun _ _ => trivial, ?_⟩
    · have e : t - (t / 8 - s / 8) * 8 = s := by omega
      rw [e]; exact hg
    · intro j h1 hj
      exact hp (t - j * 8) (by omega) (by omega) (by omega) (by omega)

theorem sout_attack (all gen t : Nat) (hall : all < 2 ^ 64) (hgen : gen < 2 ^ 64) :
    (shiftSouth (soutOccl gen (bnot all))).testBit t = true ↔
      t < 64 ∧ ∃ s, s < 64 ∧ gen.testBit s = true ∧ fileOf s = fileOf t ∧ rankOf t < rankOf s ∧
        ∀ u, u < 64 → fileOf u = fileOf s → rankOf t < rankOf u → rankOf u < rankOf s →
          all.testBit u = false := by
  unfold shiftSouth sout
  have e1 : bnot all = bnot all &&& allOnes := (and_allOnes _ (bnot_lt all hall)).symm
  have e2 : shr (koggeR 8 gen (bnot all &&& allOnes)) 8 =
      shr (koggeR 8 gen (bnot all &&& allOnes)) 8 &&& allOnes :=
    (and_allOnes _ (shr_lt _ _ (koggeR_lt _ _ _ hgen (and_lt_left _ _ (bnot_lt all hall))))).symm
  rw [soutOccl_eq, e1, e2, attackR 8 allOnes (fun _ => True) allOnes_iff all gen t hall hgen]
  unfold rankOf fileOf
  constructor
  · rintro ⟨h64, m, h1, h8, hg, -, hp⟩
    have hs := testBit_of_lt hgen hg
    refine ⟨h64, t + m * 8, hs, hg, by omega, by omega, ?_⟩
    intro u hu hf hr1 hr2
    have := hp (u / 8 - t / 8) (by omega) (by omega)
    have e : t + (u / 8 - t / 8) * 8 = u := by omega
    rw [e] at this
    exact this
  · rintro ⟨h64, s, hs, hg, hf, hr, hp⟩
    refine ⟨h64, s / 8 - t / 8, by omega, by omega, ?_, fun _ _ => trivial, ?_⟩
    · have e : t + (s / 8 - t / 8) * 8 = s := by omega
      rw [e]; exact hg
    · intro j h1 hj
      exact hp (t + j * 8) (by omega) (by omega) (by omega) (by omega)

theorem nort_fill (all gen t : Nat) (hall : all < 2 ^ 64)
    (h : (nortOccl gen (bnot all)).testBit t = true) :
    gen.testBit t = true ∨ (shiftNorth (nortOccl gen (bnot all))).testBit t = true := by
  unfold shiftNorth nort
  have e1 : bnot all = bnot all &&& allOnes := (and_allOnes _ (bnot_lt all hall)).symm
  have e2 : shl (koggeL 8 gen (bnot all &&& allOnes)) 8 =
      shl (koggeL 8 gen (bnot all &&& allOnes)) 8 &&& allOnes := (and_allOnes _ (shl_lt _ _)).symm
  rw [nortOccl_eq, e1] at h ⊢
  rw [e2]
  exact fillL_sub_attack 8 allOnes gen _ t (by decide) h

theorem sout_fill (all gen t : Nat) (hall : all < 2 ^ 64) (hgen : gen < 2 ^ 64)
    (h : (soutOccl gen (bnot all)).testBit t = true) :
    gen.testBit t = true ∨ (shiftSouth (soutOccl gen (bnot all))).testBit t = true := by
  unfold shiftSouth sout
  have e1 : bnot all = bnot all &&& allOnes := (and_allOnes _ (bnot_lt all hall)).symm
  have e2 : shr (koggeR 8 gen (bnot all &&& allOnes)) 8 =
      shr (koggeR 8 gen (bnot all &&& allOnes)) 8 &&& allOnes :=
    (and_allOnes _ (shr_lt _ _ (koggeR_lt _ _ _ hgen (and_lt_left _ _ (bnot_lt all hall))))).symm
  rw [soutOccl_eq, e1] at h ⊢
  rw [e2]
  exact fillR_sub_attack 8 allOnes gen _ t h

theorem east_fill (all gen t : Nat) (h : (eastOccl gen (bnot all)).testBit t = true) :
    gen.testBit t = true ∨ (shiftEast (eastOccl gen (bnot all))).testBit t = true := by
  unfold shiftEast east
  rw [eastOccl_eq] at h ⊢
  exact fillL_sub_attack 1 notAFile gen _ t (by decide) h

theorem west_fill (all gen t : Nat) (h : (westOccl gen (bnot all)).testBit t = true) :
    gen.testBit t = true ∨ (shiftWest (westOccl gen (bnot all))).testBit t = true := by
  unfold shiftWest west
  rw [westOccl_eq] at h ⊢
  exact fillR_sub_attack 1 notHFile gen _ t h

theorem noEa_fill (all gen t : Nat) (h : (noEaOccl gen (bnot all)).testBit t = true) :
    gen.testBit t = true ∨ (shiftNorthEast (noEaOccl gen (bnot all))).testBit t = true := by
  unfold shiftNorthEast noEa
  rw [noEaOccl_eq] at h ⊢
  exact fillL_sub_attack 9 notAFile gen _ t (by decide) h

theorem noWe_fill (all gen t : Nat) (h : (noWeOccl gen (bnot all)).testBit t = true) :
    gen.testBit t = true ∨ (shiftNorthWest (noWeOccl gen (bnot all))).testBit t = true := by
  unfold shiftNorthWest noWe
  rw [noWeOccl_eq] at h ⊢
  exact fillL_sub_attack 7 notHFile gen _ t (by decide) h

theorem soEa_fill (all gen t : Nat) (h : (soEaOccl gen (bnot all)).testBit t = true) :
    gen.testBit t = true ∨ (shiftSouthEast (soEaOccl gen (bnot all))).testBit t = true := by
  unfold shiftSouthEast soEa
  rw [soEaOccl_eq] at h ⊢
  exact fillR_sub_attack 7 notAFile gen _ t h

theorem soWe_fill (all gen t : Nat) (h : (soWeOccl gen (bnot all)).testBit t = true) :
    gen.testBit t = true ∨ (shiftSouthWest (soWeOccl gen (bnot all))).testBit t = true := by
  unfold shiftSouthWest soWe
  rw [soWeOccl_eq] at h ⊢
  exact fillR_sub_attack 9 notHFile gen _ t h

/-- The rook-type result is the union of the four orthogonal attack rays, restricted
to squares not occupied by the mover. -/
theorem getRookMovesOne_testBit (b : BitbArray) (h : ColorsOk b) (c : enumColor) (k : enumType)
    (t : Nat) :
    (getRookMovesOne b c k).testBit t = true ↔
      (((shiftSouth (soutOccl (b.piece k &&& b.color c) (bnot b.all))).testBit t = true ∨
        (shiftNorth (nortOccl (b.piece k &&& b.color c) (bnot b.all))).testBit t = true ∨
        (shiftEast (eastOccl (b.piece k &&& b.color c) (bnot b.all))).testBit t = true ∨
        (shiftWest (westOccl (b.piece k &&& b.color c) (bnot b.all))).testBit t = true) ∧
       (b.color c).testBit t = false) := by
  have hall : b.all < 2 ^ 64 := h.own_lt .nColor
  have hgen : b.piece k &&& b.color c < 2 ^ 64 := and_lt_left _ _ (h.wf.piece_lt k)
  have hown : ∀ u, (bnot (b.color c)).testBit u = true → (b.color c).testBit u = false :=
    fun u hu => not_testBit_of_bnot _ u (h.own_lt c) hu
  simp only [getRookMovesOne, BitbArray.color, Nat.testBit_or, Nat.testBit_and, Bool.or_eq_true,
    Bool.and_eq_true]
  constructor
  · rintro (⟨hm, hk⟩ | ⟨ha, ho⟩)
    · have hnot : (b.piece k &&& b.color c).testBit t = true → False := by
        intro hg
        rw [Nat.testBit_and, Bool.and_eq_true] at hg
        have := not_testBit_of_bnot _ t (h.wf.piece_lt k) hk
        rw [hg.1] at this
        exact Bool.noConfusion this
      have hfill : (b.piece k &&& b.color c).testBit t = true ∨ (bnot b.all).testBit t = true := by
        rcases hm with ((hm | hm) | hm) | hm
        · exact soutOccl_subset _ _ t hm
        · exact nortOccl_subset _ _ t hm
        · exact eastOccl_subset _ _ t hm
        · exact westOccl_subset _ _ t hm
      refine ⟨?_, fill_not_own b h c k t hfill hk⟩
      rcases hm with ((hm | hm) | hm) | hm
      · rcases sout_fill _ _ t hall hgen hm with hg | ha
        · exact (hnot hg).elim
        · exact Or.inl ha
      · rcases nort_fill _ _ t hall hm with hg | ha
        · exact (hnot hg).elim
        · exact Or.inr (Or.inl ha)
      · rcases east_fill _ _ t hm with hg | ha
        · exact (hnot hg).elim
        · exact Or.inr (Or.inr (Or.inl ha))
      · rcases west_fill _ _ t hm with hg | ha
        · exact (hnot hg).elim
        · exact Or.inr (Or.inr (Or.inr ha))
    · refine ⟨?_, hown t ho⟩
      rcases ha with ((ha | ha) | ha) | ha
      · exact Or.inl ha
      · exact Or.inr (Or.inl ha)
      · exact Or.inr (Or.inr (Or.inl ha))
      · exact Or.inr (Or.inr (Or.inr ha))
  · rintro ⟨ha, ho⟩
    right
    have h64 : t < 64 := by
      rcases ha with ha | ha | ha | ha
      · exact ((sout_attack _ _ t hall hgen).1 ha).1
      · exact ((nort_attack _ _ t hall).1 ha).1
      · exact ((east_attack _ _ t hall).1 ha).1
      · exact ((west_attack _ _ t hall hgen).1 ha).1
    refine ⟨?_, ?_⟩
    · rcases ha with ha | ha | ha | ha
      · exact Or.inl (Or.inl (Or.inl ha))
      · exact Or.inl (Or.inl (Or.inr ha))
      · exact Or.inl (Or.inr ha)
      · exact Or.inr ha
    · rw [testBit_bnot, ho]; simp [h64]

/-! ## C3: rook destinations -/

theorem getRookMovesOne_iff (b : BitbArray) (h : ColorsOk b) (c : enumColor) (t : Nat) :
    (getRookMovesOne b c .nRook).testBit t = true ↔ rookDestination b c t := by
  have hall : b.all < 2 ^ 64 := h.own_lt .nColor
  have hgen : b.rook &&& b.color c < 2 ^ 64 := and_lt_left _ _ (h.wf.piece_lt .nRook)
  rw [getRookMovesOne_testBit b h c .nRook t]
  simp only [BitbArray.piece]
  rw [sout_attack _ _ t hall hgen,
    nort_attack _ _ t hall, east_attack _ _ t hall, west_attack _ _ t hall hgen]
  unfold rookDestination
  constructor
  · rintro ⟨hray, hown⟩
    rcases hray with ⟨h64, s, hs, hg, hf, hr, hp⟩ | ⟨h64, s, hs, hg, hf, hr, hp⟩ |
      ⟨h64, s, hs, hg, hf, hr, hp⟩ | ⟨h64, s, hs, hg, hf, hr, hp⟩
    all_goals
      refine ⟨h64, hown, s, hs, hg, ?_, ?_, ?_⟩
      · intro e; subst e; omega
      · first | exact Or.inl hf | exact Or.inr hf
      · intro u hu hb
        unfold betweenOrth at hb
        rcases hb with ⟨h1, h2, h3 | h3⟩ | ⟨h1, h2, h3 | h3⟩ <;>
          first
          | exact hp u hu h2 h3.1 h3.2
          | exact hp u hu h2 h3.2 h3.1
          | omega
  · rintro ⟨h64, hown, s, hs, hg, hne, hline, hp⟩
    refine ⟨?_, hown⟩
    have hb : ∀ u, u < 64 → betweenOrth s t u → b.all.testBit u = false := hp
    unfold betweenOrth at hb
    rcases hline with hf | hr
    · rcases Nat.lt_trichotomy (rankOf s) (rankOf t) with hlt | heq | hgt
      · right; left
        exact ⟨h64, s, hs, hg, hf, hlt, fun u hu h1 h2 h3 =>
          hb u hu (Or.inl ⟨hf, h1, Or.inl ⟨h2, h3⟩⟩)⟩
      · exfalso; apply hne; unfold fileOf at hf; unfold rankOf at heq; omega
      · left
        exact ⟨h64, s, hs, hg, hf, hgt, fun u hu h1 h2 h3 =>
          hb u hu (Or.inl ⟨hf, h1, Or.inr ⟨h2, h3⟩⟩)⟩
    · rcases Nat.lt_trichotomy (fileOf s) (fileOf t) with hlt | heq | hgt
      · right; right; left
        exact ⟨h64, s, hs, hg, hr, hlt, fun u hu h1 h2 h3 =>
          hb u hu (Or.inr ⟨hr, h1, Or.inl ⟨h2, h3⟩⟩)⟩
      · exfalso; apply hne; unfold fileOf at heq; unfold rankOf at hr; omega
      · right; right; right
        exact ⟨h64, s, hs, hg, hr, hgt, fun u hu h1 h2 h3 =>
          hb u hu (Or.inr ⟨hr, h1, Or.inr ⟨h2, h3⟩⟩)⟩

end chessqdl

namespace chessqdl

/-- C3: on a bitboard set whose union mask is the union of the two disjoint colour
masks and contains the rook mask, for White and for Black, the bits of
`getRookMoves` are exactly the squares not occupied by the mover that share a rank or
file with some rook of the mover, differ from it, and have only unoccupied squares
strictly between.  Example: a white rook on a1 and a piece on a4 give a2, a3, b1..h1
and a4 when the piece is black, and a2, a3, b1..h1 without a4 when it is a white
piece other than a rook; nothing on a5..a8. -/
theorem C3_rook_moves_exact :
    (∀ (b : BitbArray) (c : enumColor), b.WF → b.all = b.white ||| b.black →
      b.white &&& b.black = 0 → b.rook &&& b.all = b.rook → (c = .nWhite ∨ c = .nBlack) →
      ∀ t, (getRookMoves b c .nRook).testBit t = true ↔ rookDestination b c t) ∧
    (∀ k, getRookMoves (rookOnA1 k false) .nWhite .nRook = 0x10101fe) ∧
    (∀ k, k ≠ .nRook → getRookMoves (rookOnA1 k true) .nWhite .nRook = 0x101fe) := by
  refine ⟨?_, ?_, ?_⟩
  · intro b c hwf hunion hdisj _ hc t
    have h : ColorsOk b := ⟨hwf, hunion, hdisj⟩
    rcases hc with rfl | rfl
    · exact getRookMovesOne_iff b h .nWhite t
    · exact getRookMovesOne_iff b h .nBlack t
  · intro k; cases k <;> decide
  · intro k hk; cases k <;> first | decide | exact (hk rfl).elim

/-- Witness for C3: the white rook on a1 facing a black pawn on a4, at the square a4. -/
theorem C3_rook_moves_exact_witness :
    (rookOnA1 .nPawn false).WF ∧
    (rookOnA1 .nPawn false).all = (rookOnA1 .nPawn false).white ||| (rookOnA1 .nPawn false).black ∧
    (rookOnA1 .nPawn false).white &&& (rookOnA1 .nPawn false).black = 0 ∧
    (rookOnA1 .nPawn false).rook &&& (rookOnA1 .nPawn false).all = (rookOnA1 .nPawn false).rook ∧
    ((getRookMoves (rookOnA1 .nPawn false) .nWhite .nRook).testBit 24 = true ↔
      rookDestination (rookOnA1 .nPawn false) .nWhite 24) :=
  ⟨by decide, by decide, by decide, by decide,
    C3_rook_moves_exact.1 (rookOnA1 .nPawn false) .nWhite (by decide) (by decide) (by decide)
      (by decide) (Or.inl rfl) 24⟩

/-! ## C4: bishop destinations -/

/-- The bishop-type result is the union of the four diagonal attack rays, restricted
to squares not occupied by the mover. -/
theorem getBishopMovesOne_testBit (b : BitbArray) (h : ColorsOk b) (c : enumColor)
    (k : enumType) (t : Nat) :
    (getBishopMovesOne b c k).testBit t = true ↔
      (((shiftNorthEast (noEaOccl (b.piece k &&& b.color c) (bnot b.all))).testBit t = true ∨
        (shiftSouthEast (soEaOccl (b.piece k &&& b.color c) (bnot b.all))).testBit t = true ∨
        (shiftNorthWest (noWeOccl (b.piece k &&& b.color c) (bnot b.all))).testBit t = true ∨
        (shiftSouthWest (soWeOccl (b.piece k &&& b.color c) (bnot b.all))).testBit t = true) ∧
       (b.color c).testBit t = false) := by
  have hall : b.all < 2 ^ 64 := h.own_lt .nColor
  have hgen : b.piece k &&& b.color c < 2 ^ 64 := and_lt_left _ _ (h.wf.piece_lt k)
  have hown : ∀ u, (bnot (b.color c)).testBit u = true → (b.color c).testBit u = false :=
    fun u hu => not_testBit_of_bnot _ u (h.own_lt c) hu
  simp only [getBishopMovesOne, BitbArray.color, Nat.testBit_or, Nat.testBit_and,
    Bool.or_eq_true, Bool.and_eq_true]
  constructor
  · rintro (⟨hm, hk⟩ | ⟨ha, ho⟩)
    · have hnot : (b.piece k &&& b.color c).testBit t = true → False := by
        intro hg
        rw [Nat.testBit_and, Bool.and_eq_true] at hg
        have := not_testBit_of_bnot _ t (h.wf.piece_lt k) hk
        rw [hg.1] at this
        exact Bool.noConfusion this
      have hfill : (b.piece k &&& b.color c).testBit t = true ∨ (bnot b.all).testBit t = true := by
        rcases hm with ((hm | hm) | hm) | hm
        · exact noEaOccl_subset _ _ t hm
        · exact soEaOccl_subset _ _ t hm
        · exact noWeOccl_subset _ _ t hm
        · exact soWeOccl_subset _ _ t hm
      refine ⟨?_, fill_not_own b h c k t hfill hk⟩
      rcases hm with ((hm | hm) | hm) | hm
      · rcases noEa_fill _ _ t hm with hg | ha
        · exact (hnot hg).elim
        · exact Or.inl ha
      · rcases soEa_fill _ _ t hm with hg | ha
        · exact (hnot hg).elim
        · exact Or.inr (Or.inl ha)
      · rcases noWe_fill _ _ t hm with hg | ha
        · exact (hnot hg).elim
        · exact Or.inr (Or.inr (Or.inl ha))
      · rcases soWe_fill _ _ t hm with hg | ha
        · exact (hnot hg).elim
        · exact Or.inr (Or.inr (Or.inr ha))
    · refine ⟨?_, hown t ho⟩
      rcases ha with ((ha | ha) | ha) | ha
      · exact Or.inl ha
      · exact Or.inr (Or.inl ha)
      · exact Or.inr (Or.inr (Or.inl ha))
      · exact Or.inr (Or.inr (Or.inr ha))
  · rintro ⟨ha, ho⟩
    right
    have h64 : t < 64 := by
      rcases ha with ha | ha | ha | ha
      · exact ((noEa_attack _ _ t hall).1 ha).1
      · exact ((soEa_attack _ _ t hall hgen).1 ha).1
      · exact ((noWe_attack _ _ t hall).1 ha).1
      · exact ((soWe_attack _ _ t hall hgen).1 ha).1
    refine ⟨?_, ?_⟩
    · rcases ha with ha | ha | ha | ha
      · exact Or.inl (Or.inl (Or.inl ha))
      · exact Or.inl (Or.inl (Or.inr ha))
      · exact Or.inl (Or.inr ha)
      · exact Or.inr ha
    · rw [testBit_bnot, ho]; simp [h64]

theorem getBishopMovesOne_iff (b : BitbArray) (h : ColorsOk b) (c : enumColor) (t : Nat) :
    (getBishopMovesOne b c .nBishop).testBit t = true ↔ bishopDestination b c t := by
  have hall : b.all < 2 ^ 64 := h.own_lt .nColor
  have hgen : b.bishop &&& b.color c < 2 ^ 64 := and_lt_left _ _ (h.wf.piece_lt .nBishop)
  rw [getBishopMovesOne_testBit b h c .nBishop t]
  simp only [BitbArray.piece]
  rw [noEa_attack _ _ t hall, soEa_attack _ _ t hall hgen, noWe_attack _ _ t hall,
    soWe_attack _ _ t hall hgen]
  unfold bishopDestination
  constructor
  · rintro ⟨hray, hown⟩
    rcases hray with ⟨h64, s, hs, hg, hf, hr, hp⟩ | ⟨h64, s, hs, hg, hf, hr, hp⟩ |
      ⟨h64, s, hs, hg, hf, hr, hp⟩ | ⟨h64, s, hs, hg, hf, hr, hp⟩
    all_goals
      refine ⟨h64, hown, s, hs, hg, ?_, ?_, ?_⟩
      · intro e; subst e; omega
      · first | exact Or.inl hf | exact Or.inr hf
      · intro u hu hb
        unfold betweenDiag at hb
        rcases hb with ⟨h1, h2, h3 | h3⟩ | ⟨h1, h2, h3 | h3⟩ <;>
          first
          | exact hp u hu h2 h3.1 h3.2
          | exact hp u hu h2 h3.2 h3.1
          | omega
  · rintro ⟨h64, hown, s, hs, hg, hne, hline, hp⟩
    refine ⟨?_, hown⟩
    have hb : ∀ u, u < 64 → betweenDiag s t u → b.all.testBit u = false := hp
    unfold betweenDiag at hb
    rcases hline with hf | hr
    · rcases Nat.lt_trichotomy (rankOf s) (rankOf t) with hlt | heq | hgt
      · left
        exact ⟨h64, s, hs, hg, hf, hlt, fun u hu h1 h2 h3 =>
          hb u hu (Or.inl ⟨hf, h1, Or.inl ⟨h2, h3⟩⟩)⟩
      · exfalso; apply hne; unfold fileOf at hf; unfold rankOf at heq hf; omega
      · right; right; right
        exact ⟨h64, s, hs, hg, hf, hgt, fun u hu h1 h2 h3 =>
          hb u hu (Or.inl ⟨hf, h1, Or.inr ⟨h2, h3⟩⟩)⟩
    · rcases Nat.lt_trichotomy (rankOf s) (rankOf t) with hlt | heq | hgt
      · right; right; left
        exact ⟨h64, s, hs, hg, hr, hlt, fun u hu h1 h2 h3 =>
          hb u hu (Or.inr ⟨hr, h1, Or.inl ⟨h2, h3⟩⟩)⟩
      · exfalso; apply hne; unfold fileOf at hr; unfold rankOf at heq hr; omega
      · right; left
        exact ⟨h64, s, hs, hg, hr, hgt, fun u hu h1 h2 h3 =>
          hb u hu (Or.inr ⟨hr, h1, Or.inr ⟨h2, h3⟩⟩)⟩

end chessqdl

namespace chessqdl

/-- C4: on a bitboard set whose union mask is the union of the two disjoint colour
masks and contains the bishop mask, for White and for Black, the bits of
`getBishopMoves` are exactly the squares not occupied by the mover that share a
diagonal with some bishop of the mover, differ from it, and have only unoccupied
squares strictly between on that diagonal.  In particular nothing wraps between the
files a and h: a lone bishop on a corner square reaches exactly the other seven
squares of its long diagonal. -/
theorem C4_bishop_moves_exact :
    (∀ (b : BitbArray) (c : enumColor), b.WF → b.all = b.white ||| b.black →
      b.white &&& b.black = 0 → b.bishop &&& b.all = b.bishop → (c = .nWhite ∨ c = .nBlack) →
      ∀ t, (getBishopMoves b c .nBishop).testBit t = true ↔ bishopDestination b c t) ∧
    squaresOf (getBishopMoves (loneBishop 7) .nWhite .nBishop) = [14, 21, 28, 35, 42, 49, 56] ∧
    squaresOf (getBishopMoves (loneBishop 0) .nWhite .nBishop) = [9, 18, 27, 36, 45, 54, 63] ∧
    squaresOf (getBishopMoves (loneBishop 56) .nWhite .nBishop) = [7, 14, 21, 28, 35, 42, 49] ∧
    squaresOf (getBishopMoves (loneBishop 63) .nWhite .nBishop) = [0, 9, 18, 27, 36, 45, 54] := by
  refine ⟨?_, by decide, by decide, by decide, by decide⟩
  intro b c hwf hunion hdisj _ hc t
  have h : ColorsOk b := ⟨hwf, hunion, hdisj⟩
  rcases hc with rfl | rfl
  · exact getBishopMovesOne_iff b h .nWhite t
  · exact getBishopMovesOne_iff b h .nBlack t

/-- Witness for C4: the white bishop on c1 in the standard starting position, at the
square d2 (occupied by a white pawn). -/
theorem C4_bishop_moves_exact_witness :
    Bitboard.standard.WF ∧
    Bitboard.standard.all = Bitboard.standard.white ||| Bitboard.standard.black ∧
    Bitboard.standard.white &&& Bitboard.standard.black = 0 ∧
    Bitboard.standard.bishop &&& Bitboard.standard.all = Bitboard.standard.bishop ∧
    ((getBishopMoves Bitboard.standard .nWhite .nBishop).testBit 11 = true ↔
      bishopDestination Bitboard.standard .nWhite 11) :=
  ⟨by decide, by decide, by decide, by decide,
    C4_bishop_moves_exact.1 Bitboard.standard .nWhite (by decide) (by decide) (by decide)
      (by decide) (Or.inl rfl) 11⟩

/-! ## C5: the combined colour -/

/-- C5: for pawn, knight, bishop, rook and queen the generator called with the
combined colour returns the union of its results for White and for Black, but
`getKingMoves` has no such dispatch: with a white king on e1 and a black pawn on e2
the combined-colour call returns d1, f1, d2, f2, while the union of the White and
Black results also contains the capture on e2. -/
theorem C5_king_combined_color_is_not_union :
    (∀ b : BitbArray,
      getPawnMoves b .nColor = getPawnMoves b .nWhite ||| getPawnMoves b .nBlack ∧
      getKnightMoves b .nColor = getKnightMoves b .nWhite ||| getKnightMoves b .nBlack ∧
      getBishopMoves b .nColor .nBishop =
        getBishopMoves b .nWhite .nBishop ||| getBishopMoves b .nBlack .nBishop ∧
      getRookMoves b .nColor .nRook =
        getRookMoves b .nWhite .nRook ||| getRookMoves b .nBlack .nRook ∧
      getQueenMoves b .nColor = getQueenMoves b .nWhite ||| getQueenMoves b .nBlack) ∧
    squaresOf (getKingMoves kingFacingPawn .nColor) = [3, 5, 11, 13] ∧
    squaresOf (getKingMoves kingFacingPawn .nWhite ||| getKingMoves kingFacingPawn .nBlack) =
      [3, 5, 11, 12, 13] ∧
    getKingMoves kingFacingPawn .nColor ≠
      getKingMoves kingFacingPawn .nWhite ||| getKingMoves kingFacingPawn .nBlack := by
  refine ⟨?_, by decide, by decide, by decide⟩
  intro b
  refine ⟨?_, ?_, rfl, rfl, rfl⟩
  · exact Nat.lor_comm _ _
  · exact Nat.lor_comm _ _

/-! ## The bit-extraction loops -/

theorem lsbFuel_spec (fuel x : Nat) (hx : x ≠ 0) (hlt : x < 2 ^ fuel) :
    lsbFuel fuel x < fuel ∧ x.testBit (lsbFuel fuel x) = true ∧
      ∀ j, j < lsbFuel fuel x → x.testBit j = false := by
  induction fuel generalizing x with
  | zero => simp at hlt; exact (hx hlt).elim
  | succ fuel ih =>
    unfold lsbFuel
    by_cases h : x % 2 = 1
    · rw [if_pos h]
      refine ⟨by omega, ?_, fun j hj => absurd hj (by omega)⟩
      rw [Nat.testBit_zero]; simpa using h
    · rw [if_neg h]
      have hx2 : x / 2 ≠ 0 := by omega
      have hlt2 : x / 2 < 2 ^ fuel := by
        rw [Nat.pow_succ] at hlt; omega
      obtain ⟨h1, h2, h3⟩ := ih (x / 2) hx2 hlt2
      refine ⟨by omega, ?_, ?_⟩
      · rw [Nat.add_comm, Nat.testBit_succ]; exact h2
      · intro j hj
        cases j with
        | zero => rw [Nat.testBit_zero]; simpa using h
        | succ j => rw [Nat.testBit_succ]; exact h3 j (by omega)

theorem lsb_spec (u : Nat) (hu : u ≠ 0) (hlt : u < 2 ^ 64) :
    leastSignificantSetBit u < 64 ∧ u.testBit (leastSignificantSetBit u) = true ∧
      ∀ j, j < leastSignificantSetBit u → u.testBit j = false :=
  lsbFuel_spec 64 u hu hlt

theorem shl_one (i : Nat) (hi : i < 64) : shl 1 i = 2 ^ i := by
  unfold shl
  rw [Nat.shiftLeft_eq, Nat.one_mul]
  exact Nat.mod_eq_of_lt (Nat.pow_lt_pow_right (by decide) hi)

theorem testBit_clear (u i j : Nat) (hi : i < 64) :
    (u ^^^ shl 1 i).testBit j = (u.testBit j ^^ decide (i = j)) := by
  rw [Nat.testBit_xor, shl_one i hi, Nat.testBit_two_pow]

theorem clear_lt (u i : Nat) (hu : u < 2 ^ 64) (hi : i < 64) : u ^^^ shl 1 i < 2 ^ 64 := by
  rw [shl_one i hi]
  exact Nat.xor_lt_two_pow hu (Nat.pow_lt_pow_right (by decide) hi)

theorem eq_zero_of_low_bits (u : Nat) (hu : u < 2 ^ 64)
    (h : ∀ j, j < 64 → u.testBit j = false) : u = 0 := by
  apply Nat.eq_of_testBit_eq
  intro j
  rw [Nat.zero_testBit]
  by_cases hj : j < 64
  · exact h j hj
  · exact Nat.testBit_lt_two_pow (lt_of_lt_of_le hu (Nat.pow_le_pow_right (by decide) (by omega)))

/-- Set bits of `u` at or above `lo`, in increasing order. -/
theorem filter_range_lsb (u lo : Nat) (hu : u ≠ 0) (hlt : u < 2 ^ 64)
    (hlo : ∀ j, j < lo → u.testBit j = false) :
    (List.range' lo (64 - lo)).filter (fun j => u.testBit j) =
      leastSignificantSetBit u ::
        (List.range' (leastSignificantSetBit u + 1) (64 - (leastSignificantSetBit u + 1))).filter
          (fun j => (u ^^^ shl 1 (leastSignificantSetBit u)).testBit j) := by
  obtain ⟨h1, h2, h3⟩ := lsb_spec u hu hlt
  generalize leastSignificantSetBit u = i at h1 h2 h3
  have hle : lo ≤ i := by
    by_contra hc
    have := hlo i (by omega)
    rw [h2] at this
    exact Bool.noConfusion this
  have e1 : List.range' lo (64 - lo) =
      List.range' lo (i - lo) ++ (i :: List.range' (i + 1) (64 - (i + 1))) := by
    have := List.range'_append lo (i - lo) (64 - i) 1
    rw [Nat.one_mul, show lo + (i - lo) = i by omega, show 64 - i + (i - lo) = 64 - lo by omega] at this
    rw [← this, show 64 - i = (64 - (i + 1)) + 1 by omega, List.range'_succ]
  rw [e1, List.filter_append, List.filter_cons, if_pos h2]
  have e2 : (List.range' lo (i - lo)).filter (fun j => u.testBit j) = [] := by
    rw [List.filter_eq_nil_iff]
    intro a ha
    rw [List.mem_range'_1] at ha
    rw [h3 a (by omega)]
    simp
  rw [e2, List.nil_append]
  congr 1
  apply List.filter_congr
  intro a ha
  rw [List.mem_range'_1] at ha
  rw [testBit_clear u i a h1]
  have : decide (i = a) = false := by simp; omega
  rw [this, Bool.xor_false]

theorem bitIter_range (σ : Type) (body : Nat → σ → Option σ) (fuel : Nat) :
    ∀ (lo u : Nat) (s : σ), 64 ≤ lo + fuel → u < 2 ^ 64 →
      (∀ j, j < lo → u.testBit j = false) →
      bitIter body fuel u s =
        runBody body ((List.range' lo (64 - lo)).filter (fun j => u.testBit j)) s := by
  induction fuel with
  | zero =>
    intro lo u s hlo hu hbits
    have h0 : u = 0 := eq_zero_of_low_bits u hu (fun j hj => hbits j (by omega))
    subst h0
    simp [bitIter, runBody]
  | succ fuel ih =>
    intro lo u s hlo hu hbits
    unfold bitIter
    by_cases h0 : u = 0
    · subst h0
      simp [runBody]
    · rw [if_neg h0, filter_range_lsb u lo h0 hu hbits]
      obtain ⟨h1, h2, h3⟩ := lsb_spec u h0 hu
      have hle : lo ≤ leastSignificantSetBit u := by
        by_contra hc
        have := hbits _ (by omega : leastSignificantSetBit u < lo)
        rw [h2] at this
        exact Bool.noConfusion this
      simp only [runBody]
      cases hb : body (leastSignificantSetBit u) s with
      | none => rfl
      | some s' =>
        simp only
        apply ih (leastSignificantSetBit u + 1) _ s' (by omega) (clear_lt u _ hu h1)
        intro j hj
        rw [testBit_clear u _ j h1]
        by_cases hji : j = leastSignificantSetBit u
        · subst hji; rw [h2]; simp
        · rw [h3 j (by omega)]
          simp; omega

/-- A bit-extraction loop with 64 units of fuel on a 64-bit word never runs out of
fuel: it runs its body over the set bits in increasing order. -/
theorem bitIter_eq (σ : Type) (body : Nat → σ → Option σ) (u : Nat) (s : σ) (hu : u < 2 ^ 64) :
    bitIter body 64 u s = runBody body (squaresOf u) s := by
  have := bitIter_range σ body 64 0 u s (by omega) hu (fun j hj => absurd hj (by omega))
  rw [this, squaresOf, List.range_eq_range']

theorem runBody_append (f : Nat → List String) (l : List Nat) (acc : List String) :
    runBody (fun j m => some (m ++ f j)) l acc = some (acc ++ l.flatMap f) := by
  induction l generalizing acc with
  | nil => simp [runBody]
  | cons i is ih =>
    simp only [runBody, List.flatMap_cons]
    rw [ih, List.append_assoc]

theorem destLoop_eq_bitIter (fromPos fuel u : Nat) (moves : List String) :
    destLoop fromPos fuel u moves =
      bitIter (fun j m => some (m ++ [moveName fromPos (shl 1 j)])) fuel u moves := by
  induction fuel generalizing u moves with
  | zero => simp [destLoop, bitIter]
  | succ fuel ih =>
    unfold destLoop bitIter
    by_cases h0 : u = 0
    · simp [h0]
    · simp only [if_neg h0]
      exact ih _ _

/-- The loop `while (umoves)` on a 64-bit word appends one move per set bit, in
increasing bit order. -/
theorem destLoop_eq (fromPos u : Nat) (moves : List String) (hu : u < 2 ^ 64) :
    destLoop fromPos 64 u moves =
      some (moves ++ (squaresOf u).flatMap (fun j => [moveName fromPos (shl 1 j)])) := by
  rw [destLoop_eq_bitIter, bitIter_eq _ _ u moves hu, runBody_append]

theorem promotionLoop_eq_bitIter (fromPos fuel u : Nat) (promotions : List String) :
    promotionLoop fromPos fuel u promotions =
      bitIter (fun i m => some (m ++ promotionsTo fromPos i)) fuel u promotions := by
  induction fuel generalizing u promotions with
  | zero => simp [promotionLoop, bitIter]
  | succ fuel ih =>
    unfold promotionLoop bitIter
    by_cases h0 : u = 0
    · simp [h0]
    · simp only [if_neg h0]
      exact ih _ _

/-- Each promotion loop on a 64-bit word appends the four promotion moves of every
set bit, in increasing bit order. -/
theorem promotionLoop_eq (fromPos u : Nat) (promotions : List String) (hu : u < 2 ^ 64) :
    promotionLoop fromPos 64 u promotions =
      some (promotions ++ (squaresOf u).flatMap (promotionsTo fromPos)) := by
  rw [promotionLoop_eq_bitIter, bitIter_eq _ _ u promotions hu, runBody_append]

theorem pieceLoop_eq_bitIter (color : enumColor) (k : enumType) (fuel u : Nat)
    (copy : BitbArray) (moves : List String) :
    pieceLoop color k fuel u copy moves = bitIter (pieceBody color k) fuel u (copy, moves) := by
  induction fuel generalizing u copy moves with
  | zero => simp [pieceLoop, bitIter]
  | succ fuel ih =>
    unfold pieceLoop bitIter
    by_cases h0 : u = 0
    · simp [h0]
    · simp only [if_neg h0, pieceBody]
      cases hs : pieceSwitch (copy.setPiece k (0 ||| shl 1 (leastSignificantSetBit u))) color k
          (shl 1 (leastSignificantSetBit u)) moves with
      | none => rfl
      | some r =>
        obtain ⟨pm, ms⟩ := r
        simp only
        cases hd : destLoop (shl 1 (leastSignificantSetBit u)) 64 pm ms with
        | none => rfl
        | some ms' => exact ih _ _ _

/-! ## C8: promotion expansion -/

set_option maxRecDepth 100000 in
theorem sqName_inj : ∀ t, t < 64 → ∀ t', t' < 64 → sqName t = sqName t' → t = t' := by decide

theorem sqName_length : ∀ t, t < 64 → (sqName t).data.length = 2 := by decide

theorem posToStr_shl : ∀ t, t < 64 → posToStr (shl 1 t) = sqName t := by decide

theorem moveName_shl (fromPos t : Nat) (ht : t < 64) :
    moveName fromPos (shl 1 t) = posToStr fromPos ++ sqName t := by
  unfold moveName
  rw [posToStr_shl t ht]

/-- A promotion move determines its destination square and its promotion letter. -/
theorem promotion_name_inj (fromPos t t' : Nat) (s s' : String) (ht : t < 64) (ht' : t' < 64)
    (h : moveName fromPos (shl 1 t) ++ s = moveName fromPos (shl 1 t') ++ s') :
    t = t' ∧ s = s' := by
  rw [moveName_shl fromPos t ht, moveName_shl fromPos t' ht'] at h
  have hd := congrArg String.data h
  simp only [String.data_append, List.append_assoc] at hd
  have h2 := List.append_cancel_left hd
  have h3 := List.append_inj h2 (by rw [sqName_length t ht, sqName_length t' ht'])
  exact ⟨sqName_inj t ht t' ht' (String.ext h3.1), String.ext h3.2⟩

theorem promotionsTo_eq (fromPos i : Nat) :
    promotionsTo fromPos i =
      promotionSuffixes.map (fun s => moveName fromPos (shl 1 i) ++ s) := rfl

theorem flatMap_promotionsTo (fromPos : Nat) (l : List Nat) :
    l.flatMap (promotionsTo fromPos) =
      (l ×ˢ promotionSuffixes).map
        (fun p => moveName fromPos (shl 1 p.1) ++ p.2) := by
  induction l with
  | nil => rfl
  | cons i is ih =>
    rw [List.flatMap_cons, ih, List.product_cons, List.map_append, List.map_map]
    rfl

theorem mem_squaresOf (x t : Nat) : t ∈ squaresOf x ↔ (t < 64 ∧ x.testBit t = true) := by
  unfold squaresOf
  rw [List.mem_filter, List.mem_range]

theorem nodup_squaresOf (x : Nat) : (squaresOf x).Nodup :=
  List.Nodup.filter _ (List.nodup_range 64)

theorem testBit_rank8 (t : Nat) : rank8.testBit t = true ↔ (t < 64 ∧ rankOf t = 7) := by
  by_cases h : t < 64
  · have : ∀ j, j < 64 → (rank8.testBit j = true ↔ (j < 64 ∧ rankOf j = 7)) := by decide
    exact this t h
  · have h1 : rank8 < 2 ^ t :=
      lt_of_lt_of_le (by decide : rank8 < 2 ^ 64) (Nat.pow_le_pow_right (by decide) (by omega))
    rw [Nat.testBit_lt_two_pow h1]
    simp [h]

theorem testBit_rank1 (t : Nat) : rank1.testBit t = true ↔ rankOf t = 0 := by
  by_cases h : t < 64
  · have : ∀ j, j < 64 → (rank1.testBit j = true ↔ rankOf j = 0) := by decide
    exact this t h
  · have h1 : rank1 < 2 ^ t :=
      lt_of_lt_of_le (by decide : rank1 < 2 ^ 64) (Nat.pow_le_pow_right (by decide) (by omega))
    rw [Nat.testBit_lt_two_pow h1]
    unfold rankOf
    simp; omega

/-- The promotion destinations of a move mask in emission order: the eighth-rank bits
in increasing order, then the first-rank bits in increasing order. -/
theorem nodup_promotionSquares (m : Nat) :
    (squaresOf (m &&& rank8) ++ squaresOf (m &&& rank1)).Nodup := by
  rw [List.nodup_append]
  refine ⟨nodup_squaresOf _, nodup_squaresOf _, ?_⟩
  intro t h8 h1
  rw [mem_squaresOf, Nat.testBit_and, Bool.and_eq_true, testBit_rank8] at h8
  rw [mem_squaresOf, Nat.testBit_and, Bool.and_eq_true, testBit_rank1] at h1
  omega

theorem mem_promotionSquares (m t : Nat) :
    t ∈ squaresOf (m &&& rank8) ++ squaresOf (m &&& rank1) ↔
      (t < 64 ∧ m.testBit t = true ∧ (rankOf t = 0 ∨ rankOf t = 7)) := by
  rw [List.mem_append, mem_squaresOf, mem_squaresOf, Nat.testBit_and, Nat.testBit_and,
    Bool.and_eq_true, Bool.and_eq_true, testBit_rank8, testBit_rank1]
  tauto

/-- Closed form of `getPawnPromotions` on a 64-bit move mask. -/
theorem getPawnPromotions_eq (m fromPos : Nat) (hm : m < 2 ^ 64) :
    getPawnPromotions m fromPos =
      some (m ^^^ (m &&& rank8) ^^^ (m &&& rank1),
        (squaresOf (m &&& rank8) ++ squaresOf (m &&& rank1)).flatMap (promotionsTo fromPos)) := by
  unfold getPawnPromotions
  simp only
  rw [promotionLoop_eq fromPos _ [] (and_lt_left _ _ hm)]
  simp only
  rw [promotionLoop_eq fromPos _ _ (and_lt_left _ _ hm)]
  simp only [List.nil_append, List.flatMap_append]
  rfl

theorem filter_length_or (l : List Nat) (x y : Nat)
    (h : ∀ t, x.testBit t = true → y.testBit t = true → False) :
    (l.filter (fun i => (x ||| y).testBit i)).length =
      (l.filter (fun i => x.testBit i)).length + (l.filter (fun i => y.testBit i)).length := by
  induction l with
  | nil => rfl
  | cons a l ih =>
    simp only [List.filter_cons, Nat.testBit_or]
    cases hx : x.testBit a <;> cases hy : y.testBit a
    · simpa using ih
    · simp only [Bool.false_or, if_true, List.length_cons, Bool.false_eq_true, if_false]
      simp only [Nat.testBit_or] at ih
      omega
    · simp only [Bool.or_false, if_true, List.length_cons, Bool.false_eq_true, if_false]
      simp only [Nat.testBit_or] at ih
      omega
    · exact (h a hx hy).elim

theorem popcount_or (x y : Nat) (h : ∀ t, x.testBit t = true → y.testBit t = true → False) :
    popcount (x ||| y) = popcount x + popcount y :=
  filter_length_or _ x y h

theorem popcount_eq_length (x : Nat) : popcount x = (squaresOf x).length := rfl

theorem nodup_promotions (m fromPos : Nat) :
    ((squaresOf (m &&& rank8) ++ squaresOf (m &&& rank1)).flatMap
      (promotionsTo fromPos)).Nodup := by
  rw [flatMap_promotionsTo]
  apply List.Nodup.map_on
  · rintro ⟨t, s⟩ hx ⟨t', s'⟩ hy hxy
    rw [List.mem_product] at hx hy
    have ht := ((mem_promotionSquares m t).1 hx.1).1
    have ht' := ((mem_promotionSquares m t').1 hy.1).1
    obtain ⟨e1, e2⟩ := promotion_name_inj fromPos t t' s s' ht ht' hxy
    rw [e1, e2]
  · exact List.Nodup.product (nodup_promotionSquares m) (by decide)

theorem mem_promotions (m fromPos : Nat) (x : String) :
    x ∈ (squaresOf (m &&& rank8) ++ squaresOf (m &&& rank1)).flatMap (promotionsTo fromPos) ↔
      ∃ t s, t < 64 ∧ m.testBit t = true ∧ (rankOf t = 0 ∨ rankOf t = 7) ∧
        s ∈ promotionSuffixes ∧ x = moveName fromPos (shl 1 t) ++ s := by
  rw [List.mem_flatMap]
  constructor
  · rintro ⟨t, ht, hx⟩
    rw [promotionsTo_eq, List.mem_map] at hx
    obtain ⟨s, hs, rfl⟩ := hx
    obtain ⟨h1, h2, h3⟩ := (mem_promotionSquares m t).1 ht
    exact ⟨t, s, h1, h2, h3, hs, rfl⟩
  · rintro ⟨t, s, h1, h2, h3, hs, rfl⟩
    refine ⟨t, (mem_promotionSquares m t).2 ⟨h1, h2, h3⟩, ?_⟩
    rw [promotionsTo_eq, List.mem_map]
    exact ⟨s, hs, rfl⟩

/-- C8: on a 64-bit pawn move mask `m`, `getPawnPromotions` returns; the mask it
leaves has exactly the bits of `m` outside the first and eighth ranks; the returned
list has `4 * popcount (m & (rank1 | rank8))` entries; every back-rank destination of
`m` occurs exactly once with each of the suffixes n, b, r, q; the list holds nothing
else; and no destination left in the mask occurs in the list. -/
theorem C8_promotion_expansion (m fromPos : Nat) (hm : m < 2 ^ 64) :
    ∃ m' promotions, getPawnPromotions m fromPos = some (m', promotions) ∧
      (∀ t, m'.testBit t = true ↔ (m.testBit t = true ∧ rankOf t ≠ 0 ∧ rankOf t ≠ 7)) ∧
      promotions.length = 4 * popcount (m &&& (rank1 ||| rank8)) ∧
      (∀ t, t < 64 → m.testBit t = true → (rankOf t = 0 ∨ rankOf t = 7) →
        ∀ s, s ∈ promotionSuffixes →
          promotions.count (moveName fromPos (shl 1 t) ++ s) = 1) ∧
      (∀ x, x ∈ promotions → ∃ t s, t < 64 ∧ m.testBit t = true ∧
        (rankOf t = 0 ∨ rankOf t = 7) ∧ s ∈ promotionSuffixes ∧
        x = moveName fromPos (shl 1 t) ++ s) ∧
      (∀ t, t < 64 → m'.testBit t = true → ∀ s, s ∈ promotionSuffixes →
        moveName fromPos (shl 1 t) ++ s ∉ promotions) := by
  have hbits : ∀ t, (m ^^^ (m &&& rank8) ^^^ (m &&& rank1)).testBit t = true ↔
      (m.testBit t = true ∧ rankOf t ≠ 0 ∧ rankOf t ≠ 7) := by
    intro t
    have h8 := testBit_rank8 t
    have h1 := testBit_rank1 t
    rw [Nat.testBit_xor, Nat.testBit_xor, Nat.testBit_and, Nat.testBit_and]
    cases hmt : m.testBit t
    · simp
    · have h64 := testBit_of_lt hm hmt
      cases hr8 : rank8.testBit t <;> cases hr1 : rank1.testBit t <;>
        simp only [hr8, hr1, true_iff, Bool.false_eq_true, false_iff] at h8 h1 <;>
        simp <;> omega
  refine ⟨_, _, getPawnPromotions_eq m fromPos hm, hbits, ?_, ?_, ?_, ?_⟩
  · rw [flatMap_promotionsTo, List.length_map, List.length_product, List.length_append,
      Nat.and_or_distrib_left, popcount_or, popcount_eq_length, popcount_eq_length]
    · simp [promotionSuffixes]; omega
    · intro t h1 h8
      rw [Nat.testBit_and, Bool.and_eq_true, testBit_rank1] at h1
      rw [Nat.testBit_and, Bool.and_eq_true, testBit_rank8] at h8
      omega
  · intro t ht hmt hr s hs
    exact List.count_eq_one_of_mem (nodup_promotions m fromPos)
      ((mem_promotions m fromPos _).2 ⟨t, s, ht, hmt, hr, hs, rfl⟩)
  · intro x hx
    exact (mem_promotions m fromPos x).1 hx
  · intro t ht hmt s _ hmem
    obtain ⟨t', s', ht', _, hr', _, he⟩ := (mem_promotions m fromPos _).1 hmem
    obtain ⟨e1, _⟩ := promotion_name_inj fromPos t t' s s' ht ht' he
    have := (hbits t).1 hmt
    rw [← e1] at hr'
    omega

/-- Witness for C8: a pawn on b7 that may advance to b8 or capture on a8 and c8. -/
theorem C8_promotion_expansion_witness :
    (0x0700000000000000 : Nat) < 2 ^ 64 ∧
    ∃ m' promotions, getPawnPromotions 0x0700000000000000 (shl 1 49) = some (m', promotions) ∧
      (∀ t, m'.testBit t = true ↔
        (Nat.testBit 0x0700000000000000 t = true ∧ rankOf t ≠ 0 ∧ rankOf t ≠ 7)) ∧
      promotions.length = 4 * popcount (0x0700000000000000 &&& (rank1 ||| rank8)) ∧
      (∀ t, t < 64 → Nat.testBit 0x0700000000000000 t = true → (rankOf t = 0 ∨ rankOf t = 7) →
        ∀ s, s ∈ promotionSuffixes →
          promotions.count (moveName (shl 1 49) (shl 1 t) ++ s) = 1) ∧
      (∀ x, x ∈ promotions → ∃ t s, t < 64 ∧ Nat.testBit 0x0700000000000000 t = true ∧
        (rankOf t = 0 ∨ rankOf t = 7) ∧ s ∈ promotionSuffixes ∧
        x = moveName (shl 1 49) (shl 1 t) ++ s) ∧
      (∀ t, t < 64 → m'.testBit t = true → ∀ s, s ∈ promotionSuffixes →
        moveName (shl 1 49) (shl 1 t) ++ s ∉ promotions) :=
  ⟨by decide, C8_promotion_expansion 0x0700000000000000 (shl 1 49) (by decide)⟩

/-! ## The aggregate move list: termination and closed form -/

theorem and_lt_right (x y : Nat) (hy : y < 2 ^ 64) : x &&& y < 2 ^ 64 :=
  lt_of_le_of_lt Nat.and_le_right hy

theorem or_lt (x y : Nat) (hx : x < 2 ^ 64) (hy : y < 2 ^ 64) : x ||| y < 2 ^ 64 :=
  Nat.or_lt_two_pow hx hy

theorem BitbArray.WF.color_lt {b : BitbArray} (h : b.WF) (c : enumColor) : b.color c < 2 ^ 64 := by
  obtain ⟨h1, h2, h3, -⟩ := h
  cases c <;> assumption

theorem getPawnMoves_lt (b : BitbArray) (h : b.WF) (c : enumColor) : getPawnMoves b c < 2 ^ 64 := by
  have hw : getPawnMovesWhite b < 2 ^ 64 :=
    or_lt _ _ (and_lt_right _ _ (h.color_lt .nBlack))
      (and_lt_right _ _ (bnot_lt _ (h.color_lt .nColor)))
  have hb : getPawnMovesBlack b < 2 ^ 64 :=
    or_lt _ _ (and_lt_right _ _ (h.color_lt .nWhite))
      (and_lt_right _ _ (bnot_lt _ (h.color_lt .nColor)))
  cases c
  · exact hw
  · exact hb
  · exact or_lt _ _ hb hw

theorem getKingMoves_lt (b : BitbArray) (h : b.WF) (c : enumColor) : getKingMoves b c < 2 ^ 64 :=
  and_lt_right _ _ (bnot_lt _ (h.color_lt c))

theorem getKnightMovesOne_lt (b : BitbArray) (h : b.WF) (c : enumColor) :
    getKnightMovesOne b c < 2 ^ 64 :=
  and_lt_right _ _ (bnot_lt _ (h.color_lt c))

theorem getKnightMoves_lt (b : BitbArray) (h : b.WF) (c : enumColor) :
    getKnightMoves b c < 2 ^ 64 := by
  cases c
  · exact getKnightMovesOne_lt b h _
  · exact getKnightMovesOne_lt b h _
  · exact or_lt _ _ (getKnightMovesOne_lt b h _) (getKnightMovesOne_lt b h _)

theorem getBishopMovesOne_lt (b : BitbArray) (h : b.WF) (c : enumColor) (k : enumType) :
    getBishopMovesOne b c k < 2 ^ 64 :=
  or_lt _ _ (and_lt_right _ _ (bnot_lt _ (h.piece_lt k)))
    (and_lt_right _ _ (bnot_lt _ (h.color_lt c)))

theorem getBishopMoves_lt (b : BitbArray) (h : b.WF) (c : enumColor) (k : enumType) :
    getBishopMoves b c k < 2 ^ 64 := by
  cases c
  · exact getBishopMovesOne_lt b h _ _
  · exact getBishopMovesOne_lt b h _ _
  · exact or_lt _ _ (getBishopMovesOne_lt b h _ _) (getBishopMovesOne_lt b h _ _)

theorem getRookMovesOne_lt (b : BitbArray) (h : b.WF) (c : enumColor) (k : enumType) :
    getRookMovesOne b c k < 2 ^ 64 :=
  or_lt _ _ (and_lt_right _ _ (bnot_lt _ (h.piece_lt k)))
    (and_lt_right _ _ (bnot_lt _ (h.color_lt c)))

theorem getRookMoves_lt (b : BitbArray) (h : b.WF) (c : enumColor) (k : enumType) :
    getRookMoves b c k < 2 ^ 64 := by
  cases c
  · exact getRookMovesOne_lt b h _ _
  · exact getRookMovesOne_lt b h _ _
  · exact or_lt _ _ (getRookMovesOne_lt b h _ _) (getRookMovesOne_lt b h _ _)

theorem getQueenMoves_lt (b : BitbArray) (h : b.WF) (c : enumColor) :
    getQueenMoves b c < 2 ^ 64 := by
  cases c
  · exact or_lt _ _ (getBishopMoves_lt b h _ _) (getRookMoves_lt b h _ _)
  · exact or_lt _ _ (getBishopMoves_lt b h _ _) (getRookMoves_lt b h _ _)
  · exact or_lt _ _ (or_lt _ _ (getBishopMoves_lt b h _ _) (getRookMoves_lt b h _ _))
      (or_lt _ _ (getBishopMoves_lt b h _ _) (getRookMoves_lt b h _ _))

/-- Every generator returns a 64-bit word. -/
theorem generatorOf_lt (k : enumType) (b : BitbArray) (h : b.WF) (c : enumColor) :
    generatorOf k b c < 2 ^ 64 := by
  cases k
  · exact getPawnMoves_lt b h c
  · exact getKnightMoves_lt b h c
  · exact getBishopMoves_lt b h c _
  · exact getRookMoves_lt b h c _
  · exact getQueenMoves_lt b h c
  · exact getKingMoves_lt b h c

theorem setPiece_WF (b : BitbArray) (h : b.WF) (k : enumType) (v : Nat) (hv : v < 2 ^ 64) :
    (b.setPiece k v).WF := by
  obtain ⟨h1, h2, h3, h4, h5, h6, h7, h8, h9⟩ := h
  cases k <;> exact ⟨h1, h2, h3, by assumption, by assumption, by assumption, by assumption,
    by assumption, by assumption⟩

theorem setPiece_sameColors (b : BitbArray) (k : enumType) (v : Nat) :
    SameColors b (b.setPiece k v) := by
  cases k <;> exact ⟨rfl, rfl, rfl⟩

theorem SameColors.trans {a b c : BitbArray} (h1 : SameColors a b) (h2 : SameColors b c) :
    SameColors a c :=
  ⟨h1.1.trans h2.1, h1.2.1.trans h2.2.1, h1.2.2.trans h2.2.2⟩

theorem SameColors.symm {a b : BitbArray} (h : SameColors a b) : SameColors b a :=
  ⟨h.1.symm, h.2.1.symm, h.2.2.symm⟩

theorem SameColors.color_eq {a b : BitbArray} (h : SameColors a b) (c : enumColor) :
    a.color c = b.color c := by
  cases c
  · exact h.1
  · exact h.2.1
  · exact h.2.2

/-- The generator of type `k` reads only the colour masks and the mask of type `k`. -/
theorem generatorOf_congr (k : enumType) (a b : BitbArray) (c : enumColor) (v : Nat)
    (h : SameColors a b) :
    generatorOf k (a.setPiece k v) c = generatorOf k (b.setPiece k v) c := by
  obtain ⟨h1, h2, h3⟩ := h
  cases k <;> cases c <;>
    simp only [generatorOf, getPawnMoves, getPawnMovesWhite, getPawnMovesBlack, getKnightMoves,
      getKnightMovesOne, getBishopMoves, getBishopMovesOne, getRookMoves, getRookMovesOne,
      getQueenMoves, getKingMoves, BitbArray.setPiece, BitbArray.piece, BitbArray.color,
      h1, h2, h3]

theorem originMoves_congr (k : enumType) (a b : BitbArray) (c : enumColor) (i : Nat)
    (h : SameColors a b) : originMoves a c k i = originMoves b c k i := by
  unfold originMoves
  rw [generatorOf_congr k a b c _ h]

theorem shl_one_lt (i : Nat) : shl 1 i < 2 ^ 64 := shl_lt 1 i

theorem ite_isEmpty_append (moves promotions : List String) :
    (if promotions.isEmpty = true then moves else moves ++ promotions) = moves ++ promotions := by
  cases promotions with
  | nil => simp
  | cons a l => simp

theorem pieceSwitch_pawn (board : BitbArray) (color : enumColor) (fromPos : Nat)
    (moves : List String) (hlt : getPawnMoves board color < 2 ^ 64) :
    pieceSwitch board color .nPawn fromPos moves =
      some (getPawnMoves board color ^^^ (getPawnMoves board color &&& rank8) ^^^
          (getPawnMoves board color &&& rank1),
        moves ++ (squaresOf (getPawnMoves board color &&& rank8) ++
          squaresOf (getPawnMoves board color &&& rank1)).flatMap (promotionsTo fromPos)) := by
  unfold pieceSwitch
  simp only
  rw [getPawnPromotions_eq _ _ hlt]
  simp only
  rw [ite_isEmpty_append]


theorem pieceSwitch_other (board : BitbArray) (color : enumColor) (k : enumType) (fromPos : Nat)
    (moves : List String) (hk : k ≠ .nPawn) :
    pieceSwitch board color k fromPos moves = some (generatorOf k board color, moves) := by
  cases k
  · exact (hk rfl).elim
  all_goals rfl

theorem originMoves_pawn (board : BitbArray) (color : enumColor) (i : Nat) :
    originMoves board color .nPawn i =
      (squaresOf (getPawnMoves (board.setPiece .nPawn (shl 1 i)) color &&& rank8) ++
        squaresOf (getPawnMoves (board.setPiece .nPawn (shl 1 i)) color &&& rank1)).flatMap
          (promotionsTo (shl 1 i)) ++
      plainMoves i (getPawnMoves (board.setPiece .nPawn (shl 1 i)) color ^^^
        (getPawnMoves (board.setPiece .nPawn (shl 1 i)) color &&& rank8) ^^^
        (getPawnMoves (board.setPiece .nPawn (shl 1 i)) color &&& rank1)) := rfl

theorem originMoves_other (board : BitbArray) (color : enumColor) (k : enumType) (i : Nat)
    (hk : k ≠ .nPawn) :
    originMoves board color k i = plainMoves i (generatorOf k (board.setPiece k (shl 1 i)) color) := by
  cases k
  · exact (hk rfl).elim
  all_goals rfl


theorem pieceBody_unfold (color : enumColor) (k : enumType) (i : Nat) (copy : BitbArray)
    (moves : List String) :
    pieceBody color k i (copy, moves) =
      match pieceSwitch (copy.setPiece k (0 ||| shl 1 i)) color k (shl 1 i) moves with
      | none => none
      | some (pieceMoves, moves) =>
        match destLoop (shl 1 i) 64 pieceMoves moves with
        | none => none
        | some moves => some (copy.setPiece k (0 ||| shl 1 i), moves) := rfl

/-- One pass of the origin loop on a well-formed scratch copy: the copy gets the
single origin bit in its mask of type `k`, the move list grows by the moves of that
origin. -/
theorem pieceBody_eq (color : enumColor) (k : enumType) (i : Nat) (copy : BitbArray)
    (hwf : copy.WF) (moves : List String) :
    pieceBody color k i (copy, moves) =
      some (copy.setPiece k (shl 1 i), moves ++ originMoves copy color k i) := by
  have hb : (copy.setPiece k (shl 1 i)).WF := setPiece_WF copy hwf k _ (shl_one_lt i)
  have hlt := generatorOf_lt k _ hb color
  rw [pieceBody_unfold, Nat.zero_or]
  by_cases hk : k = .nPawn
  · subst hk
    have hlt' : getPawnMoves (copy.setPiece .nPawn (shl 1 i)) color < 2 ^ 64 := hlt
    have hlt2 : getPawnMoves (copy.setPiece .nPawn (shl 1 i)) color ^^^
        (getPawnMoves (copy.setPiece .nPawn (shl 1 i)) color &&& rank8) ^^^
        (getPawnMoves (copy.setPiece .nPawn (shl 1 i)) color &&& rank1) < 2 ^ 64 :=
      Nat.xor_lt_two_pow (Nat.xor_lt_two_pow hlt' (and_lt_left _ _ hlt')) (and_lt_left _ _ hlt')
    rw [pieceSwitch_pawn _ _ _ _ hlt']
    simp only
    rw [destLoop_eq _ _ _ hlt2, originMoves_pawn, List.append_assoc]
    rfl
  · rw [pieceSwitch_other _ _ _ _ _ hk]
    simp only
    rw [destLoop_eq _ _ _ hlt, originMoves_other _ _ _ _ hk]
    rfl

theorem runBody_pieceBody (color : enumColor) (k : enumType) (l : List Nat) :
    ∀ (copy : BitbArray) (moves : List String), copy.WF →
      ∃ copy', runBody (pieceBody color k) l (copy, moves) =
          some (copy', moves ++ l.flatMap (originMoves copy color k)) ∧
        copy'.WF ∧ SameColors copy copy' := by
  induction l with
  | nil =>
    intro copy moves hwf
    exact ⟨copy, by simp [runBody], hwf, ⟨rfl, rfl, rfl⟩⟩
  | cons i is ih =>
    intro copy moves hwf
    have hwf' := setPiece_WF copy hwf k _ (shl_one_lt i)
    obtain ⟨copy', h1, h2, h3⟩ := ih (copy.setPiece k (shl 1 i))
      (moves ++ originMoves copy color k i) hwf'
    refine ⟨copy', ?_, h2, (setPiece_sameColors copy k _).trans h3⟩
    have e : is.flatMap (originMoves (copy.setPiece k (shl 1 i)) color k) =
        is.flatMap (originMoves copy color k) := by
      apply List.flatMap_congr
      intro j _
      exact originMoves_congr k _ _ color j (setPiece_sameColors copy k _).symm
    rw [e] at h1
    simp only [runBody]
    rw [pieceBody_eq color k i copy hwf moves]
    simp only
    rw [h1, List.flatMap_cons, List.append_assoc]


theorem typeLoop_cons (b : BitbArray) (color : enumColor) (k : enumType) (ks : List enumType)
    (copy : BitbArray) (moves : List String) :
    typeLoop b color (k :: ks) copy moves =
      match pieceLoop color k 64 (b.piece k &&& b.color color) copy moves with
      | none => none
      | some (bitboardCopy, moves) => typeLoop b color ks bitboardCopy moves := rfl

theorem typeLoop_eq (b : BitbArray) (hb : b.WF) (color : enumColor) (ks : List enumType) :
    ∀ (copy : BitbArray) (moves : List String), copy.WF → SameColors b copy →
      ∃ copy', typeLoop b color ks copy moves =
        some (copy', moves ++ ks.flatMap (typeMoves b color)) := by
  induction ks with
  | nil =>
    intro copy moves _ _
    exact ⟨copy, by simp [typeLoop]⟩
  | cons k ks ih =>
    intro copy moves hwf hsame
    have hu : b.piece k &&& b.color color < 2 ^ 64 := and_lt_left _ _ (hb.piece_lt k)
    obtain ⟨copy', h1, h2, h3⟩ :=
      runBody_pieceBody color k (squaresOf (b.piece k &&& b.color color)) copy moves hwf
    have e : (squaresOf (b.piece k &&& b.color color)).flatMap (originMoves copy color k) =
        typeMoves b color k := by
      unfold typeMoves
      apply List.flatMap_congr
      intro j _
      exact originMoves_congr k _ _ color j hsame.symm
    rw [e] at h1
    obtain ⟨copy'', h4⟩ := ih copy' (moves ++ typeMoves b color k) h2 (hsame.trans h3)
    refine ⟨copy'', ?_⟩
    rw [typeLoop_cons, pieceLoop_eq_bitIter, bitIter_eq _ _ _ _ hu, h1]
    simp only
    rw [h4, List.flatMap_cons, List.append_assoc]

theorem getPseudoLegalMovesOne_unfold (b : BitbArray) (color : enumColor) :
    getPseudoLegalMovesOne b color =
      match typeLoop b color pieceTypes b [] with
      | none => none
      | some (_, moves) => some moves := rfl

/-- On a well-formed bitboard set the move generation of one colour returns, and
returns the move list in closed form. -/
theorem getPseudoLegalMovesOne_eq (b : BitbArray) (hb : b.WF) (color : enumColor) :
    getPseudoLegalMovesOne b color = some (moveList b color) := by
  obtain ⟨copy', h⟩ := typeLoop_eq b hb color pieceTypes b [] hb ⟨rfl, rfl, rfl⟩
  rewrite [getPseudoLegalMovesOne_unfold, h]
  show some ([] ++ pieceTypes.flatMap (typeMoves b color)) = some (moveList b color)
  rewrite [List.nil_append]
  unfold moveList
  exact Eq.refl _

theorem getPseudoLegalMoves_white (b : BitbArray) (hb : b.WF) :
    getPseudoLegalMoves b .nWhite = some (moveList b .nWhite) :=
  getPseudoLegalMovesOne_eq b hb _

theorem getPseudoLegalMoves_black (b : BitbArray) (hb : b.WF) :
    getPseudoLegalMoves b .nBlack = some (moveList b .nBlack) :=
  getPseudoLegalMovesOne_eq b hb _

theorem getPseudoLegalMoves_unfold (b : BitbArray) :
    getPseudoLegalMoves b .nColor =
      match getPseudoLegalMovesOne b .nWhite with
      | none => none
      | some white =>
        match getPseudoLegalMovesOne b .nBlack with
        | none => none
        | some black => some (white ++ black) := rfl

theorem getPseudoLegalMoves_both (b : BitbArray) (hb : b.WF) :
    getPseudoLegalMoves b .nColor = some (moveList b .nWhite ++ moveList b .nBlack) := by
  rewrite [getPseudoLegalMoves_unfold, getPseudoLegalMovesOne_eq b hb,
    getPseudoLegalMovesOne_eq b hb]
  exact Eq.refl _

/-! ## C6: both colours -/

/-- C6: on every bitboard set of 64-bit masks the move generation returns for White,
for Black and for the combined colour, and the combined list is White's list followed
by Black's list. -/
theorem C6_both_colors_is_concatenation (b : BitbArray) (hb : b.WF) :
    ∃ white black, getPseudoLegalMoves b .nWhite = some white ∧
      getPseudoLegalMoves b .nBlack = some black ∧
      getPseudoLegalMoves b .nColor = some (white ++ black) :=
  ⟨moveList b .nWhite, moveList b .nBlack, getPseudoLegalMoves_white b hb,
    getPseudoLegalMoves_black b hb, getPseudoLegalMoves_both b hb⟩

/-- Witness for C6 at the standard starting position. -/
theorem C6_both_colors_is_concatenation_witness :
    Bitboard.standard.WF ∧
    ∃ white black, getPseudoLegalMoves Bitboard.standard .nWhite = some white ∧
      getPseudoLegalMoves Bitboard.standard .nBlack = some black ∧
      getPseudoLegalMoves Bitboard.standard .nColor = some (white ++ black) :=
  ⟨by decide, C6_both_colors_is_concatenation Bitboard.standard (by decide)⟩

/-! ## C7: promotion of a lone pawn -/

/-- C7: for every file, with a single white pawn on the seventh rank of that file,
the move list for White is exactly the four promotions to the eighth-rank square of
the file, in the order n, b, r, q; the move without a promotion letter is not in the
list.  On the a-file and the h-file the lists are spelled out. -/
theorem C7_lone_pawn_promotes :
    (∀ x : Fin 8, getPseudoLegalMoves (lonePawnOnSeventh x.val) .nWhite =
      some [sqName (48 + x.val) ++ sqName (56 + x.val) ++ "n",
            sqName (48 + x.val) ++ sqName (56 + x.val) ++ "b",
            sqName (48 + x.val) ++ sqName (56 + x.val) ++ "r",
            sqName (48 + x.val) ++ sqName (56 + x.val) ++ "q"]) ∧
    (∀ x : Fin 8, ∀ moves, getPseudoLegalMoves (lonePawnOnSeventh x.val) .nWhite = some moves →
      sqName (48 + x.val) ++ sqName (56 + x.val) ∉ moves) ∧
    getPseudoLegalMoves (lonePawnOnSeventh 0) .nWhite =
      some ["a7a8n", "a7a8b", "a7a8r", "a7a8q"] ∧
    getPseudoLegalMoves (lonePawnOnSeventh 7) .nWhite =
      some ["h7h8n", "h7h8b", "h7h8r", "h7h8q"] := by
  have h : ∀ x : Fin 8, getPseudoLegalMoves (lonePawnOnSeventh x.val) .nWhite =
      some [sqName (48 + x.val) ++ sqName (56 + x.val) ++ "n",
            sqName (48 + x.val) ++ sqName (56 + x.val) ++ "b",
            sqName (48 + x.val) ++ sqName (56 + x.val) ++ "r",
            sqName (48 + x.val) ++ sqName (56 + x.val) ++ "q"] := by decide
  refine ⟨h, ?_, by decide, by decide⟩
  intro x moves hm
  rw [h x] at hm
  injection hm with hm
  subst hm
  revert x
  decide

/-! ## Rounding to double precision -/

theorem bitLength_spec (fuel a : Nat) (ha : a < 2 ^ fuel) :
    a < 2 ^ bitLength fuel a ∧ (a ≠ 0 → 2 ^ (bitLength fuel a - 1) ≤ a) := by
  induction fuel generalizing a with
  | zero =>
    simp at ha
    subst ha
    simp [bitLength]
  | succ fuel ih =>
    unfold bitLength
    by_cases h0 : a = 0
    · subst h0; simp
    · rw [if_neg h0]
      have hlt : a / 2 < 2 ^ fuel := by rw [Nat.pow_succ] at ha; omega
      obtain ⟨h1, h2⟩ := ih (a / 2) hlt
      constructor
      · rw [Nat.add_comm, Nat.pow_succ]; omega
      · intro _
        rw [Nat.add_sub_cancel_left]
        by_cases h3 : a / 2 = 0
        · have : a = 1 := by omega
          subst this
          simp [bitLength]
          cases fuel <;> simp [bitLength]
        · have h4 := h2 h3
          have h5 : bitLength fuel (a / 2) ≠ 0 := by
            intro h6
            rw [h6] at h1
            simp at h1
            exact h3 h1
          have h6 : 2 ^ bitLength fuel (a / 2) = 2 * 2 ^ (bitLength fuel (a / 2) - 1) := by
            rw [← Nat.pow_succ']
            congr 1
            omega
          omega


/-- The two candidates of `round53`: with `P` the weight of the last kept bit and `r`
the discarded part, the result is `a - r` or `a - r + P`, whichever is nearer. -/
theorem round53_spec (a : Nat) :
    ∃ P r, P = 2 ^ (bitLength 128 a - 53) ∧ r = a % P ∧ r < P ∧ r ≤ a ∧
      ((2 * r < P ∧ round53 a = a - r) ∨
       (2 * r = P ∧ (round53 a = a - r ∨ round53 a = a - r + P)) ∨
       (P < 2 * r ∧ round53 a = a - r + P)) := by
  have hP : 0 < 2 ^ (bitLength 128 a - 53) := Nat.pow_pos (by decide)
  refine ⟨2 ^ (bitLength 128 a - 53), a % 2 ^ (bitLength 128 a - 53), rfl, rfl,
    Nat.mod_lt _ hP, Nat.mod_le _ _, ?_⟩
  have hq : (a >>> (bitLength 128 a - 53)) <<< (bitLength 128 a - 53) =
      a - a % 2 ^ (bitLength 128 a - 53) := by
    rw [Nat.shiftLeft_eq, Nat.shiftRight_eq_div_pow]
    have := Nat.div_add_mod a (2 ^ (bitLength 128 a - 53))
    rw [Nat.mul_comm] at this
    omega
  have hq1 : (a >>> (bitLength 128 a - 53) + 1) <<< (bitLength 128 a - 53) =
      a - a % 2 ^ (bitLength 128 a - 53) + 2 ^ (bitLength 128 a - 53) := by
    rw [Nat.shiftLeft_eq, Nat.add_mul, Nat.one_mul, ← Nat.shiftLeft_eq, hq]
  unfold round53
  simp only
  by_cases h1 : 2 * (a % 2 ^ (bitLength 128 a - 53)) < 2 ^ (bitLength 128 a - 53)
  · left
    rw [if_pos h1]
    exact ⟨h1, hq⟩
  · rw [if_neg h1]
    by_cases h2 : 2 * (a % 2 ^ (bitLength 128 a - 53)) = 2 ^ (bitLength 128 a - 53)
    · right; left
      rw [if_pos h2]
      refine ⟨h2, ?_⟩
      by_cases h3 : a >>> (bitLength 128 a - 53) % 2 = 0
      · rw [if_pos h3]; exact Or.inl hq
      · rw [if_neg h3]; exact Or.inr hq1
    · right; right
      rw [if_neg h2]
      exact ⟨by omega, hq1⟩

/-- Size of the last kept bit for magnitudes below `2 ^ 76`. -/
theorem round53_weight (a : Nat) (ha : a < 2 ^ 76) :
    2 ^ (bitLength 128 a - 53) ≤ 2 ^ 23 ∧ 2 ^ (bitLength 128 a - 53) ∣ 2 ^ 55 ∧
      a < 2 ^ (bitLength 128 a - 53) * 2 ^ 53 := by
  have ha' : a < 2 ^ 128 := lt_of_lt_of_le ha (Nat.pow_le_pow_right (by decide) (by decide))
  obtain ⟨h1, h2⟩ := bitLength_spec 128 a ha'
  have hL : bitLength 128 a ≤ 76 := by
    by_cases h0 : a = 0
    · subst h0; simp [bitLength]
    · have h3 := h2 h0
      have h4 : 2 ^ (bitLength 128 a - 1) < 2 ^ 76 := lt_of_le_of_lt h3 ha
      have h5 := (Nat.pow_lt_pow_iff_right (by decide : 1 < 2)).1 h4
      omega
  refine ⟨Nat.pow_le_pow_right (by decide) (by omega), Nat.pow_dvd_pow 2 (by omega), ?_⟩
  rw [← Nat.pow_add]
  exact lt_of_lt_of_le h1 (Nat.pow_le_pow_right (by decide) (by omega))

theorem round53_close (a : Nat) (ha : a < 2 ^ 76) :
    a ≤ round53 a + 2 ^ 22 ∧ round53 a ≤ a + 2 ^ 22 := by
  obtain ⟨P, r, hP, -, hr, hra, hcase⟩ := round53_spec a
  have hw := (round53_weight a ha).1
  rw [← hP] at hw
  have e23 : (2 : Nat) ^ 23 = 8388608 := by decide
  have e22 : (2 : Nat) ^ 22 = 4194304 := by decide
  rw [e23] at hw
  rw [e22]
  rcases hcase with ⟨h1, h2⟩ | ⟨h1, h2 | h2⟩ | ⟨h1, h2⟩ <;> rw [h2] <;> omega

theorem round53_exact (a : Nat) (ha : a < 2 ^ 76) (hd : 2 ^ 55 ∣ a) : round53 a = a := by
  obtain ⟨P, r, hP, hr, -, -, hcase⟩ := round53_spec a
  have hw := (round53_weight a ha).2.1
  rw [← hP] at hw
  have hr0 : r = 0 := by
    rw [hr]
    exact Nat.mod_eq_zero_of_dvd (Nat.dvd_trans hw hd)
  have hPpos : 0 < P := by rw [hP]; exact Nat.pow_pos (by decide)
  subst hr0
  rcases hcase with ⟨h1, h2⟩ | ⟨h1, h2 | h2⟩ | ⟨h1, h2⟩
  · rw [h2]; rfl
  · omega
  · omega
  · omega

/-- Ten times the numerator of the double `0.1` is `2 ^ 55 + 2`: the product of `0.1`
with a multiple of ten rounds to the exact integer. -/
theorem round53_mul10 (q : Nat) (hq : q < 2 ^ 17) :
    round53 (3602879701896397 * (10 * q)) = q * 2 ^ 55 := by
  have e55 : (2 : Nat) ^ 55 = 36028797018963968 := by decide
  have e53 : (2 : Nat) ^ 53 = 9007199254740992 := by decide
  have e17 : (2 : Nat) ^ 17 = 131072 := by decide
  have e76 : (2 : Nat) ^ 76 = 75557863725914323419136 := by decide
  have ha : 3602879701896397 * (10 * q) < 2 ^ 76 := by rw [e76]; omega
  obtain ⟨P, r, hP, hr, -, -, hcase⟩ := round53_spec (3602879701896397 * (10 * q))
  obtain ⟨-, hdvd, hlt⟩ := round53_weight _ ha
  rw [← hP] at hdvd hlt
  rw [e53] at hlt
  obtain ⟨c, hc⟩ := hdvd
  have hsplit : 3602879701896397 * (10 * q) = P * (c * q) + 2 * q := by
    have : P * (c * q) = 2 ^ 55 * q := by rw [← Nat.mul_assoc, ← hc]
    rw [this, e55]; omega
  have hr2 : r = 2 * q := by
    rw [hr, hsplit, Nat.mul_add_mod]
    apply Nat.mod_eq_of_lt
    omega
  rw [e55]
  rcases hcase with ⟨h1, h2⟩ | ⟨h1, h2 | h2⟩ | ⟨h1, h2⟩ <;> rw [h2] <;> omega

theorem roundDouble_close (z : Int) (h1 : -2 ^ 76 < z) (h2 : z < 2 ^ 76) :
    z - 2 ^ 22 ≤ roundDouble z ∧ roundDouble z ≤ z + 2 ^ 22 := by
  have e76 : (2 : Nat) ^ 76 = 75557863725914323419136 := by decide
  have e22 : (2 : Nat) ^ 22 = 4194304 := by decide
  have i76 : (2 : Int) ^ 76 = 75557863725914323419136 := by decide
  have i22 : (2 : Int) ^ 22 = 4194304 := by decide
  rw [i76] at h1 h2
  rw [i22]
  unfold roundDouble
  by_cases hz : 0 ≤ z
  · rw [if_pos hz]
    have := round53_close z.toNat (by rw [e76]; omega)
    rw [e22] at this
    omega
  · rw [if_neg hz]
    have := round53_close (-z).toNat (by rw [e76]; omega)
    rw [e22] at this
    omega

theorem roundDouble_exact (w : Int) (h1 : -2 ^ 21 < w) (h2 : w < 2 ^ 21) :
    roundDouble (w * 2 ^ 55) = w * 2 ^ 55 := by
  have e76 : (2 : Nat) ^ 76 = 75557863725914323419136 := by decide
  have e55 : (2 : Nat) ^ 55 = 36028797018963968 := by decide
  have i55 : (2 : Int) ^ 55 = 36028797018963968 := by decide
  have i21 : (2 : Int) ^ 21 = 2097152 := by decide
  rw [i21] at h1 h2
  rw [i55]
  unfold roundDouble
  by_cases hz : 0 ≤ w * 36028797018963968
  · rw [if_pos hz]
    have hn : (w * 36028797018963968).toNat = w.toNat * 2 ^ 55 := by rw [e55]; omega
    rw [hn, round53_exact _ (by rw [e76, e55]; omega) (Nat.dvd_mul_left _ _), e55]
    omega
  · rw [if_neg hz]
    have hn : (-(w * 36028797018963968)).toNat = (-w).toNat * 2 ^ 55 := by rw [e55]; omega
    rw [hn, round53_exact _ (by rw [e76, e55]; omega) (Nat.dvd_mul_left _ _), e55]
    omega

theorem roundDouble_mul10 (q : Int) (h1 : -2 ^ 17 < q) (h2 : q < 2 ^ 17) :
    roundDouble (pointOne * (10 * q)) = q * 2 ^ 55 := by
  have e17 : (2 : Nat) ^ 17 = 131072 := by decide
  have e55 : (2 : Nat) ^ 55 = 36028797018963968 := by decide
  have i55 : (2 : Int) ^ 55 = 36028797018963968 := by decide
  have i17 : (2 : Int) ^ 17 = 131072 := by decide
  rw [i17] at h1 h2
  rw [i55]
  unfold roundDouble pointOne
  by_cases hz : 0 ≤ (3602879701896397 : Int) * (10 * q)
  · rw [if_pos hz]
    have hn : ((3602879701896397 : Int) * (10 * q)).toNat =
        3602879701896397 * (10 * q.toNat) := by omega
    rw [hn, round53_mul10 _ (by rw [e17]; omega), e55]
    omega
  · rw [if_neg hz]
    have hn : (-((3602879701896397 : Int) * (10 * q))).toNat =
        3602879701896397 * (10 * (-q).toNat) := by omega
    rw [hn, round53_mul10 _ (by rw [e17]; omega), e55]
    omega

theorem tdiv_of_nonneg (a K : Int) (ha : 0 ≤ a) (hK : 0 ≤ K) : Int.tdiv a K = a / K :=
  Int.tdiv_eq_ediv ha hK

theorem tdiv_of_neg (a K : Int) (ha : a < 0) (hK : 0 ≤ K) : Int.tdiv a K = -((-a) / K) := by
  have h := Int.neg_tdiv (-a) K
  rw [Int.neg_neg] at h
  rw [h, Int.tdiv_eq_ediv (by omega) hK]

/-- The floating-point update `score += 0.1 * d` followed by the conversion to `int`
yields the truncation toward zero of the exact rational `score + d / 10`, for scores
and move-count differences of magnitude below `2 ^ 20`. -/
theorem addMobility_eq (s d : Int) (hs1 : -2 ^ 20 < s) (hs2 : s < 2 ^ 20)
    (hd1 : -2 ^ 20 < d) (hd2 : d < 2 ^ 20) :
    addMobility s d = Int.tdiv (10 * s + d) 10 := by
  have i55 : (2 : Int) ^ 55 = 36028797018963968 := by decide
  have i20 : (2 : Int) ^ 20 = 1048576 := by decide
  have i76 : (2 : Int) ^ 76 = 75557863725914323419136 := by decide
  have i22 : (2 : Int) ^ 22 = 4194304 := by decide
  have i21 : (2 : Int) ^ 21 = 2097152 := by decide
  have i17 : (2 : Int) ^ 17 = 131072 := by decide
  rw [i20] at hs1 hs2 hd1 hd2
  unfold addMobility
  simp only
  by_cases hr : d % 10 = 0
  · have hd : d = 10 * (d / 10) := by omega
    have hp := roundDouble_mul10 (d / 10) (by rw [i17]; omega) (by rw [i17]; omega)
    rw [← hd] at hp
    rw [hp, ← Int.add_mul, roundDouble_exact _ (by rw [i21]; omega) (by rw [i21]; omega),
      Int.mul_tdiv_cancel _ (by decide)]
    by_cases hn : 0 ≤ 10 * s + d
    · rw [tdiv_of_nonneg (10 * s + d) 10 hn (by decide)]; omega
    · rw [tdiv_of_neg (10 * s + d) 10 (by omega) (by decide)]; omega
  · unfold pointOne
    have hp := roundDouble_close (3602879701896397 * d) (by rw [i76]; omega) (by rw [i76]; omega)
    rw [i22] at hp
    have hsum := roundDouble_close (s * 2 ^ 55 + roundDouble (3602879701896397 * d))
      (by rw [i76, i55]; omega) (by rw [i76, i55]; omega)
    rw [i22, i55] at hsum
    rw [i55]
    generalize roundDouble (3602879701896397 * d) = p at hp hsum ⊢
    generalize roundDouble (s * 36028797018963968 + p) = t at hsum ⊢
    have hq : d = 10 * (d / 10) + d % 10 := by omega
    have hr1 : 1 ≤ d % 10 := by omega
    have hr9 : d % 10 ≤ 9 := by omega
    generalize d / 10 = q at hq hr1 hr9
    generalize d % 10 = r at hq hr1 hr9
    subst hq
    have key1 : (s + q) * 36028797018963968 < t := by omega
    have key2 : t < (s + q + 1) * 36028797018963968 := by omega
    by_cases hn : 0 ≤ 10 * s + (10 * q + r)
    · have ht : 0 ≤ t := by omega
      rw [tdiv_of_nonneg (10 * s + (10 * q + r)) 10 hn (by decide),
        tdiv_of_nonneg t 36028797018963968 ht (by decide)]
      omega
    · have ht : t < 0 := by omega
      rw [tdiv_of_neg (10 * s + (10 * q + r)) 10 (by omega) (by decide),
        tdiv_of_neg t 36028797018963968 ht (by decide)]
      omega

/-! ## Evaluation -/

theorem evaluateBoard_unfold (b : BitbArray) (color : enumColor) :
    evaluateBoard b color =
      match getPseudoLegalMoves b color with
      | none => none
      | some ownMoves =>
        match getPseudoLegalMoves b (if color = .nWhite then enumColor.nBlack else enumColor.nWhite) with
        | none => none
        | some enemyMoves =>
          some (addMobility (materialScore b color)
            ((ownMoves.length : Int) - (enemyMoves.length : Int))) := rfl

theorem evaluateBoard_white (b : BitbArray) (hb : b.WF) :
    evaluateBoard b .nWhite = some (addMobility (materialScore b .nWhite)
      (((moveList b .nWhite).length : Int) - ((moveList b .nBlack).length : Int))) := by
  rewrite [evaluateBoard_unfold, getPseudoLegalMoves_white b hb]
  show (match getPseudoLegalMoves b .nBlack with
    | none => none
    | some enemyMoves => some (addMobility (materialScore b .nWhite)
        (((moveList b .nWhite).length : Int) - (enemyMoves.length : Int)))) = _
  rewrite [getPseudoLegalMoves_black b hb]
  exact Eq.refl _

theorem evaluateBoard_black (b : BitbArray) (hb : b.WF) :
    evaluateBoard b .nBlack = some (addMobility (materialScore b .nBlack)
      (((moveList b .nBlack).length : Int) - ((moveList b .nWhite).length : Int))) := by
  rewrite [evaluateBoard_unfold, getPseudoLegalMoves_black b hb]
  show (match getPseudoLegalMoves b .nWhite with
    | none => none
    | some enemyMoves => some (addMobility (materialScore b .nBlack)
        (((moveList b .nBlack).length : Int) - (enemyMoves.length : Int)))) = _
  rewrite [getPseudoLegalMoves_white b hb]
  exact Eq.refl _

/-! ## C9: evaluation symmetry -/

theorem round53_zero : round53 0 = 0 := by decide

theorem roundDouble_neg (z : Int) : roundDouble (-z) = -roundDouble z := by
  unfold roundDouble
  rcases Int.lt_trichotomy z 0 with h | h | h
  · rw [if_pos (by omega : (0 : Int) ≤ -z), if_neg (by omega : ¬ (0 : Int) ≤ z)]
    simp
  · subst h
    simp [round53_zero]
  · rw [if_neg (by omega : ¬ (0 : Int) ≤ -z), if_pos (by omega : (0 : Int) ≤ z)]
    simp

/-- The mobility update is an odd function of the score and the move-count difference. -/
theorem addMobility_neg (s d : Int) : addMobility (-s) (-d) = -addMobility s d := by
  unfold addMobility
  simp only
  rw [Int.mul_neg, roundDouble_neg, Int.neg_mul, ← Int.neg_add, roundDouble_neg, Int.neg_tdiv]

/-- A piece-type mask inside the union of two disjoint colour masks splits into its
white and its black part. -/
theorem popcount_split (x w bl : Nat) (hsub : x &&& (w ||| bl) = x) (hdisj : w &&& bl = 0) :
    popcount x = popcount (x &&& w) + popcount (x &&& bl) := by
  have h : popcount x = popcount ((x &&& w) ||| (x &&& bl)) := by
    rw [← Nat.and_or_distrib_left, hsub]
  rw [h]
  apply popcount_or
  intro t h1 h2
  rw [Nat.testBit_and, Bool.and_eq_true] at h1 h2
  have := congrArg (fun v => v.testBit t) hdisj
  simp [Nat.testBit_and, h1.2, h2.2] at this

theorem materialScore_white (b : BitbArray) (hsub : PiecesInColors b)
    (hdisj : b.white &&& b.black = 0) :
    materialScore b .nWhite =
      200 * ((popcount (b.king &&& b.white) : Int) - popcount (b.king &&& b.black)) +
      9 * ((popcount (b.queen &&& b.white) : Int) - popcount (b.queen &&& b.black)) +
      5 * ((popcount (b.rook &&& b.white) : Int) - popcount (b.rook &&& b.black)) +
      3 * ((popcount (b.knight &&& b.white) : Int) - popcount (b.knight &&& b.black) +
        popcount (b.bishop &&& b.white) - popcount (b.bishop &&& b.black)) +
      ((popcount (b.pawn &&& b.white) : Int) - popcount (b.pawn &&& b.black)) := by
  have hk := popcount_split _ _ _ (hsub .nKing) hdisj
  have hq := popcount_split _ _ _ (hsub .nQueen) hdisj
  have hr := popcount_split _ _ _ (hsub .nRook) hdisj
  have hn := popcount_split _ _ _ (hsub .nKnight) hdisj
  have hbi := popcount_split _ _ _ (hsub .nBishop) hdisj
  have hp := popcount_split _ _ _ (hsub .nPawn) hdisj
  simp only [BitbArray.piece] at hk hq hr hn hbi hp
  simp only [materialScore, BitbArray.piece, BitbArray.color]
  omega

theorem materialScore_black (b : BitbArray) (hsub : PiecesInColors b)
    (hdisj : b.white &&& b.black = 0) :
    materialScore b .nBlack =
      200 * ((popcount (b.king &&& b.black) : Int) - popcount (b.king &&& b.white)) +
      9 * ((popcount (b.queen &&& b.black) : Int) - popcount (b.queen &&& b.white)) +
      5 * ((popcount (b.rook &&& b.black) : Int) - popcount (b.rook &&& b.white)) +
      3 * ((popcount (b.knight &&& b.black) : Int) - popcount (b.knight &&& b.white) +
        popcount (b.bishop &&& b.black) - popcount (b.bishop &&& b.white)) +
      ((popcount (b.pawn &&& b.black) : Int) - popcount (b.pawn &&& b.white)) := by
  have hk := popcount_split _ _ _ (hsub .nKing) hdisj
  have hq := popcount_split _ _ _ (hsub .nQueen) hdisj
  have hr := popcount_split _ _ _ (hsub .nRook) hdisj
  have hn := popcount_split _ _ _ (hsub .nKnight) hdisj
  have hbi := popcount_split _ _ _ (hsub .nBishop) hdisj
  have hp := popcount_split _ _ _ (hsub .nPawn) hdisj
  simp only [BitbArray.piece] at hk hq hr hn hbi hp
  simp only [materialScore, BitbArray.piece, BitbArray.color]
  omega

/-- C9: on a bitboard set with disjoint colour masks whose union is the union mask and
contains every piece-type mask, the evaluation returns for both colours and the score
for White is the negative of the score for Black; on the standard starting position
both scores are 0. -/
theorem C9_evaluation_antisymmetric :
    (∀ b : BitbArray, b.WF → b.white &&& b.black = 0 → b.all = b.white ||| b.black →
      (∀ k, b.piece k &&& (b.white ||| b.black) = b.piece k) →
      ∃ v : Int, evaluateBoard b .nWhite = some v ∧ evaluateBoard b .nBlack = some (-v)) ∧
    evaluateBoard Bitboard.standard .nWhite = some 0 ∧
    evaluateBoard Bitboard.standard .nBlack = some 0 := by
  refine ⟨?_, by decide, by decide⟩
  intro b hb hdisj _ hsub
  refine ⟨_, evaluateBoard_white b hb, ?_⟩
  rw [evaluateBoard_black b hb, ← addMobility_neg]
  congr 2
  · rw [materialScore_white b hsub hdisj, materialScore_black b hsub hdisj]
    omega
  · omega

/-- Witness for C9 at the standard starting position. -/
theorem C9_evaluation_antisymmetric_witness :
    Bitboard.standard.WF ∧ Bitboard.standard.white &&& Bitboard.standard.black = 0 ∧
    Bitboard.standard.all = Bitboard.standard.white ||| Bitboard.standard.black ∧
    (∀ k, Bitboard.standard.piece k &&& (Bitboard.standard.white ||| Bitboard.standard.black) =
      Bitboard.standard.piece k) ∧
    ∃ v : Int, evaluateBoard Bitboard.standard .nWhite = some v ∧
      evaluateBoard Bitboard.standard .nBlack = some (-v) :=
  ⟨by decide, by decide, by decide, by intro k; cases k <;> decide,
    C9_evaluation_antisymmetric.1 Bitboard.standard (by decide) (by decide) (by decide)
      (by intro k; cases k <;> decide)⟩

/-! ## C10: the evaluation formula -/

theorem squaresOf_length_le (x : Nat) : (squaresOf x).length ≤ 64 := by
  unfold squaresOf
  have := List.length_filter_le (fun i => x.testBit i) (List.range 64)
  rw [List.length_range] at this
  exact this

theorem popcount_le (x : Nat) : popcount x ≤ 64 := squaresOf_length_le x

theorem length_flatMap_le {α β : Type} (l : List α) (f : α → List β) (B : Nat)
    (h : ∀ x, x ∈ l → (f x).length ≤ B) : (l.flatMap f).length ≤ l.length * B := by
  induction l with
  | nil => simp
  | cons a l ih =>
    rw [List.flatMap_cons, List.length_append, List.length_cons, Nat.succ_mul]
    have h1 := h a (List.mem_cons_self a l)
    have h2 := ih (fun x hx => h x (List.mem_cons_of_mem a hx))
    omega

theorem plainMoves_length_le (i mask : Nat) : (plainMoves i mask).length ≤ 64 := by
  unfold plainMoves
  have h1 := length_flatMap_le (squaresOf mask) (fun j => [moveName (shl 1 i) (shl 1 j)]) 1
    (fun x _ => by simp)
  have h2 := squaresOf_length_le mask
  omega

theorem originMoves_length_le (b : BitbArray) (c : enumColor) (k : enumType) (i : Nat) :
    (originMoves b c k i).length ≤ 576 := by
  by_cases hk : k = .nPawn
  · subst hk
    rw [originMoves_pawn, List.length_append]
    have h1 := length_flatMap_le
      (squaresOf (getPawnMoves (b.setPiece .nPawn (shl 1 i)) c &&& rank8) ++
        squaresOf (getPawnMoves (b.setPiece .nPawn (shl 1 i)) c &&& rank1))
      (promotionsTo (shl 1 i)) 4 (fun x _ => by simp [promotionsTo])
    rw [List.length_append] at h1
    have h2 := squaresOf_length_le (getPawnMoves (b.setPiece .nPawn (shl 1 i)) c &&& rank8)
    have h3 := squaresOf_length_le (getPawnMoves (b.setPiece .nPawn (shl 1 i)) c &&& rank1)
    have h4 := plainMoves_length_le i (getPawnMoves (b.setPiece .nPawn (shl 1 i)) c ^^^
      (getPawnMoves (b.setPiece .nPawn (shl 1 i)) c &&& rank8) ^^^
      (getPawnMoves (b.setPiece .nPawn (shl 1 i)) c &&& rank1))
    omega
  · rw [originMoves_other _ _ _ _ hk]
    have := plainMoves_length_le i (generatorOf k (b.setPiece k (shl 1 i)) c)
    omega

theorem typeMoves_length_le (b : BitbArray) (c : enumColor) (k : enumType) :
    (typeMoves b c k).length ≤ 36864 := by
  unfold typeMoves
  have h1 := length_flatMap_le (squaresOf (b.piece k &&& b.color c)) (originMoves b c k) 576
    (fun x _ => originMoves_length_le b c k x)
  have h2 := squaresOf_length_le (b.piece k &&& b.color c)
  omega

/-- A move list never has more than 221184 entries. -/
theorem moveList_length_le (b : BitbArray) (c : enumColor) : (moveList b c).length ≤ 221184 := by
  unfold moveList
  have h1 := length_flatMap_le pieceTypes (typeMoves b c) 36864
    (fun x _ => typeMoves_length_le b c x)
  have h2 : pieceTypes.length = 6 := rfl
  omega

theorem truncateTowardZero_div10 (a : Int) :
    truncateTowardZero ((a : ℚ) / 10) = Int.tdiv a 10 := by
  unfold truncateTowardZero
  have hfloor : ∀ z : Int, ⌊(z : ℚ) / 10⌋ = z / 10 := by
    intro z
    have := Rat.floor_intCast_div_natCast z 10
    simpa using this
  by_cases h : 0 ≤ a
  · have hq : (0 : ℚ) ≤ (a : ℚ) / 10 := by positivity
    rw [if_pos hq, hfloor, tdiv_of_nonneg a 10 h (by decide)]
  · have ha : a < 0 := by omega
    have hq : ¬ (0 : ℚ) ≤ (a : ℚ) / 10 := by
      rw [not_le]
      have : (a : ℚ) < 0 := by exact_mod_cast ha
      linarith
    rw [if_neg hq, tdiv_of_neg a 10 ha (by decide)]
    have e : (a : ℚ) / 10 = -(((-a : Int) : ℚ) / 10) := by push_cast; ring
    rw [e, Int.ceil_neg, hfloor]

theorem exactScore_white (b : BitbArray) (hsub : PiecesInColors b)
    (hdisj : b.white &&& b.black = 0) (m m' : Nat) :
    exactScore b .nWhite .nBlack m m' =
      ((10 * materialScore b .nWhite + ((m : Int) - (m' : Int)) : Int) : ℚ) / 10 := by
  rw [materialScore_white b hsub hdisj]
  simp only [exactScore, BitbArray.color]
  push_cast
  ring

theorem exactScore_black (b : BitbArray) (hsub : PiecesInColors b)
    (hdisj : b.white &&& b.black = 0) (m m' : Nat) :
    exactScore b .nBlack .nWhite m m' =
      ((10 * materialScore b .nBlack + ((m : Int) - (m' : Int)) : Int) : ℚ) / 10 := by
  rw [materialScore_black b hsub hdisj]
  simp only [exactScore, BitbArray.color]
  push_cast
  ring

theorem materialScore_bounds (b : BitbArray) (hsub : PiecesInColors b)
    (hdisj : b.white &&& b.black = 0) (c : enumColor) (hc : c = .nWhite ∨ c = .nBlack) :
    -2 ^ 20 < materialScore b c ∧ materialScore b c < 2 ^ 20 := by
  have i20 : (2 : Int) ^ 20 = 1048576 := by decide
  rw [i20]
  have h1 := popcount_le (b.king &&& b.white)
  have h2 := popcount_le (b.king &&& b.black)
  have h3 := popcount_le (b.queen &&& b.white)
  have h4 := popcount_le (b.queen &&& b.black)
  have h5 := popcount_le (b.rook &&& b.white)
  have h6 := popcount_le (b.rook &&& b.black)
  have h7 := popcount_le (b.knight &&& b.white)
  have h8 := popcount_le (b.knight &&& b.black)
  have h9 := popcount_le (b.bishop &&& b.white)
  have h10 := popcount_le (b.bishop &&& b.black)
  have h11 := popcount_le (b.pawn &&& b.white)
  have h12 := popcount_le (b.pawn &&& b.black)
  rcases hc with rfl | rfl
  · rw [materialScore_white b hsub hdisj]; omega
  · rw [materialScore_black b hsub hdisj]; omega

theorem evaluateBoard_formula (b : BitbArray) (hb : b.WF) (hsub : PiecesInColors b)
    (hdisj : b.white &&& b.black = 0) (c : enumColor) (hc : c = .nWhite ∨ c = .nBlack) :
    ∃ own enemy, getPseudoLegalMoves b c = some own ∧
      getPseudoLegalMoves b (enemyOf c) = some enemy ∧
      evaluateBoard b c =
        some (truncateTowardZero (exactScore b c (enemyOf c) own.length enemy.length)) := by
  have i20 : (2 : Int) ^ 20 = 1048576 := by decide
  have hW := moveList_length_le b .nWhite
  have hB := moveList_length_le b .nBlack
  have hm := materialScore_bounds b hsub hdisj c hc
  rcases hc with rfl | rfl
  · refine ⟨moveList b .nWhite, moveList b .nBlack, getPseudoLegalMoves_white b hb,
      getPseudoLegalMoves_black b hb, ?_⟩
    rw [evaluateBoard_white b hb, addMobility_eq _ _ hm.1 hm.2 (by rw [i20]; omega)
      (by rw [i20]; omega)]
    show _ = some (truncateTowardZero (exactScore b .nWhite .nBlack _ _))
    rw [exactScore_white b hsub hdisj, truncateTowardZero_div10]
  · refine ⟨moveList b .nBlack, moveList b .nWhite, getPseudoLegalMoves_black b hb,
      getPseudoLegalMoves_white b hb, ?_⟩
    rw [evaluateBoard_black b hb, addMobility_eq _ _ hm.1 hm.2 (by rw [i20]; omega)
      (by rw [i20]; omega)]
    show _ = some (truncateTowardZero (exactScore b .nBlack .nWhite _ _))
    rw [exactScore_black b hsub hdisj, truncateTowardZero_div10]

/-- C10: on a bitboard set of 64-bit masks with disjoint colour masks whose union
contains every piece-type mask, for White and for Black, both move generations
return and `evaluateBoard` returns the truncation toward zero of the exact value
`200 (k - k') + 9 (q - q') + 5 (r - r') + 3 (n - n' + b - b') + (p - p') + (m - m') / 10`.
The truncation applies to the whole sum: with White a pawn up and three moves down
the exact value is 7/10 and the score is 0 for White and for Black. -/
theorem C10_evaluation_is_truncated_exact_score :
    (∀ (b : BitbArray) (c : enumColor), b.WF →
      (∀ k, b.piece k &&& (b.white ||| b.black) = b.piece k) →
      b.white &&& b.black = 0 → (c = .nWhite ∨ c = .nBlack) →
      ∃ own enemy, getPseudoLegalMoves b c = some own ∧
        getPseudoLegalMoves b (enemyOf c) = some enemy ∧
        evaluateBoard b c =
          some (truncateTowardZero (exactScore b c (enemyOf c) own.length enemy.length))) ∧
    materialScore pawnUpFewerMoves .nWhite = 1 ∧
    (getPseudoLegalMoves pawnUpFewerMoves .nWhite).map List.length = some 5 ∧
    (getPseudoLegalMoves pawnUpFewerMoves .nBlack).map List.length = some 8 ∧
    evaluateBoard pawnUpFewerMoves .nWhite = some 0 ∧
    evaluateBoard pawnUpFewerMoves .nBlack = some 0 := by
  refine ⟨?_, by decide, by decide, by decide, by decide, by decide⟩
  intro b c hb hsub hdisj hc
  exact evaluateBoard_formula b hb hsub hdisj c hc

/-- Witness for C10: Black's score in the example position. -/
theorem C10_evaluation_is_truncated_exact_score_witness :
    pawnUpFewerMoves.WF ∧
    (∀ k, pawnUpFewerMoves.piece k &&& (pawnUpFewerMoves.white ||| pawnUpFewerMoves.black) =
      pawnUpFewerMoves.piece k) ∧
    pawnUpFewerMoves.white &&& pawnUpFewerMoves.black = 0 ∧
    ∃ own enemy, getPseudoLegalMoves pawnUpFewerMoves .nBlack = some own ∧
      getPseudoLegalMoves pawnUpFewerMoves (enemyOf .nBlack) = some enemy ∧
      evaluateBoard pawnUpFewerMoves .nBlack =
        some (truncateTowardZero
          (exactScore pawnUpFewerMoves .nBlack (enemyOf .nBlack) own.length enemy.length)) :=
  ⟨by decide, by intro k; cases k <;> decide, by decide,
    C10_evaluation_is_truncated_exact_score.1 pawnUpFewerMoves .nBlack (by decide)
      (by intro k; cases k <;> decide) (by decide) (Or.inr rfl)⟩

/-! ## The description constructor -/

theorem fenLoop_eq_runFen (fen : List Char) (n : Nat) :
    ∀ (i : Nat) (b : BitbArray) (pos : Int), i + n ≤ fen.length →
      fenLoop fen n i b pos = runFen ((fen.drop i).take n) b pos := by
  induction n with
  | zero => intro i b pos _; simp [fenLoop, runFen]
  | succ n ih =>
    intro i b pos h
    have hi : i < fen.length := by omega
    have hd : fen.drop i = fen.getD i (Char.ofNat 0) :: fen.drop (i + 1) := by
      rw [List.getD_eq_getElem _ _ hi]
      exact List.drop_eq_getElem_cons hi
    rw [hd, List.take_succ_cons]
    simp only [fenLoop, runFen]
    cases hs : fenStep b pos (fen.getD i (Char.ofNat 0)) with
    | none => rfl
    | some r =>
      obtain ⟨b1, p1⟩ := r
      exact ih (i + 1) b1 p1 (by omega)

theorem findFirstOf_append (p rest : List Char) (hp : ' ' ∉ p) :
    findFirstOf ' ' (p ++ ' ' :: rest) = some p.length := by
  induction p with
  | nil => simp [findFirstOf]
  | cons x xs ih =>
    have hx : x ≠ ' ' := fun h => hp (by rw [h]; exact List.mem_cons_self _ _)
    have hxs : ' ' ∉ xs := fun h => hp (List.mem_cons_of_mem _ h)
    show findFirstOf ' ' (x :: (xs ++ ' ' :: rest)) = some (xs.length + 1)
    simp only [findFirstOf, if_neg hx]
    rw [ih hxs]
    try rfl

/-- The part of a description before its first space decides the result. -/
theorem fromFen_eq (p rest : List Char) (hp : ' ' ∉ p) :
    Bitboard.fromFen (String.mk (p ++ ' ' :: rest)) =
      match runFen p emptyBoard 56 with
      | none => none
      | some (b, _) => some { b with all := b.black ||| b.white } := by
  unfold Bitboard.fromFen
  simp only
  rw [findFirstOf_append p rest hp]
  simp only
  rw [fenLoop_eq_runFen _ _ 0 _ _ (by simp)]
  simp only [List.drop_zero, List.take_left']
  try rfl


theorem bitsetSet_eq (x p : Nat) (hp : p < 64) : bitsetSet x (p : Int) = some (x ||| shl 1 p) := by
  unfold bitsetSet
  rw [if_pos (by omega), Int.toNat_ofNat]

theorem setPieceAt_eq (b : BitbArray) (k : enumType) (w : Bool) (p : Nat) (hp : p < 64) :
    setPieceAt b k w (p : Int) = some (place b k w p) := by
  have hw : (b.setPiece k (b.piece k ||| shl 1 p)).white = b.white := by cases k <;> rfl
  have hb : (b.setPiece k (b.piece k ||| shl 1 p)).black = b.black := by cases k <;> rfl
  unfold setPieceAt place
  rw [bitsetSet_eq _ p hp]
  cases w
  · simp only [Bool.false_eq_true, if_false]
    rw [bitsetSet_eq _ p hp, hb]
  · simp only [if_true]
    rw [bitsetSet_eq _ p hp, hw]

theorem fenStep_letter (b : BitbArray) (p : Nat) (c : Char) (hc : c ∈ pieceLetters)
    (hp : p < 64) :
    ∃ k, letterType c = some k ∧
      fenStep b (p : Int) c = some (place b k (isWhiteLetter c) p, (p : Int) + 1) := by
  have key : ∀ (k : enumType) (w : Bool),
      (setPieceAt b k w (p : Int)).map (fun b => (b, (p : Int) + 1)) =
        some (place b k w p, (p : Int) + 1) := by
    intro k w
    rw [setPieceAt_eq b k w p hp]
    rfl
  simp only [pieceLetters, List.mem_cons, List.mem_singleton, List.not_mem_nil, or_false] at hc
  rcases hc with rfl | rfl | rfl | rfl | rfl | rfl | rfl | rfl | rfl | rfl | rfl | rfl
  · exact ⟨.nPawn, rfl, key .nPawn false⟩
  · exact ⟨.nKnight, rfl, key .nKnight false⟩
  · exact ⟨.nBishop, rfl, key .nBishop false⟩
  · exact ⟨.nRook, rfl, key .nRook false⟩
  · exact ⟨.nQueen, rfl, key .nQueen false⟩
  · exact ⟨.nKing, rfl, key .nKing false⟩
  · exact ⟨.nPawn, rfl, key .nPawn true⟩
  · exact ⟨.nKnight, rfl, key .nKnight true⟩
  · exact ⟨.nBishop, rfl, key .nBishop true⟩
  · exact ⟨.nRook, rfl, key .nRook true⟩
  · exact ⟨.nQueen, rfl, key .nQueen true⟩
  · exact ⟨.nKing, rfl, key .nKing true⟩

theorem fenStep_digit (b : BitbArray) (pos : Int) (c : Char) (hc : c ∈ skipDigits) :
    fenStep b pos c = some (b, pos + ((c.toNat - 48 : Nat) : Int)) ∧ c ∉ pieceLetters ∧
      1 ≤ c.toNat - 48 := by
  simp only [skipDigits, List.mem_cons, List.mem_singleton, List.not_mem_nil, or_false] at hc
  rcases hc with rfl | rfl | rfl | rfl | rfl | rfl | rfl | rfl
  all_goals
    refine ⟨?_, by decide, by decide⟩
    show some (b, pos + _ + 1) = _
    congr 2
    simp <;> omega

theorem fenStep_slash (b : BitbArray) (pos : Int) : fenStep b pos '/' = some (b, pos - 16) := by
  show some (b, pos - 17 + 1) = _
  congr 2
  omega


theorem runFen_append (xs ys : List Char) (b : BitbArray) (pos : Int) :
    runFen (xs ++ ys) b pos =
      match runFen xs b pos with
      | none => none
      | some (b, pos) => runFen ys b pos := by
  induction xs generalizing b pos with
  | nil => rfl
  | cons x xs ih =>
    simp only [List.cons_append, runFen]
    cases hs : fenStep b pos x with
    | none => rfl
    | some r =>
      obtain ⟨b1, p1⟩ := r
      exact ih b1 p1

theorem placeAll_append (b : BitbArray) (l l' : List (Nat × Char)) :
    placeAll b (l ++ l') = placeAll (placeAll b l) l' := by
  induction l generalizing b with
  | nil => rfl
  | cons x l ih =>
    obtain ⟨p, c⟩ := x
    simp only [List.cons_append, placeAll]
    cases letterType c with
    | none => exact ih b
    | some k => exact ih _

theorem expandRank_cons (c : Char) (cs : List Char) :
    expandRank (c :: cs) = squaresOfChar c ++ expandRank cs := by
  unfold expandRank
  rw [List.flatMap_cons]

/-- A rank of letters and digits that fits on the board is processed without an
exception; its letters are put on consecutive squares and the cursor advances by the
number of squares the rank accounts for. -/
theorem runFen_rank (r : List Char) :
    ∀ (b : BitbArray) (p : Nat), (∀ c, c ∈ r → c ∈ pieceLetters ∨ c ∈ skipDigits) →
      p + (expandRank r).length ≤ 64 →
      runFen r b (p : Int) =
        some (placeAll b (traceRank r p), ((p + (expandRank r).length : Nat) : Int)) := by
  induction r with
  | nil => intro b p _ _; rfl
  | cons c cs ih =>
    intro b p hval hfit
    have hcs : ∀ x, x ∈ cs → x ∈ pieceLetters ∨ x ∈ skipDigits :=
      fun x hx => hval x (List.mem_cons_of_mem _ hx)
    rw [expandRank_cons, List.length_append] at hfit ⊢
    rcases hval c (List.mem_cons_self _ _) with hl | hd
    · have hsq : squaresOfChar c = [some c] := by unfold squaresOfChar; rw [if_pos hl]
      rw [hsq, List.length_singleton] at hfit ⊢
      obtain ⟨k, hk, hstep⟩ := fenStep_letter b p c hl (by omega)
      have ht : traceRank (c :: cs) p = (p, c) :: traceRank cs (p + 1) := by
        simp only [traceRank, if_pos hl]
      rw [ht]
      simp only [runFen, placeAll, hstep, hk]
      have := ih (place b k (isWhiteLetter c) p) (p + 1) hcs (by omega)
      rw [show ((p : Int) + 1) = ((p + 1 : Nat) : Int) by omega, this]
      congr 3
      omega
    · obtain ⟨hstep, hnl, h1⟩ := fenStep_digit b (p : Int) c hd
      have hsq : squaresOfChar c = List.replicate (c.toNat - 48) none := by
        unfold squaresOfChar; rw [if_neg hnl]
      rw [hsq, List.length_replicate] at hfit ⊢
      have ht : traceRank (c :: cs) p = traceRank cs (p + (c.toNat - 48)) := by
        simp only [traceRank, if_neg hnl]
      rw [ht]
      simp only [runFen, hstep]
      have := ih b (p + (c.toNat - 48)) hcs (by omega)
      rw [show ((p : Int) + ((c.toNat - 48 : Nat) : Int)) = ((p + (c.toNat - 48) : Nat) : Int) by
        omega, this]
      congr 3
      omega

theorem joinRanks_cons_cons (r r' : List Char) (rs : List (List Char)) :
    joinRanks (r :: r' :: rs) = r ++ ('/' :: joinRanks (r' :: rs)) := rfl

/-- Well-formed ranks that fit on the board are processed without an exception; every
separator moves the cursor to the first square of the next rank down. -/
theorem runFen_ranks (rs : List (List Char)) :
    ∀ (r : List Char) (b : BitbArray), (∀ x, x ∈ r :: rs → WellFormedRank x) →
      rs.length < 8 →
      runFen (joinRanks (r :: rs)) b ((8 * rs.length : Nat) : Int) =
        some (placeAll b (traceRanks (r :: rs)), 8) := by
  induction rs with
  | nil =>
    intro r b hwf _
    have h := hwf r (List.mem_cons_self _ _)
    have := runFen_rank r b 0 h.1 (by rw [h.2]; decide)
    rw [h.2] at this
    simp only [joinRanks, traceRanks, List.length_nil, List.append_nil, Nat.mul_zero]
    exact this
  | cons r' rs ih =>
    intro r b hwf hlen
    have h := hwf r (List.mem_cons_self _ _)
    have hrest : ∀ x, x ∈ r' :: rs → WellFormedRank x :=
      fun x hx => hwf x (List.mem_cons_of_mem _ hx)
    rw [List.length_cons] at hlen
    have h1 := runFen_rank r b (8 * (rs.length + 1)) h.1 (by rw [h.2]; omega)
    rw [h.2] at h1
    rw [joinRanks_cons_cons, runFen_append, List.length_cons, h1]
    simp only [runFen, fenStep_slash]
    have h2 := ih r' (placeAll b (traceRank r (8 * (rs.length + 1)))) hrest (by omega)
    rw [show (((8 * (rs.length + 1) + 8 : Nat) : Int) - 16) = ((8 * rs.length : Nat) : Int) by
      omega, h2]
    have ht : traceRanks (r :: r' :: rs) =
        traceRank r (8 * (rs.length + 1)) ++ traceRanks (r' :: rs) := rfl
    rw [ht, placeAll_append]


theorem testBit_shl_one (p t : Nat) : (shl 1 p).testBit t = true ↔ p = t ∧ t < 64 := by
  rw [testBit_shl, show (1 : Nat) = 2 ^ 0 from rfl, Nat.testBit_two_pow]
  simp only [Bool.and_eq_true, decide_eq_true_eq]
  omega

theorem setPiece_piece (b : BitbArray) (k k' : enumType) (v : Nat) :
    (b.setPiece k v).piece k' = if k' = k then v else b.piece k' := by
  cases k <;> cases k' <;> rfl

theorem setPiece_white (b : BitbArray) (k : enumType) (v : Nat) :
    (b.setPiece k v).white = b.white := by cases k <;> rfl

theorem setPiece_black (b : BitbArray) (k : enumType) (v : Nat) :
    (b.setPiece k v).black = b.black := by cases k <;> rfl

theorem place_piece (b : BitbArray) (k k' : enumType) (w : Bool) (p t : Nat) :
    ((place b k w p).piece k').testBit t = true ↔
      (b.piece k').testBit t = true ∨ (k' = k ∧ p = t ∧ t < 64) := by
  have h : (place b k w p).piece k' = (b.setPiece k (b.piece k ||| shl 1 p)).piece k' := by
    unfold place
    cases w <;> cases k <;> cases k' <;> rfl
  rw [h, setPiece_piece]
  by_cases hk : k' = k
  · rw [if_pos hk, Nat.testBit_or, Bool.or_eq_true, testBit_shl_one, hk]
    simp
  · rw [if_neg hk]
    simp [hk]

theorem place_white (b : BitbArray) (k : enumType) (w : Bool) (p t : Nat) :
    (place b k w p).white.testBit t = true ↔
      b.white.testBit t = true ∨ (w = true ∧ p = t ∧ t < 64) := by
  cases w
  · have h : (place b k false p).white = b.white := by
      unfold place; cases k <;> rfl
    rw [h]; simp
  · have h : (place b k true p).white = b.white ||| shl 1 p := by
      unfold place; cases k <;> rfl
    rw [h, Nat.testBit_or, Bool.or_eq_true, testBit_shl_one]; simp

theorem place_black (b : BitbArray) (k : enumType) (w : Bool) (p t : Nat) :
    (place b k w p).black.testBit t = true ↔
      b.black.testBit t = true ∨ (w = false ∧ p = t ∧ t < 64) := by
  cases w
  · have h : (place b k false p).black = b.black ||| shl 1 p := by
      unfold place; cases k <;> rfl
    rw [h, Nat.testBit_or, Bool.or_eq_true, testBit_shl_one]; simp
  · have h : (place b k true p).black = b.black := by
      unfold place; cases k <;> rfl
    rw [h]; simp

/-- A piece letter names a piece type, and is either upper-case or lower-case. -/
theorem letterType_of_letter (c : Char) (hc : c ∈ pieceLetters) :
    (∃ k, letterType c = some k) ∧ (isWhiteLetter c = false ↔ isBlackLetter c = true) := by
  have h : ∀ c, c ∈ pieceLetters →
      (letterType c).isSome = true ∧ isWhiteLetter c = !isBlackLetter c := by decide
  obtain ⟨h1, h2⟩ := h c hc
  refine ⟨Option.isSome_iff_exists.1 h1, ?_⟩
  rw [h2]
  cases isBlackLetter c <;> simp

/-- The piece-type bits after a list of letters is put on the array. -/
theorem placeAll_piece (l : List (Nat × Char)) (k : enumType) (t : Nat) :
    ∀ b : BitbArray, ((placeAll b l).piece k).testBit t = true ↔
      (b.piece k).testBit t = true ∨
        (t < 64 ∧ ∃ c, (t, c) ∈ l ∧ letterType c = some k) := by
  induction l with
  | nil => intro b; simp [placeAll]
  | cons x l ih =>
    intro b
    obtain ⟨p, c⟩ := x
    simp only [placeAll]
    cases hc : letterType c with
    | none =>
      simp only
      rw [ih b]
      constructor
      · rintro (h | ⟨h64, c', hm, hl⟩)
        · exact Or.inl h
        · exact Or.inr ⟨h64, c', List.mem_cons_of_mem _ hm, hl⟩
      · rintro (h | ⟨h64, c', hm, hl⟩)
        · exact Or.inl h
        · rcases List.mem_cons.1 hm with he | hm
          · obtain ⟨-, rfl⟩ := Prod.mk.inj he
            rw [hc] at hl; exact Option.noConfusion hl
          · exact Or.inr ⟨h64, c', hm, hl⟩
    | some k0 =>
      simp only
      rw [ih (place b k0 (isWhiteLetter c) p), place_piece]
      constructor
      · rintro ((h | ⟨hk, hp, h64⟩) | ⟨h64, c', hm, hl⟩)
        · exact Or.inl h
        · exact Or.inr ⟨h64, c, by rw [hp]; exact List.mem_cons_self _ _, by rw [hc, hk]⟩
        · exact Or.inr ⟨h64, c', List.mem_cons_of_mem _ hm, hl⟩
      · rintro (h | ⟨h64, c', hm, hl⟩)
        · exact Or.inl (Or.inl h)
        · rcases List.mem_cons.1 hm with he | hm
          · obtain ⟨hp, rfl⟩ := Prod.mk.inj he
            rw [hc] at hl
            exact Or.inl (Or.inr ⟨(Option.some.inj hl).symm, hp.symm, h64⟩)
          · exact Or.inr ⟨h64, c', hm, hl⟩

/-- The white bits after a list of piece letters is put on the array. -/
theorem placeAll_white (l : List (Nat × Char)) (t : Nat) :
    ∀ b : BitbArray, (∀ x, x ∈ l → x.2 ∈ pieceLetters) →
      ((placeAll b l).white.testBit t = true ↔
        b.white.testBit t = true ∨
          (t < 64 ∧ ∃ c, (t, c) ∈ l ∧ isWhiteLetter c = true)) := by
  induction l with
  | nil => intro b _; simp [placeAll]
  | cons x l ih =>
    intro b hl
    obtain ⟨p, c⟩ := x
    have hcl : c ∈ pieceLetters := hl (p, c) (List.mem_cons_self _ _)
    have hl' : ∀ x, x ∈ l → x.2 ∈ pieceLetters := fun x hx => hl x (List.mem_cons_of_mem _ hx)
    have hk : ∃ k, letterType c = some k := (letterType_of_letter c hcl).1
    obtain ⟨k0, hc⟩ := hk
    simp only [placeAll, hc]
    rw [ih _ hl', place_white]
    constructor
    · rintro ((h | ⟨hw, hp, h64⟩) | ⟨h64, c', hm, hw⟩)
      · exact Or.inl h
      · exact Or.inr ⟨h64, c, by rw [hp]; exact List.mem_cons_self _ _, hw⟩
      · exact Or.inr ⟨h64, c', List.mem_cons_of_mem _ hm, hw⟩
    · rintro (h | ⟨h64, c', hm, hw⟩)
      · exact Or.inl (Or.inl h)
      · rcases List.mem_cons.1 hm with he | hm
        · obtain ⟨hp, rfl⟩ := Prod.mk.inj he
          exact Or.inl (Or.inr ⟨hw, hp.symm, h64⟩)
        · exact Or.inr ⟨h64, c', hm, hw⟩

/-- The black bits after a list of piece letters is put on the array. -/
theorem placeAll_black (l : List (Nat × Char)) (t : Nat) :
    ∀ b : BitbArray, (∀ x, x ∈ l → x.2 ∈ pieceLetters) →
      ((placeAll b l).black.testBit t = true ↔
        b.black.testBit t = true ∨
          (t < 64 ∧ ∃ c, (t, c) ∈ l ∧ isBlackLetter c = true)) := by
  induction l with
  | nil => intro b _; simp [placeAll]
  | cons x l ih =>
    intro b hl
    obtain ⟨p, c⟩ := x
    have hcl : c ∈ pieceLetters := hl (p, c) (List.mem_cons_self _ _)
    have hl' : ∀ x, x ∈ l → x.2 ∈ pieceLetters := fun x hx => hl x (List.mem_cons_of_mem _ hx)
    obtain ⟨⟨k0, hc⟩, hwb⟩ := letterType_of_letter c hcl
    simp only [placeAll, hc]
    rw [ih _ hl', place_black]
    constructor
    · rintro ((h | ⟨hw, hp, h64⟩) | ⟨h64, c', hm, hw⟩)
      · exact Or.inl h
      · exact Or.inr ⟨h64, c, by rw [hp]; exact List.mem_cons_self _ _, hwb.1 hw⟩
      · exact Or.inr ⟨h64, c', List.mem_cons_of_mem _ hm, hw⟩
    · rintro (h | ⟨h64, c', hm, hw⟩)
      · exact Or.inl (Or.inl h)
      · rcases List.mem_cons.1 hm with he | hm
        · obtain ⟨hp, rfl⟩ := Prod.mk.inj he
          exact Or.inl (Or.inr ⟨hwb.2 hw, hp.symm, h64⟩)
        · exact Or.inr ⟨h64, c', hm, hw⟩

theorem expandRank_nil : expandRank [] = [] := rfl

theorem getD_replicate_none (n i : Nat) :
    (List.replicate n (none : Option Char)).getD i none = none := by
  induction n generalizing i with
  | zero => rfl
  | succ n ih =>
    cases i with
    | zero => rfl
    | succ i => exact ih i

/-- The letters of a rank, with the squares they are put on. -/
theorem mem_traceRank (r : List Char) :
    ∀ (p q : Nat) (c : Char), (q, c) ∈ traceRank r p ↔
      p ≤ q ∧ (expandRank r).getD (q - p) none = some c := by
  induction r with
  | nil =>
    intro p q c
    simp [traceRank, expandRank_nil]
  | cons x xs ih =>
    intro p q c
    rw [expandRank_cons]
    by_cases hx : x ∈ pieceLetters
    · have hsq : squaresOfChar x = [some x] := by unfold squaresOfChar; rw [if_pos hx]
      have ht : traceRank (x :: xs) p = (p, x) :: traceRank xs (p + 1) := by
        simp only [traceRank, if_pos hx]
      rw [hsq, ht, List.mem_cons, ih]
      by_cases hq : q = p
      · subst hq
        simp only [Nat.sub_self, List.singleton_append, List.getD_cons_zero, Prod.mk.injEq,
          true_and, le_refl, Option.some.injEq]
        constructor
        · rintro (h | ⟨h, -⟩)
          · exact h.symm
          · omega
        · intro h; exact Or.inl h.symm
      · constructor
        · rintro (h | ⟨h1, h2⟩)
          · exact absurd (Prod.mk.inj h).1 hq
          · refine ⟨by omega, ?_⟩
            rw [show q - p = (q - (p + 1)) + 1 by omega]
            exact h2
        · rintro ⟨h1, h2⟩
          refine Or.inr ⟨by omega, ?_⟩
          rw [show q - p = (q - (p + 1)) + 1 by omega] at h2
          exact h2
    · have hsq : squaresOfChar x = List.replicate (x.toNat - 48) none := by
        unfold squaresOfChar; rw [if_neg hx]
      have ht : traceRank (x :: xs) p = traceRank xs (p + (x.toNat - 48)) := by
        simp only [traceRank, if_neg hx]
      rw [hsq, ht, ih]
      by_cases hq : q - p < x.toNat - 48
      · rw [List.getD_append _ _ _ _ (by rw [List.length_replicate]; exact hq)]
        rw [getD_replicate_none]
        constructor
        · rintro ⟨h, -⟩; omega
        · rintro ⟨-, h⟩; exact Option.noConfusion h
      · rw [List.getD_append_right _ _ _ _ (by rw [List.length_replicate]; omega),
          List.length_replicate]
        rw [show q - (p + (x.toNat - 48)) = q - p - (x.toNat - 48) by omega]
        constructor
        · rintro ⟨h1, h2⟩; exact ⟨by omega, h2⟩
        · rintro ⟨h1, h2⟩
          refine ⟨?_, h2⟩
          by_contra hlt
          have : q - p - (x.toNat - 48) = 0 := by omega
          omega


/-- The letters of the ranks of a board, with the squares they are put on. -/
theorem mem_traceRanks (ranks : List (List Char)) :
    (∀ r, r ∈ ranks → (expandRank r).length = 8) → ∀ (q : Nat) (c : Char),
      ((q, c) ∈ traceRanks ranks ↔
        q / 8 < ranks.length ∧
          (expandRank (ranks.getD (ranks.length - 1 - q / 8) [])).getD (q % 8) none = some c) := by
  induction ranks with
  | nil => intro _ q c; simp [traceRanks]
  | cons r rs ih =>
    intro hlen q c
    have hr : (expandRank r).length = 8 := hlen r (List.mem_cons_self _ _)
    have hrs : ∀ x, x ∈ rs → (expandRank x).length = 8 :=
      fun x hx => hlen x (List.mem_cons_of_mem _ hx)
    have ht : traceRanks (r :: rs) = traceRank r (8 * rs.length) ++ traceRanks rs := rfl
    rw [ht, List.mem_append, mem_traceRank, ih hrs, List.length_cons]
    rcases Nat.lt_trichotomy (q / 8) rs.length with hlt | heq | hgt
    · rw [show rs.length + 1 - 1 - q / 8 = (rs.length - 1 - q / 8) + 1 by omega,
        List.getD_cons_succ]
      constructor
      · rintro (⟨h, -⟩ | ⟨-, h⟩)
        · omega
        · exact ⟨by omega, h⟩
      · rintro ⟨-, h⟩
        exact Or.inr ⟨hlt, h⟩
    · rw [show rs.length + 1 - 1 - q / 8 = 0 by omega, List.getD_cons_zero,
        show q - 8 * rs.length = q % 8 by omega]
      constructor
      · rintro (⟨-, h⟩ | ⟨h, -⟩)
        · exact ⟨by omega, h⟩
        · omega
      · rintro ⟨-, h⟩
        exact Or.inl ⟨by omega, h⟩
    · constructor
      · rintro (⟨-, h⟩ | ⟨h, -⟩)
        · rw [List.getD_eq_default _ _ (by rw [hr]; omega)] at h
          exact Option.noConfusion h
        · omega
      · rintro ⟨h, -⟩
        omega


theorem traceRank_letters (r : List Char) :
    ∀ (p : Nat) (x : Nat × Char), x ∈ traceRank r p → x.2 ∈ pieceLetters := by
  induction r with
  | nil => intro p x hx; simp [traceRank] at hx
  | cons c cs ih =>
    intro p x hx
    by_cases hc : c ∈ pieceLetters
    · have ht : traceRank (c :: cs) p = (p, c) :: traceRank cs (p + 1) := by
        simp only [traceRank, if_pos hc]
      rw [ht] at hx
      rcases List.mem_cons.1 hx with h | h
      · rw [h]; exact hc
      · exact ih _ x h
    · have ht : traceRank (c :: cs) p = traceRank cs (p + (c.toNat - 48)) := by
        simp only [traceRank, if_neg hc]
      rw [ht] at hx
      exact ih _ x hx

theorem traceRanks_letters (ranks : List (List Char)) :
    ∀ x : Nat × Char, x ∈ traceRanks ranks → x.2 ∈ pieceLetters := by
  induction ranks with
  | nil => intro x hx; simp [traceRanks] at hx
  | cons r rs ih =>
    intro x hx
    have ht : traceRanks (r :: rs) = traceRank r (8 * rs.length) ++ traceRanks rs := rfl
    rw [ht] at hx
    rcases List.mem_append.1 hx with h | h
    · exact traceRank_letters r _ x h
    · exact ih x h

theorem space_not_mem_joinRanks (ranks : List (List Char)) :
    (∀ r, r ∈ ranks → ∀ c, c ∈ r → c ∈ pieceLetters ∨ c ∈ skipDigits) →
      ' ' ∉ joinRanks ranks := by
  have hns : ¬ (' ' ∈ pieceLetters ∨ ' ' ∈ skipDigits) := by decide
  induction ranks with
  | nil => intro _ h; simp [joinRanks] at h
  | cons r rs ih =>
    intro hv
    have hr : ' ' ∉ r := fun h => hns (hv r (List.mem_cons_self _ _) ' ' h)
    cases rs with
    | nil => exact hr
    | cons r' rs =>
      rw [joinRanks_cons_cons]
      intro h
      rcases List.mem_append.1 h with h | h
      · exact hr h
      · rcases List.mem_cons.1 h with h | h
        · exact absurd h (by decide)
        · exact ih (fun x hx => hv x (List.mem_cons_of_mem _ hx)) h

/-- The description constructor on a well-formed description: no exception is thrown,
and every mask holds exactly the squares whose letter names it. -/
theorem fromFen_wellFormed (ranks : List (List Char)) (rest : List Char)
    (h : WellFormedRanks ranks) :
    ∃ b, Bitboard.fromFen (description ranks rest) = some b ∧
      b.all = b.black ||| b.white ∧
      (∀ (k : enumType) (sq : Nat), (b.piece k).testBit sq = true ↔
        sq < 64 ∧ ∃ c, contentAt ranks sq = some c ∧ letterType c = some k) ∧
      (∀ sq : Nat, b.white.testBit sq = true ↔
        sq < 64 ∧ ∃ c, contentAt ranks sq = some c ∧ isWhiteLetter c = true) ∧
      (∀ sq : Nat, b.black.testBit sq = true ↔
        sq < 64 ∧ ∃ c, contentAt ranks sq = some c ∧ isBlackLetter c = true) := by
  obtain ⟨hlen, hwf⟩ := h
  have hsp : ' ' ∉ joinRanks ranks := space_not_mem_joinRanks ranks (fun r hr => (hwf r hr).1)
  have hmem := mem_traceRanks ranks (fun r hr => (hwf r hr).2)
  have hlet := traceRanks_letters ranks
  have hc : ∀ (sq : Nat) (c : Char), ((sq, c) ∈ traceRanks ranks ↔
      sq < 64 ∧ contentAt ranks sq = some c) := by
    intro sq c
    rw [hmem, hlen]
    unfold contentAt
    rw [show 8 - 1 - sq / 8 = 7 - sq / 8 by omega]
    constructor
    · rintro ⟨h1, h2⟩; exact ⟨by omega, h2⟩
    · rintro ⟨h1, h2⟩; exact ⟨by omega, h2⟩
  have hrun : runFen (joinRanks ranks) emptyBoard 56 =
      some (placeAll emptyBoard (traceRanks ranks), 8) := by
    cases ranks with
    | nil => simp at hlen
    | cons r rs =>
      have hl : rs.length = 7 := by simpa using hlen
      have := runFen_ranks rs r emptyBoard hwf (by omega)
      rw [hl] at this
      exact this
  have hfen := fromFen_eq (joinRanks ranks) rest hsp
  rw [hrun] at hfen
  refine ⟨_, hfen, rfl, ?_, ?_, ?_⟩
  · intro k sq
    have hp : BitbArray.piece { placeAll emptyBoard (traceRanks ranks) with
        all := (placeAll emptyBoard (traceRanks ranks)).black |||
          (placeAll emptyBoard (traceRanks ranks)).white } k =
        (placeAll emptyBoard (traceRanks ranks)).piece k := by cases k <;> rfl
    rw [hp, placeAll_piece]
    have he : (emptyBoard.piece k).testBit sq = false := by
      cases k <;> exact Nat.zero_testBit sq
    rw [he]
    constructor
    · rintro (h | ⟨h64, c, hm, hl⟩)
      · exact Bool.noConfusion h
      · exact ⟨h64, c, ((hc sq c).1 hm).2, hl⟩
    · rintro ⟨h64, c, hm, hl⟩
      exact Or.inr ⟨h64, c, (hc sq c).2 ⟨h64, hm⟩, hl⟩
  · intro sq
    show (placeAll emptyBoard (traceRanks ranks)).white.testBit sq = true ↔ _
    rw [placeAll_white _ _ _ hlet]
    have he : emptyBoard.white.testBit sq = false := Nat.zero_testBit sq
    rw [he]
    constructor
    · rintro (h | ⟨h64, c, hm, hl⟩)
      · exact Bool.noConfusion h
      · exact ⟨h64, c, ((hc sq c).1 hm).2, hl⟩
    · rintro ⟨h64, c, hm, hl⟩
      exact Or.inr ⟨h64, c, (hc sq c).2 ⟨h64, hm⟩, hl⟩
  · intro sq
    show (placeAll emptyBoard (traceRanks ranks)).black.testBit sq = true ↔ _
    rw [placeAll_black _ _ _ hlet]
    have he : emptyBoard.black.testBit sq = false := Nat.zero_testBit sq
    rw [he]
    constructor
    · rintro (h | ⟨h64, c, hm, hl⟩)
      · exact Bool.noConfusion h
      · exact ⟨h64, c, ((hc sq c).1 hm).2, hl⟩
    · rintro ⟨h64, c, hm, hl⟩
      exact Or.inr ⟨h64, c, (hc sq c).2 ⟨h64, hm⟩, hl⟩


theorem union_piece_testBit (b : BitbArray) (t : Nat) :
    (b.pawn ||| b.knight ||| b.bishop ||| b.rook ||| b.queen ||| b.king).testBit t = true ↔
      ∃ k : enumType, (b.piece k).testBit t = true := by
  simp only [Nat.testBit_or, Bool.or_eq_true]
  constructor
  · rintro (((((h | h) | h) | h) | h) | h)
    · exact ⟨.nPawn, h⟩
    · exact ⟨.nKnight, h⟩
    · exact ⟨.nBishop, h⟩
    · exact ⟨.nRook, h⟩
    · exact ⟨.nQueen, h⟩
    · exact ⟨.nKing, h⟩
  · rintro ⟨k, h⟩
    cases k
    · exact Or.inl (Or.inl (Or.inl (Or.inl (Or.inl h))))
    · exact Or.inl (Or.inl (Or.inl (Or.inl (Or.inr h))))
    · exact Or.inl (Or.inl (Or.inl (Or.inr h)))
    · exact Or.inl (Or.inl (Or.inr h))
    · exact Or.inl (Or.inr h)
    · exact Or.inr h

/-- A square of a well-formed description that is not covered by a digit holds a piece
letter. -/
theorem contentAt_letter (ranks : List (List Char)) (h : WellFormedRanks ranks)
    (sq : Nat) (c : Char) (hsq : sq < 64) (hc : contentAt ranks sq = some c) :
    c ∈ pieceLetters := by
  obtain ⟨hlen, hwf⟩ := h
  have hmem := mem_traceRanks ranks (fun r hr => (hwf r hr).2) sq c
  rw [hlen, show 8 - 1 - sq / 8 = 7 - sq / 8 by omega] at hmem
  exact traceRanks_letters ranks (sq, c) (hmem.2 ⟨by omega, hc⟩)

/-- Masks that hold exactly the squares whose letter names them satisfy the position
invariants. -/
theorem invariant_of_contents (content : Nat → Option Char) (b : BitbArray)
    (hlet : ∀ sq c, sq < 64 → content sq = some c → c ∈ pieceLetters)
    (hall : b.all = b.black ||| b.white)
    (hp : ∀ (k : enumType) (sq : Nat), (b.piece k).testBit sq = true ↔
      sq < 64 ∧ ∃ c, content sq = some c ∧ letterType c = some k)
    (hw : ∀ sq : Nat, b.white.testBit sq = true ↔
      sq < 64 ∧ ∃ c, content sq = some c ∧ isWhiteLetter c = true)
    (hb : ∀ sq : Nat, b.black.testBit sq = true ↔
      sq < 64 ∧ ∃ c, content sq = some c ∧ isBlackLetter c = true) :
    PositionInvariant b := by
  refine ⟨by rw [hall, Nat.lor_comm], ?_, ?_, ?_⟩
  · apply and_eq_zero_of_testBit
    intro t ht
    obtain ⟨h64, c, hc, hcw⟩ := (hw t).1 ht
    cases hbt : b.black.testBit t with
    | false => rfl
    | true =>
      obtain ⟨-, c', hc', hcb⟩ := (hb t).1 hbt
      rw [hc] at hc'
      rw [← Option.some.inj hc'] at hcb
      have := (letterType_of_letter c (hlet t c h64 hc)).2.2 hcb
      rw [hcw] at this
      exact Bool.noConfusion this
  · intro k k' hkk
    apply and_eq_zero_of_testBit
    intro t ht
    obtain ⟨h64, c, hc, hck⟩ := (hp k t).1 ht
    cases hbt : (b.piece k').testBit t with
    | false => rfl
    | true =>
      obtain ⟨-, c', hc', hck'⟩ := (hp k' t).1 hbt
      rw [hc] at hc'
      rw [← Option.some.inj hc', hck] at hck'
      exact absurd (Option.some.inj hck') hkk
  · apply Nat.eq_of_testBit_eq
    intro t
    rw [Bool.eq_iff_iff, union_piece_testBit, hall, Nat.testBit_or, Bool.or_eq_true, hw, hb]
    constructor
    · rintro ⟨k, hk⟩
      obtain ⟨h64, c, hc, -⟩ := (hp k t).1 hk
      have hwb := (letterType_of_letter c (hlet t c h64 hc)).2
      cases hcw : isWhiteLetter c with
      | false => exact Or.inl ⟨h64, c, hc, hwb.1 hcw⟩
      | true => exact Or.inr ⟨h64, c, hc, hcw⟩
    · rintro (⟨h64, c, hc, -⟩ | ⟨h64, c, hc, -⟩)
      · obtain ⟨k, hk⟩ := (letterType_of_letter c (hlet t c h64 hc)).1
        exact ⟨k, (hp k t).2 ⟨h64, c, hc, hk⟩⟩
      · obtain ⟨k, hk⟩ := (letterType_of_letter c (hlet t c h64 hc)).1
        exact ⟨k, (hp k t).2 ⟨h64, c, hc, hk⟩⟩

theorem standard_invariant : PositionInvariant Bitboard.standard := by
  refine ⟨by decide, by decide, ?_, by decide⟩
  intro k k' _
  cases k <;> cases k' <;> first | contradiction | decide

theorem string_append_space (p t : String) :
    p ++ " " ++ t = String.mk (p.data ++ ' ' :: t.data) := by
  apply String.ext
  simp [String.data_append]


/-! ## Claims about the description constructor -/

/-- C11: for every well-formed description (eight ranks of piece letters and digits 1-8,
each accounting for exactly eight squares, separated by `/` and followed by a space) the
description constructor returns normally, and on the j-th square of the i-th rank
(square index `sq`, with `i = 7 - sq / 8` and `j = sq % 8`) it sets exactly the
piece-type bit named by the letter there, the White bit if the letter is upper-case, the
Black bit if it is lower-case, and nothing on a square covered by a digit.  The
description of the standard start position yields the masks of the default
constructor. -/
theorem C11_description_sets_named_bits (ranks : List (List Char)) (rest : List Char)
    (h : WellFormedRanks ranks) :
    (∃ b, Bitboard.fromFen (description ranks rest) = some b ∧
      (∀ (k : enumType) (sq : Nat), (b.piece k).testBit sq = true ↔
        sq < 64 ∧ ∃ c, contentAt ranks sq = some c ∧ letterType c = some k) ∧
      (∀ sq : Nat, b.white.testBit sq = true ↔
        sq < 64 ∧ ∃ c, contentAt ranks sq = some c ∧ isWhiteLetter c = true) ∧
      (∀ sq : Nat, b.black.testBit sq = true ↔
        sq < 64 ∧ ∃ c, contentAt ranks sq = some c ∧ isBlackLetter c = true)) ∧
    Bitboard.fromFen "rnbqkbnr/pppppppp/8/8/8/8/PPPPPPPP/RNBQKBNR w KQkq - 0 1" =
      some Bitboard.standard := by
  obtain ⟨b, hb, -, hp, hw, hbl⟩ := fromFen_wellFormed ranks rest h
  exact ⟨⟨b, hb, hp, hw, hbl⟩, by decide⟩

theorem C11_description_sets_named_bits_witness :
    WellFormedRanks standardRanks ∧
    ((∃ b, Bitboard.fromFen (description standardRanks standardRest) = some b ∧
      (∀ (k : enumType) (sq : Nat), (b.piece k).testBit sq = true ↔
        sq < 64 ∧ ∃ c, contentAt standardRanks sq = some c ∧ letterType c = some k) ∧
      (∀ sq : Nat, b.white.testBit sq = true ↔
        sq < 64 ∧ ∃ c, contentAt standardRanks sq = some c ∧ isWhiteLetter c = true) ∧
      (∀ sq : Nat, b.black.testBit sq = true ↔
        sq < 64 ∧ ∃ c, contentAt standardRanks sq = some c ∧ isBlackLetter c = true)) ∧
    Bitboard.fromFen "rnbqkbnr/pppppppp/8/8/8/8/PPPPPPPP/RNBQKBNR w KQkq - 0 1" =
      some Bitboard.standard) :=
  ⟨by decide, C11_description_sets_named_bits standardRanks standardRest (by decide)⟩

/-- C12: the masks of the default constructor, and the masks the description constructor
produces for every well-formed description, satisfy the position invariants: the union
mask is White | Black, White & Black = 0, the six piece-type masks are pairwise disjoint
and their union is the union mask. -/
theorem C12_constructors_establish_invariants (ranks : List (List Char)) (rest : List Char)
    (h : WellFormedRanks ranks) :
    PositionInvariant Bitboard.standard ∧
    ∃ b, Bitboard.fromFen (description ranks rest) = some b ∧ PositionInvariant b := by
  obtain ⟨b, hb, hall, hp, hw, hbl⟩ := fromFen_wellFormed ranks rest h
  exact ⟨standard_invariant, b, hb,
    invariant_of_contents (contentAt ranks) b (fun sq c h64 hc => contentAt_letter ranks h sq c h64 hc)
      hall hp hw hbl⟩

theorem C12_constructors_establish_invariants_witness :
    WellFormedRanks standardRanks ∧
    (PositionInvariant Bitboard.standard ∧
      ∃ b, Bitboard.fromFen (description standardRanks standardRest) = some b ∧
        PositionInvariant b) :=
  ⟨by decide, C12_constructors_establish_invariants standardRanks standardRest (by decide)⟩

/-- C13: for every string `p` without a space and all strings `t1`, `t2`, the description
constructor has the same outcome (the same masks, or the same failure) for
`p + " " + t1` and `p + " " + t2`: nothing after the first space is read. -/
theorem C13_tail_after_first_space_ignored (p t1 t2 : String) (hp : ' ' ∉ p.data) :
    Bitboard.fromFen (p ++ " " ++ t1) = Bitboard.fromFen (p ++ " " ++ t2) := by
  rw [string_append_space, string_append_space, fromFen_eq _ _ hp, fromFen_eq _ _ hp]

theorem C13_tail_after_first_space_ignored_witness :
    ' ' ∉ "8/8/8/8/8/8/8/K6k".data ∧
    Bitboard.fromFen ("8/8/8/8/8/8/8/K6k" ++ " " ++ "w - - 0 1") =
      Bitboard.fromFen ("8/8/8/8/8/8/8/K6k" ++ " " ++ "b KQkq e3 12 40") :=
  ⟨by decide, C13_tail_after_first_space_ignored "8/8/8/8/8/8/8/K6k" "w - - 0 1"
    "b KQkq e3 12 40" (by decide)⟩


/-- C16 (counterexample): in the description `7/P w` the eighth rank accounts for seven
squares only; the pawn after the separator is not put on a7 (bit 48), the first square
of the rank below, but on h6 (bit 47). -/
theorem C16_separator_does_not_reset_file :
    ∃ b, Bitboard.fromFen "7/P w" = some b ∧ b.pawn = shl 1 47 ∧ b.white = shl 1 47 ∧
      b.pawn.testBit 48 = false ∧ fileOf 47 = 7 ∧ rankOf 47 = 5 :=
  ⟨_, rfl, by decide, by decide, by decide, by decide, by decide⟩

/-- C16 (amended): when a rank of piece letters and digits starts on file a of rank
`rk` and fits on the board, the loop over the rank and the separator after it returns
normally with the cursor 16 squares below the square that follows the rank; this is file
a of the rank below exactly when the rank accounted for eight squares. -/
theorem C16_separator_moves_cursor_back_sixteen (pre r rest : List Char) (b : BitbArray)
    (rk : Nat) (hval : ∀ c, c ∈ r → c ∈ pieceLetters ∨ c ∈ skipDigits)
    (hfit : 8 * rk + (expandRank r).length ≤ 64) :
    fenLoop (pre ++ r ++ '/' :: rest) (r.length + 1) pre.length b ((8 * rk : Nat) : Int) =
      some (placeAll b (traceRank r (8 * rk)),
        ((8 * rk + (expandRank r).length : Nat) : Int) - 16) ∧
    ((((8 * rk + (expandRank r).length : Nat) : Int) - 16 = 8 * ((rk : Int) - 1)) ↔
      (expandRank r).length = 8) := by
  constructor
  · rw [fenLoop_eq_runFen _ _ _ _ _ (by simp)]
    have hd : ((pre ++ r ++ '/' :: rest).drop pre.length).take (r.length + 1) = r ++ ['/'] := by
      rw [List.append_assoc, List.drop_left,
        show r ++ '/' :: rest = (r ++ ['/']) ++ rest by simp]
      exact List.take_left' (by simp)
    rw [hd, runFen_append, runFen_rank r b (8 * rk) hval hfit]
    simp only [runFen, fenStep_slash]
  · omega

theorem C16_separator_moves_cursor_back_sixteen_witness :
    (∀ c, c ∈ ['7'] → c ∈ pieceLetters ∨ c ∈ skipDigits) ∧
    8 * 7 + (expandRank ['7']).length ≤ 64 ∧
    (fenLoop ([] ++ ['7'] ++ '/' :: ['P', ' ', 'w']) ((['7'] : List Char).length + 1)
        ([] : List Char).length emptyBoard ((8 * 7 : Nat) : Int) =
      some (placeAll emptyBoard (traceRank ['7'] (8 * 7)),
        ((8 * 7 + (expandRank ['7']).length : Nat) : Int) - 16) ∧
    ((((8 * 7 + (expandRank ['7']).length : Nat) : Int) - 16 = 8 * (((7 : Nat) : Int) - 1)) ↔
      (expandRank ['7']).length = 8)) :=
  ⟨by decide, by decide,
    C16_separator_moves_cursor_back_sixteen [] ['7'] ['P', ' ', 'w'] emptyBoard 7
      (by decide) (by decide)⟩

/-! ## The shift primitives, square by square -/

theorem shiftNorth_testBit (m t : Nat) :
    (shiftNorth m).testBit t = true ↔ t < 64 ∧ 8 ≤ t ∧ m.testBit (t - 8) = true := by
  unfold shiftNorth nort
  rw [testBit_shl]
  simp only [Bool.and_eq_true, decide_eq_true_eq]

theorem shiftSouth_testBit (m t : Nat) :
    (shiftSouth m).testBit t = true ↔ m.testBit (t + 8) = true := by
  unfold shiftSouth sout
  rw [testBit_shr]

theorem shiftEast_testBit (m t : Nat) :
    (shiftEast m).testBit t = true ↔
      t < 64 ∧ 1 ≤ t ∧ m.testBit (t - 1) = true ∧ t % 8 ≠ 0 := by
  unfold shiftEast east
  rw [Nat.testBit_and, testBit_shl, testBit_notAFile]
  simp only [Bool.and_eq_true, decide_eq_true_eq]
  tauto

theorem shiftNorthEast_testBit (m t : Nat) :
    (shiftNorthEast m).testBit t = true ↔
      t < 64 ∧ 9 ≤ t ∧ m.testBit (t - 9) = true ∧ t % 8 ≠ 0 := by
  unfold shiftNorthEast noEa
  rw [Nat.testBit_and, testBit_shl, testBit_notAFile]
  simp only [Bool.and_eq_true, decide_eq_true_eq]
  tauto

theorem shiftNorthWest_testBit (m t : Nat) :
    (shiftNorthWest m).testBit t = true ↔
      t < 64 ∧ 7 ≤ t ∧ m.testBit (t - 7) = true ∧ t % 8 ≠ 7 := by
  unfold shiftNorthWest noWe
  rw [Nat.testBit_and, testBit_shl, testBit_notHFile]
  simp only [Bool.and_eq_true, decide_eq_true_eq]
  tauto

theorem shiftWest_testBit (m t : Nat) :
    (shiftWest m).testBit t = true ↔ m.testBit (t + 1) = true ∧ t < 64 ∧ t % 8 ≠ 7 := by
  unfold shiftWest west
  rw [Nat.testBit_and, testBit_shr, testBit_notHFile]
  simp only [Bool.and_eq_true, decide_eq_true_eq]

theorem shiftSouthWest_testBit (m t : Nat) :
    (shiftSouthWest m).testBit t = true ↔ m.testBit (t + 9) = true ∧ t < 64 ∧ t % 8 ≠ 7 := by
  unfold shiftSouthWest soWe
  rw [Nat.testBit_and, testBit_shr, testBit_notHFile]
  simp only [Bool.and_eq_true, decide_eq_true_eq]

theorem shiftSouthEast_testBit (m t : Nat) :
    (shiftSouthEast m).testBit t = true ↔ m.testBit (t + 7) = true ∧ t < 64 ∧ t % 8 ≠ 0 := by
  unfold shiftSouthEast soEa
  rw [Nat.testBit_and, testBit_shr, testBit_notAFile]
  simp only [Bool.and_eq_true, decide_eq_true_eq]

theorem squareAt_eq (f r : Int) (s : Nat) :
    squareAt f r = some s ↔ 0 ≤ f ∧ f < 8 ∧ 0 ≤ r ∧ r < 8 ∧ (s : Int) = 8 * r + f := by
  unfold squareAt
  by_cases h : 0 ≤ f ∧ f < 8 ∧ 0 ≤ r ∧ r < 8
  · rw [if_pos h, Option.some.injEq]
    constructor
    · intro e; refine ⟨h.1, h.2.1, h.2.2.1, h.2.2.2, ?_⟩; omega
    · intro e; omega
  · rw [if_neg h]
    constructor
    · intro e; exact Option.noConfusion e
    · intro e; exact absurd ⟨e.1, e.2.1, e.2.2.1, e.2.2.2.1⟩ h

/-- A bit of a shifted mask, in terms of the square one step back. -/
theorem shiftDir_prev (d : Direction) (m : Nat) (hm : m < 2 ^ 64) (t : Nat) (ht : t < 64) :
    (shiftDir d m).testBit t = true ↔
      ∃ s, squareAt ((fileOf t : Int) - d.df) ((rankOf t : Int) - d.dr) = some s ∧
        m.testBit s = true := by
  simp only [squareAt_eq]
  unfold fileOf rankOf
  cases d
  · show (shiftNorth m).testBit t = true ↔ _
    rw [shiftNorth_testBit]
    simp only [Direction.df, Direction.dr]
    constructor
    · rintro ⟨-, h8, h⟩; exact ⟨t - 8, by omega, h⟩
    · rintro ⟨s, hs, h⟩
      have e : s = t - 8 := by omega
      rw [e] at h; exact ⟨ht, by omega, h⟩
  · show (shiftNorthEast m).testBit t = true ↔ _
    rw [shiftNorthEast_testBit]
    simp only [Direction.df, Direction.dr]
    constructor
    · rintro ⟨-, h8, h, hf⟩; exact ⟨t - 9, by omega, h⟩
    · rintro ⟨s, hs, h⟩
      have e : s = t - 9 := by omega
      rw [e] at h; exact ⟨ht, by omega, h, by omega⟩
  · show (shiftEast m).testBit t = true ↔ _
    rw [shiftEast_testBit]
    simp only [Direction.df, Direction.dr]
    constructor
    · rintro ⟨-, h8, h, hf⟩; exact ⟨t - 1, by omega, h⟩
    · rintro ⟨s, hs, h⟩
      have e : s = t - 1 := by omega
      rw [e] at h; exact ⟨ht, by omega, h, by omega⟩
  · show (shiftSouthEast m).testBit t = true ↔ _
    rw [shiftSouthEast_testBit]
    simp only [Direction.df, Direction.dr]
    constructor
    · rintro ⟨h, -, hf⟩
      have := testBit_of_lt hm h
      exact ⟨t + 7, by omega, h⟩
    · rintro ⟨s, hs, h⟩
      have e : s = t + 7 := by omega
      rw [e] at h; exact ⟨h, ht, by omega⟩
  · show (shiftSouth m).testBit t = true ↔ _
    rw [shiftSouth_testBit]
    simp only [Direction.df, Direction.dr]
    constructor
    · intro h
      have := testBit_of_lt hm h
      exact ⟨t + 8, by omega, h⟩
    · rintro ⟨s, hs, h⟩
      have e : s = t + 8 := by omega
      rw [e] at h; exact h
  · show (shiftSouthWest m).testBit t = true ↔ _
    rw [shiftSouthWest_testBit]
    simp only [Direction.df, Direction.dr]
    constructor
    · rintro ⟨h, -, hf⟩
      have := testBit_of_lt hm h
      exact ⟨t + 9, by omega, h⟩
    · rintro ⟨s, hs, h⟩
      have e : s = t + 9 := by omega
      rw [e] at h; exact ⟨h, ht, by omega⟩
  · show (shiftWest m).testBit t = true ↔ _
    rw [shiftWest_testBit]
    simp only [Direction.df, Direction.dr]
    constructor
    · rintro ⟨h, -, hf⟩
      exact ⟨t + 1, by omega, h⟩
    · rintro ⟨s, hs, h⟩
      have e : s = t + 1 := by omega
      rw [e] at h; exact ⟨h, ht, by omega⟩
  · show (shiftNorthWest m).testBit t = true ↔ _
    rw [shiftNorthWest_testBit]
    simp only [Direction.df, Direction.dr]
    constructor
    · rintro ⟨-, h8, h, hf⟩; exact ⟨t - 7, by omega, h⟩
    · rintro ⟨s, hs, h⟩
      have e : s = t - 7 := by omega
      rw [e] at h; exact ⟨ht, by omega, h, by omega⟩

theorem shiftDir_lt (d : Direction) (m : Nat) (hm : m < 2 ^ 64) : shiftDir d m < 2 ^ 64 := by
  cases d
  · exact shl_lt _ _
  · exact and_lt_left _ _ (shl_lt _ _)
  · exact and_lt_left _ _ (shl_lt _ _)
  · exact and_lt_left _ _ (shr_lt _ _ hm)
  · exact shr_lt _ _ hm
  · exact and_lt_left _ _ (shr_lt _ _ hm)
  · exact and_lt_left _ _ (shr_lt _ _ hm)
  · exact and_lt_left _ _ (shl_lt _ _)

/-- C14: for every 64-bit mask `m`, each of the eight shift primitives, with direction
offset `(df, dr)` in files and ranks, sets the square on file `f` and rank `r` of the
shifted mask exactly when the square `(f - df, r - dr)` lies on the board and is set in
`m`; the shifted mask is again a 64-bit mask.  In particular the three eastward shifts
never set a bit on file a and the three westward shifts never set a bit on file h. -/
theorem C14_shift_moves_one_square (d : Direction) (m : Nat) (hm : m < 2 ^ 64)
    (f r : Nat) (hf : f < 8) (hr : r < 8) :
    ((shiftDir d m).testBit (8 * r + f) = true ↔
      ∃ s, squareAt ((f : Int) - d.df) ((r : Int) - d.dr) = some s ∧ m.testBit s = true) ∧
    shiftDir d m < 2 ^ 64 ∧
    (∀ t, fileOf t = 0 → (shiftEast m).testBit t = false ∧
      (shiftNorthEast m).testBit t = false ∧ (shiftSouthEast m).testBit t = false) ∧
    (∀ t, fileOf t = 7 → (shiftWest m).testBit t = false ∧
      (shiftNorthWest m).testBit t = false ∧ (shiftSouthWest m).testBit t = false) := by
  refine ⟨?_, shiftDir_lt d m hm, ?_, ?_⟩
  · have h := shiftDir_prev d m hm (8 * r + f) (by omega)
    have e1 : fileOf (8 * r + f) = f := by unfold fileOf; omega
    have e2 : rankOf (8 * r + f) = r := by unfold rankOf; omega
    rw [e1, e2] at h
    exact h
  · intro t ht
    unfold fileOf at ht
    refine ⟨?_, ?_, ?_⟩
    · cases h : (shiftEast m).testBit t with
      | false => rfl
      | true => exact absurd ht ((shiftEast_testBit m t).1 h).2.2.2
    · cases h : (shiftNorthEast m).testBit t with
      | false => rfl
      | true => exact absurd ht ((shiftNorthEast_testBit m t).1 h).2.2.2
    · cases h : (shiftSouthEast m).testBit t with
      | false => rfl
      | true => exact absurd ht ((shiftSouthEast_testBit m t).1 h).2.2
  · intro t ht
    unfold fileOf at ht
    refine ⟨?_, ?_, ?_⟩
    · cases h : (shiftWest m).testBit t with
      | false => rfl
      | true => exact absurd ht ((shiftWest_testBit m t).1 h).2.2
    · cases h : (shiftNorthWest m).testBit t with
      | false => rfl
      | true => exact absurd ht ((shiftNorthWest_testBit m t).1 h).2.2.2
    · cases h : (shiftSouthWest m).testBit t with
      | false => rfl
      | true => exact absurd ht ((shiftSouthWest_testBit m t).1 h).2.2

theorem C14_shift_moves_one_square_witness :
    shl 1 7 < 2 ^ 64 ∧ 0 < 8 ∧ 1 < 8 ∧
    (((shiftDir .east (shl 1 7)).testBit (8 * 1 + 0) = true ↔
      ∃ s, squareAt (((0 : Nat) : Int) - Direction.df .east)
        (((1 : Nat) : Int) - Direction.dr .east) = some s ∧ (shl 1 7).testBit s = true) ∧
    shiftDir .east (shl 1 7) < 2 ^ 64 ∧
    (∀ t, fileOf t = 0 → (shiftEast (shl 1 7)).testBit t = false ∧
      (shiftNorthEast (shl 1 7)).testBit t = false ∧
      (shiftSouthEast (shl 1 7)).testBit t = false) ∧
    (∀ t, fileOf t = 7 → (shiftWest (shl 1 7)).testBit t = false ∧
      (shiftNorthWest (shl 1 7)).testBit t = false ∧
      (shiftSouthWest (shl 1 7)).testBit t = false)) :=
  ⟨by decide, by decide, by decide,
    C14_shift_moves_one_square .east (shl 1 7) (by decide) 0 1 (by decide) (by decide)⟩

/-! ## The naive flood fill -/

theorem reachL_succ (d gen pro n t : Nat) :
    reachL d gen pro (n + 1) t ↔
      reachL d gen pro n t ∨ (d ≤ t ∧ pro.testBit t = true ∧ reachL d gen pro n (t - d)) := by
  unfold reachL
  constructor
  · rintro ⟨k, hk, hle, hg, hp⟩
    cases k with
    | zero => exact Or.inl ⟨0, by omega, hle, hg, hp⟩
    | succ k =>
      right
      rw [Nat.succ_mul] at hle hg
      have h0 := hp 0 (by omega)
      rw [Nat.zero_mul, Nat.sub_zero] at h0
      refine ⟨by omega, h0, k, by omega, by omega, ?_, ?_⟩
      · rw [show t - d - k * d = t - (k * d + d) by omega]; exact hg
      · intro j hj
        have := hp (j + 1) (by omega)
        rw [Nat.succ_mul] at this
        rw [show t - d - j * d = t - (j * d + d) by omega]; exact this
  · rintro (⟨k, hk, hle, hg, hp⟩ | ⟨hd, hpt, k, hk, hle, hg, hp⟩)
    · exact ⟨k, by omega, hle, hg, hp⟩
    · refine ⟨k + 1, by omega, ?_, ?_, ?_⟩
      · rw [Nat.succ_mul]; omega
      · rw [Nat.succ_mul, show t - (k * d + d) = t - d - k * d by omega]; exact hg
      · intro j hj
        cases j with
        | zero => rw [Nat.zero_mul, Nat.sub_zero]; exact hpt
        | succ j =>
          have := hp j (by omega)
          rw [Nat.succ_mul, show t - (j * d + d) = t - d - j * d by omega]; exact this

theorem reachR_succ (d gen pro n t : Nat) :
    reachR d gen pro (n + 1) t ↔
      reachR d gen pro n t ∨ (pro.testBit t = true ∧ reachR d gen pro n (t + d)) := by
  unfold reachR
  constructor
  · rintro ⟨k, hk, hg, hp⟩
    cases k with
    | zero => exact Or.inl ⟨0, by omega, hg, hp⟩
    | succ k =>
      right
      rw [Nat.succ_mul] at hg
      have h0 := hp 0 (by omega)
      rw [Nat.zero_mul, Nat.add_zero] at h0
      refine ⟨h0, k, by omega, ?_, ?_⟩
      · rw [show t + d + k * d = t + (k * d + d) by omega]; exact hg
      · intro j hj
        have := hp (j + 1) (by omega)
        rw [Nat.succ_mul] at this
        rw [show t + d + j * d = t + (j * d + d) by omega]; exact this
  · rintro (⟨k, hk, hg, hp⟩ | ⟨hpt, k, hk, hg, hp⟩)
    · exact ⟨k, by omega, hg, hp⟩
    · refine ⟨k + 1, by omega, ?_, ?_⟩
      · rw [Nat.succ_mul, show t + (k * d + d) = t + d + k * d by omega]; exact hg
      · intro j hj
        cases j with
        | zero => rw [Nat.zero_mul, Nat.add_zero]; exact hpt
        | succ j =>
          have := hp j (by omega)
          rw [Nat.succ_mul, show t + (j * d + d) = t + d + j * d by omega]; exact this

/-- The naive flood fill in an upward direction: its bits after `n` rounds. -/
theorem floodL (d : Direction) (s gen pro pro' : Nat)
    (hstep : ∀ g t, (pro &&& shiftDir d g).testBit t = true ↔
      s ≤ t ∧ g.testBit (t - s) = true ∧ pro'.testBit t = true) :
    ∀ n t, (floodIter d gen pro n).testBit t = true ↔ reachL s gen pro' n t := by
  intro n
  induction n with
  | zero => intro t; exact (reachL_zero _ _ _ t).symm
  | succ n ih =>
    intro t
    show (floodIter d gen pro n ||| (pro &&& shiftDir d (floodIter d gen pro n))).testBit t = true
      ↔ _
    rw [Nat.testBit_or, Bool.or_eq_true, hstep, reachL_succ, ih t, ih (t - s)]
    tauto

/-- The naive flood fill in a downward direction: its bits after `n` rounds. -/
theorem floodR (d : Direction) (s gen pro pro' : Nat)
    (hstep : ∀ g t, (pro &&& shiftDir d g).testBit t = true ↔
      g.testBit (t + s) = true ∧ pro'.testBit t = true) :
    ∀ n t, (floodIter d gen pro n).testBit t = true ↔ reachR s gen pro' n t := by
  intro n
  induction n with
  | zero => intro t; exact (reachR_zero _ _ _ t).symm
  | succ n ih =>
    intro t
    show (floodIter d gen pro n ||| (pro &&& shiftDir d (floodIter d gen pro n))).testBit t = true
      ↔ _
    rw [Nat.testBit_or, Bool.or_eq_true, hstep, reachR_succ, ih t, ih (t + s)]
    tauto

/-- Each Kogge-Stone routine returns the mask of the naive flood fill. -/
theorem occlDir_eq_floodFill (d : Direction) (gen pro : Nat) (hpro : pro < 2 ^ 64) :
    occlDir d gen pro = floodFill d gen pro := by
  apply Nat.eq_of_testBit_eq
  intro t
  rw [Bool.eq_iff_iff]
  unfold floodFill
  cases d
  · show (nortOccl gen pro).testBit t = true ↔ _
    rw [nortOccl_eq, koggeL_testBit 8 gen pro hpro, floodL .north 8 gen pro pro]
    intro g u
    show (pro &&& shiftNorth g).testBit u = true ↔ _
    rw [Nat.testBit_and, Bool.and_eq_true, shiftNorth_testBit]
    constructor
    · rintro ⟨hp, -, h8, hg⟩; exact ⟨h8, hg, hp⟩
    · rintro ⟨h8, hg, hp⟩; exact ⟨hp, testBit_of_lt hpro hp, h8, hg⟩
  · show (noEaOccl gen pro).testBit t = true ↔ _
    rw [noEaOccl_eq, koggeL_testBit 9 gen _ (and_lt_left _ _ hpro),
      floodL .northEast 9 gen pro (pro &&& notAFile)]
    intro g u
    show (pro &&& shiftNorthEast g).testBit u = true ↔ _
    rw [Nat.testBit_and, Nat.testBit_and, testBit_notAFile, Bool.and_eq_true,
      shiftNorthEast_testBit]
    simp only [Bool.and_eq_true, decide_eq_true_eq]
    tauto
  · show (eastOccl gen pro).testBit t = true ↔ _
    rw [eastOccl_eq, koggeL_testBit 1 gen _ (and_lt_left _ _ hpro),
      floodL .east 1 gen pro (pro &&& notAFile)]
    intro g u
    show (pro &&& shiftEast g).testBit u = true ↔ _
    rw [Nat.testBit_and, Nat.testBit_and, testBit_notAFile, Bool.and_eq_true,
      shiftEast_testBit]
    simp only [Bool.and_eq_true, decide_eq_true_eq]
    tauto
  · show (soEaOccl gen pro).testBit t = true ↔ _
    rw [soEaOccl_eq, koggeR_testBit 7 gen _, floodR .southEast 7 gen pro (pro &&& notAFile)]
    intro g u
    show (pro &&& shiftSouthEast g).testBit u = true ↔ _
    rw [Nat.testBit_and, Nat.testBit_and, testBit_notAFile, Bool.and_eq_true,
      shiftSouthEast_testBit]
    simp only [Bool.and_eq_true, decide_eq_true_eq]
    tauto
  · show (soutOccl gen pro).testBit t = true ↔ _
    rw [soutOccl_eq, koggeR_testBit 8 gen _, floodR .south 8 gen pro pro]
    intro g u
    show (pro &&& shiftSouth g).testBit u = true ↔ _
    rw [Nat.testBit_and, Bool.and_eq_true, shiftSouth_testBit]
    tauto
  · show (soWeOccl gen pro).testBit t = true ↔ _
    rw [soWeOccl_eq, koggeR_testBit 9 gen _, floodR .southWest 9 gen pro (pro &&& notHFile)]
    intro g u
    show (pro &&& shiftSouthWest g).testBit u = true ↔ _
    rw [Nat.testBit_and, Nat.testBit_and, testBit_notHFile, Bool.and_eq_true,
      shiftSouthWest_testBit]
    simp only [Bool.and_eq_true, decide_eq_true_eq]
    tauto
  · show (westOccl gen pro).testBit t = true ↔ _
    rw [westOccl_eq, koggeR_testBit 1 gen _, floodR .west 1 gen pro (pro &&& notHFile)]
    intro g u
    show (pro &&& shiftWest g).testBit u = true ↔ _
    rw [Nat.testBit_and, Nat.testBit_and, testBit_notHFile, Bool.and_eq_true,
      shiftWest_testBit]
    simp only [Bool.and_eq_true, decide_eq_true_eq]
    tauto
  · show (noWeOccl gen pro).testBit t = true ↔ _
    rw [noWeOccl_eq, koggeL_testBit 7 gen _ (and_lt_left _ _ hpro),
      floodL .northWest 7 gen pro (pro &&& notHFile)]
    intro g u
    show (pro &&& shiftNorthWest g).testBit u = true ↔ _
    rw [Nat.testBit_and, Nat.testBit_and, testBit_notHFile, Bool.and_eq_true,
      shiftNorthWest_testBit]
    simp only [Bool.and_eq_true, decide_eq_true_eq]
    tauto

theorem occlDir_subset (d : Direction) (gen pro t : Nat)
    (h : (occlDir d gen pro).testBit t = true) :
    gen.testBit t = true ∨ pro.testBit t = true := by
  cases d
  · exact nortOccl_subset gen pro t h
  · exact noEaOccl_subset gen pro t h
  · exact eastOccl_subset gen pro t h
  · exact soEaOccl_subset gen pro t h
  · exact soutOccl_subset gen pro t h
  · exact soWeOccl_subset gen pro t h
  · exact westOccl_subset gen pro t h
  · exact noWeOccl_subset gen pro t h

/-- C17: for all 64-bit masks `gen` and `pro` and each of the eight directions, the
three-step Kogge-Stone routine returns the same mask as the naive flood fill that repeats
`g <- g | (pro & shiftDir(g))` seven times from `g = gen`; consequently every bit of the
fill is a bit of `gen | pro`. -/
theorem C17_kogge_stone_equals_naive_fill (d : Direction) (gen pro : Nat)
    (hgen : gen < 2 ^ 64) (hpro : pro < 2 ^ 64) :
    occlDir d gen pro = floodFill d gen pro ∧
    (occlDir d gen pro) &&& (gen ||| pro) = occlDir d gen pro ∧
    occlDir d gen pro < 2 ^ 64 := by
  have hsub : (occlDir d gen pro) &&& (gen ||| pro) = occlDir d gen pro := by
    apply Nat.eq_of_testBit_eq
    intro t
    rw [Nat.testBit_and, Nat.testBit_or]
    cases h : (occlDir d gen pro).testBit t with
    | false => rfl
    | true =>
      rcases occlDir_subset d gen pro t h with h1 | h1 <;> simp [h1]
  refine ⟨occlDir_eq_floodFill d gen pro hpro, hsub, ?_⟩
  rw [← hsub]
  exact and_lt_right _ _ (or_lt _ _ hgen hpro)

theorem C17_kogge_stone_equals_naive_fill_witness :
    shl 1 0 < 2 ^ 64 ∧ bnot (shl 1 0 ||| shl 1 16) < 2 ^ 64 ∧
    (occlDir .north (shl 1 0) (bnot (shl 1 0 ||| shl 1 16)) =
      floodFill .north (shl 1 0) (bnot (shl 1 0 ||| shl 1 16)) ∧
    (occlDir .north (shl 1 0) (bnot (shl 1 0 ||| shl 1 16))) &&&
      (shl 1 0 ||| bnot (shl 1 0 ||| shl 1 16)) =
        occlDir .north (shl 1 0) (bnot (shl 1 0 ||| shl 1 16)) ∧
    occlDir .north (shl 1 0) (bnot (shl 1 0 ||| shl 1 16)) < 2 ^ 64) :=
  ⟨by decide, by decide,
    C17_kogge_stone_equals_naive_fill .north (shl 1 0) (bnot (shl 1 0 ||| shl 1 16))
      (by decide) (by decide)⟩


/-! ## Slides -/

theorem stepSq_iff_prev (d : Direction) (s t : Nat) (hs : s < 64) :
    stepSq d s = some t ↔
      t < 64 ∧ squareAt ((fileOf t : Int) - d.df) ((rankOf t : Int) - d.dr) = some s := by
  unfold stepSq
  rw [squareAt_eq, squareAt_eq]
  unfold fileOf rankOf
  cases d <;> simp only [Direction.df, Direction.dr] <;> omega

/-- A bit of a shifted mask, in terms of the step from the square before. -/
theorem shiftDir_step (d : Direction) (m : Nat) (hm : m < 2 ^ 64) (t : Nat) :
    (shiftDir d m).testBit t = true ↔
      ∃ s, s < 64 ∧ m.testBit s = true ∧ stepSq d s = some t := by
  constructor
  · intro h
    have ht := testBit_of_lt (shiftDir_lt d m hm) h
    obtain ⟨s, hs, hms⟩ := (shiftDir_prev d m hm t ht).1 h
    exact ⟨s, testBit_of_lt hm hms, hms, (stepSq_iff_prev d s t (testBit_of_lt hm hms)).2 ⟨ht, hs⟩⟩
  · rintro ⟨s, hs, hms, hst⟩
    have ht : t < 64 := by
      unfold stepSq at hst
      rw [squareAt_eq] at hst
      omega
    exact (shiftDir_prev d m hm t ht).2 ⟨s, ((stepSq_iff_prev d s t hs).1 hst).2, hms⟩

theorem mem_slide_zero (d : Direction) (occ s t : Nat) : t ∈ slide d occ 0 s ↔ t = s := by
  simp [slide]

theorem mem_slide_cons (d : Direction) (occ n s t : Nat) :
    t ∈ slide d occ (n + 1) s ↔
      t = s ∨ ∃ u, stepSq d s = some u ∧ occ.testBit u = false ∧ t ∈ slide d occ n u := by
  simp only [slide, List.mem_cons]
  cases hs : stepSq d s with
  | none => simp
  | some u =>
    cases ho : occ.testBit u with
    | false => simp [ho]
    | true => simp [ho]

theorem self_mem_slide (d : Direction) (occ n s : Nat) : s ∈ slide d occ n s := by
  cases n with
  | zero => exact (mem_slide_zero d occ s s).2 rfl
  | succ n => exact (mem_slide_cons d occ n s s).2 (Or.inl rfl)

/-- One more step of a slide is one more step at its far end. -/
theorem mem_slide_succ (d : Direction) (occ : Nat) (n : Nat) :
    ∀ s t, t ∈ slide d occ (n + 1) s ↔
      t ∈ slide d occ n s ∨
        ∃ v, v ∈ slide d occ n s ∧ stepSq d v = some t ∧ occ.testBit t = false := by
  induction n with
  | zero =>
    intro s t
    rw [mem_slide_cons]
    simp only [mem_slide_zero]
    constructor
    · rintro (h | ⟨u, hu, ho, rfl⟩)
      · exact Or.inl h
      · exact Or.inr ⟨s, rfl, hu, ho⟩
    · rintro (h | ⟨v, rfl, hv, ho⟩)
      · exact Or.inl h
      · exact Or.inr ⟨t, hv, ho, rfl⟩
  | succ n ih =>
    intro s t
    rw [mem_slide_cons d occ (n + 1) s t]
    constructor
    · rintro (h | ⟨u, hu, ho, ht⟩)
      · exact Or.inl (by rw [h]; exact self_mem_slide _ _ _ _)
      · rcases (ih u t).1 ht with h | ⟨v, hv, hvt, hto⟩
        · exact Or.inl ((mem_slide_cons d occ n s t).2 (Or.inr ⟨u, hu, ho, h⟩))
        · exact Or.inr ⟨v, (mem_slide_cons d occ n s v).2 (Or.inr ⟨u, hu, ho, hv⟩), hvt, hto⟩
    · rintro (h | ⟨v, hv, hvt, hto⟩)
      · rcases (mem_slide_cons d occ n s t).1 h with h | ⟨u, hu, ho, ht⟩
        · exact Or.inl h
        · exact Or.inr ⟨u, hu, ho, (ih u t).2 (Or.inl ht)⟩
      · rcases (mem_slide_cons d occ n s v).1 hv with h | ⟨u, hu, ho, hv'⟩
        · subst h
          exact Or.inr ⟨t, hvt, hto, self_mem_slide _ _ _ _⟩
        · exact Or.inr ⟨u, hu, ho, (ih u t).2 (Or.inr ⟨v, hv', hvt, hto⟩)⟩

theorem floodIter_lt (d : Direction) (gen pro : Nat) (hgen : gen < 2 ^ 64)
    (hpro : pro < 2 ^ 64) : ∀ n, floodIter d gen pro n < 2 ^ 64 := by
  intro n
  induction n with
  | zero => exact hgen
  | succ n ih => exact or_lt _ _ ih (and_lt_left _ _ hpro)

/-- The naive flood fill over the empty squares: its bits after `n` rounds are the
squares of the slides of at most `n` steps from the origins. -/
theorem floodIter_slide (d : Direction) (gen occ : Nat) (hgen : gen < 2 ^ 64)
    (hocc : occ < 2 ^ 64) :
    ∀ n t, (floodIter d gen (bnot occ) n).testBit t = true ↔
      ∃ s, s < 64 ∧ gen.testBit s = true ∧ t ∈ slide d occ n s := by
  intro n
  induction n with
  | zero =>
    intro t
    simp only [mem_slide_zero]
    constructor
    · intro h; exact ⟨t, testBit_of_lt hgen h, h, rfl⟩
    · rintro ⟨s, -, h, rfl⟩; exact h
  | succ n ih =>
    intro t
    have hlt := floodIter_lt d gen (bnot occ) hgen (bnot_lt occ hocc) n
    show (floodIter d gen (bnot occ) n |||
      (bnot occ &&& shiftDir d (floodIter d gen (bnot occ) n))).testBit t = true ↔ _
    rw [Nat.testBit_or, Bool.or_eq_true, Nat.testBit_and, Bool.and_eq_true,
      testBit_empty occ t hocc, shiftDir_step d _ hlt, ih t]
    constructor
    · rintro (⟨s, hs, hg, hm⟩ | ⟨⟨-, ho⟩, v, -, hv, hvt⟩)
      · exact ⟨s, hs, hg, (mem_slide_succ d occ n s t).2 (Or.inl hm)⟩
      · obtain ⟨s, hs, hg, hm⟩ := (ih v).1 hv
        exact ⟨s, hs, hg, (mem_slide_succ d occ n s t).2 (Or.inr ⟨v, hm, hvt, ho⟩)⟩
    · rintro ⟨s, hs, hg, hm⟩
      rcases (mem_slide_succ d occ n s t).1 hm with h | ⟨v, hv, hvt, ho⟩
      · exact Or.inl ⟨s, hs, hg, h⟩
      · have hgv := (ih v).2 ⟨s, hs, hg, hv⟩
        have ht : t < 64 := by
          unfold stepSq at hvt
          rw [squareAt_eq] at hvt
          omega
        exact Or.inr ⟨⟨ht, ho⟩, v, testBit_of_lt hlt hgv, hgv, hvt⟩

/-- C15 (counterexample): a slider on a1 with a3 occupied; the northward fill is a1 and
a2, and the first blocking square a3 is not part of it. -/
theorem C15_fill_excludes_first_blocker :
    occlDir .north (shl 1 0) (bnot (shl 1 0 ||| shl 1 16)) = shl 1 0 ||| shl 1 8 ∧
    (shl 1 0 ||| shl 1 16).testBit 16 = true ∧
    (occlDir .north (shl 1 0) (bnot (shl 1 0 ||| shl 1 16))).testBit 16 = false := by
  decide

/-- C15 (amended): for each of the eight directions, every 64-bit set `gen` of origin
squares and `pro` the complement of the 64-bit set `occ` of occupied squares, the
occluded-fill routine returns exactly the squares of the slides from the origins: the
origins themselves and every square reached from an origin by sliding in that direction
through empty squares.  An occupied square, the first blocking square included, belongs
to the fill only when it is itself an origin. -/
theorem C15_fill_is_origins_and_empty_run (d : Direction) (gen occ : Nat)
    (hgen : gen < 2 ^ 64) (hocc : occ < 2 ^ 64) (t : Nat) :
    ((occlDir d gen (bnot occ)).testBit t = true ↔
      ∃ s, s < 64 ∧ gen.testBit s = true ∧ t ∈ slide d occ 7 s) ∧
    (occ.testBit t = true →
      ((occlDir d gen (bnot occ)).testBit t = true ↔ gen.testBit t = true)) := by
  have hfill : (occlDir d gen (bnot occ)).testBit t = true ↔
      ∃ s, s < 64 ∧ gen.testBit s = true ∧ t ∈ slide d occ 7 s := by
    rw [occlDir_eq_floodFill d gen _ (bnot_lt occ hocc)]
    exact floodIter_slide d gen occ hgen hocc 7 t
  refine ⟨hfill, ?_⟩
  intro ho
  constructor
  · intro h
    rcases occlDir_subset d gen _ t h with h1 | h1
    · exact h1
    · rw [((testBit_empty occ t hocc).1 h1).2] at ho
      exact Bool.noConfusion ho
  · intro h
    exact hfill.2 ⟨t, testBit_of_lt hgen h, h, self_mem_slide _ _ _ _⟩

theorem C15_fill_is_origins_and_empty_run_witness :
    shl 1 0 < 2 ^ 64 ∧ shl 1 0 ||| shl 1 16 < 2 ^ 64 ∧
    (((occlDir .north (shl 1 0) (bnot (shl 1 0 ||| shl 1 16))).testBit 8 = true ↔
      ∃ s, s < 64 ∧ (shl 1 0).testBit s = true ∧
        8 ∈ slide .north (shl 1 0 ||| shl 1 16) 7 s) ∧
    ((shl 1 0 ||| shl 1 16).testBit 8 = true →
      ((occlDir .north (shl 1 0) (bnot (shl 1 0 ||| shl 1 16))).testBit 8 = true ↔
        (shl 1 0).testBit 8 = true))) :=
  ⟨by decide, by decide,
    C15_fill_is_origins_and_empty_run .north (shl 1 0) (shl 1 0 ||| shl 1 16)
      (by decide) (by decide) 8⟩

/-! ## Pawn moves -/

theorem testBit_rank2 (t : Nat) : rank2.testBit t = true ↔ 8 ≤ t ∧ t < 16 := by
  by_cases h : t < 64
  · have : ∀ j, j < 64 → (rank2.testBit j = true ↔ 8 ≤ j ∧ j < 16) := by decide
    exact this t h
  · have h1 : rank2 < 2 ^ t :=
      lt_of_lt_of_le (by decide : rank2 < 2 ^ 64) (Nat.pow_le_pow_right (by decide) (by omega))
    rw [Nat.testBit_lt_two_pow h1]
    constructor
    · intro e; exact Bool.noConfusion e
    · intro e; omega

theorem testBit_rank7 (t : Nat) : rank7.testBit t = true ↔ 48 ≤ t ∧ t < 56 := by
  by_cases h : t < 64
  · have : ∀ j, j < 64 → (rank7.testBit j = true ↔ 48 ≤ j ∧ j < 56) := by decide
    exact this t h
  · have h1 : rank7 < 2 ^ t :=
      lt_of_lt_of_le (by decide : rank7 < 2 ^ 64) (Nat.pow_le_pow_right (by decide) (by omega))
    rw [Nat.testBit_lt_two_pow h1]
    constructor
    · intro e; exact Bool.noConfusion e
    · intro e; omega

/-- The three shifts `<< 40`, `>> 56`, `<< 16` keep the bits of the third rank. -/
theorem testBit_thirdRank (m t : Nat) :
    (shl (shr (shl m 40) 56) 16).testBit t = true ↔ 16 ≤ t ∧ t < 24 ∧ m.testBit t = true := by
  rw [testBit_shl, testBit_shr, testBit_shl]
  simp only [Bool.and_eq_true, decide_eq_true_eq]
  constructor
  · rintro ⟨h1, h2, h3, h4, h5⟩
    rw [show t - 16 + 56 - 40 = t by omega] at h5
    exact ⟨h2, by omega, h5⟩
  · rintro ⟨h1, h2, h3⟩
    refine ⟨by omega, h1, by omega, by omega, ?_⟩
    rw [show t - 16 + 56 - 40 = t by omega]
    exact h3

/-- The three shifts `<< 16`, `>> 56`, `<< 40` keep the bits of the sixth rank. -/
theorem testBit_sixthRank (m t : Nat) :
    (shl (shr (shl m 16) 56) 40).testBit t = true ↔ 40 ≤ t ∧ t < 48 ∧ m.testBit t = true := by
  rw [testBit_shl, testBit_shr, testBit_shl]
  simp only [Bool.and_eq_true, decide_eq_true_eq]
  constructor
  · rintro ⟨h1, h2, h3, h4, h5⟩
    rw [show t - 40 + 56 - 16 = t by omega] at h5
    exact ⟨h2, by omega, h5⟩
  · rintro ⟨h1, h2, h3⟩
    refine ⟨by omega, h1, by omega, by omega, ?_⟩
    rw [show t - 40 + 56 - 16 = t by omega]
    exact h3

/-- The double step of the white pawns, bit by bit. -/
theorem whiteDouble_testBit (P E t : Nat) :
    (shiftNorth (shiftNorth (P &&& rank2) &&& E) &&& E).testBit t = true ↔
      24 ≤ t ∧ t < 32 ∧ P.testBit (t - 16) = true ∧ E.testBit (t - 8) = true ∧
        E.testBit t = true := by
  simp only [Nat.testBit_and, Bool.and_eq_true, shiftNorth_testBit, testBit_rank2]
  constructor
  · rintro ⟨⟨h1, h2, ⟨h3, h4, h5, h6⟩, h7⟩, h8⟩
    rw [show t - 8 - 8 = t - 16 by omega] at h5 h6
    exact ⟨by omega, by omega, h5, h7, h8⟩
  · rintro ⟨h1, h2, h3, h4, h5⟩
    refine ⟨⟨by omega, by omega, ⟨by omega, by omega, ?_, ?_⟩, h4⟩, h5⟩
    · rw [show t - 8 - 8 = t - 16 by omega]; exact h3
    · rw [show t - 8 - 8 = t - 16 by omega]; omega

/-- The double step of the black pawns, bit by bit. -/
theorem blackDouble_testBit (P E t : Nat) :
    (shiftSouth (shiftSouth (P &&& rank7) &&& E) &&& E).testBit t = true ↔
      32 ≤ t ∧ t < 40 ∧ P.testBit (t + 16) = true ∧ E.testBit (t + 8) = true ∧
        E.testBit t = true := by
  simp only [Nat.testBit_and, Bool.and_eq_true, shiftSouth_testBit, testBit_rank7]
  rw [show t + 8 + 8 = t + 16 by omega]
  constructor
  · rintro ⟨⟨⟨h5, h6⟩, h7⟩, h8⟩
    exact ⟨by omega, by omega, h5, h7, h8⟩
  · rintro ⟨h1, h2, h3, h4, h5⟩
    exact ⟨⟨⟨h3, by omega⟩, h4⟩, h5⟩

theorem getPawnMovesWhite_eq (b : BitbArray) :
    getPawnMovesWhite b =
      ((shiftNorthEast (b.pawn &&& b.white) ||| shiftNorthWest (b.pawn &&& b.white)) &&&
        b.black) |||
      (shiftNorth (b.pawn &&& b.white) &&& bnot b.all) |||
      (shiftNorth (shiftNorth (b.pawn &&& b.white &&& rank2) &&& bnot b.all) &&&
        bnot b.all) := by
  apply Nat.eq_of_testBit_eq
  intro t
  rw [Bool.eq_iff_iff]
  show ((shiftNorthEast (b.pawn &&& b.white) ||| shiftNorthWest (b.pawn &&& b.white)) &&&
      b.black |||
    (shiftNorth (b.pawn &&& b.white) &&& bnot b.all |||
      shiftNorth (shl (shr (shl (shiftNorth (b.pawn &&& b.white) &&& bnot b.all) 40) 56) 16))
        &&& bnot b.all).testBit t = true ↔ _
  generalize shiftNorthEast (b.pawn &&& b.white) ||| shiftNorthWest (b.pawn &&& b.white) = A
  generalize b.pawn &&& b.white = P
  simp only [Nat.testBit_or, Nat.testBit_and, Bool.or_eq_true, Bool.and_eq_true,
    shiftNorth_testBit, testBit_thirdRank, testBit_rank2]
  constructor
  · rintro (h | ⟨(h | ⟨h1, h2, h3, h4, ⟨h5, h6, h7⟩, h8⟩), h9⟩)
    · exact Or.inl (Or.inl h)
    · exact Or.inl (Or.inr h)
    · exact Or.inr ⟨⟨h1, h2, ⟨h5, h6, h7, by omega, by omega⟩, h8⟩, h9⟩
  · rintro ((h | h) | ⟨⟨h1, h2, ⟨h5, h6, h7, h71, h72⟩, h8⟩, h9⟩)
    · exact Or.inl h
    · exact Or.inr ⟨Or.inl h, h.2⟩
    · exact Or.inr ⟨Or.inr ⟨h1, h2, by omega, by omega, ⟨h5, h6, h7⟩, h8⟩, h9⟩

theorem getPawnMovesBlack_eq (b : BitbArray) :
    getPawnMovesBlack b =
      ((shiftSouthEast (b.pawn &&& b.black) ||| shiftSouthWest (b.pawn &&& b.black)) &&&
        b.white) |||
      (shiftSouth (b.pawn &&& b.black) &&& bnot b.all) |||
      (shiftSouth (shiftSouth (b.pawn &&& b.black &&& rank7) &&& bnot b.all) &&&
        bnot b.all) := by
  rw [Nat.lor_comm (shiftSouthEast _)]
  apply Nat.eq_of_testBit_eq
  intro t
  rw [Bool.eq_iff_iff]
  show ((shiftSouthWest (b.pawn &&& b.black) ||| shiftSouthEast (b.pawn &&& b.black)) &&&
      b.white |||
    (shiftSouth (b.pawn &&& b.black) &&& bnot b.all |||
      shiftSouth (shl (shr (shl (shiftSouth (b.pawn &&& b.black) &&& bnot b.all) 16) 56) 40))
        &&& bnot b.all).testBit t = true ↔ _
  generalize shiftSouthWest (b.pawn &&& b.black) ||| shiftSouthEast (b.pawn &&& b.black) = A
  generalize b.pawn &&& b.black = P
  simp only [Nat.testBit_or, Nat.testBit_and, Bool.or_eq_true, Bool.and_eq_true,
    shiftSouth_testBit, testBit_sixthRank, testBit_rank7]
  constructor
  · rintro (h | ⟨(h | ⟨h1, h2, h3, h4⟩), h9⟩)
    · exact Or.inl (Or.inl h)
    · exact Or.inl (Or.inr h)
    · exact Or.inr ⟨⟨⟨h3, by omega, by omega⟩, h4⟩, h9⟩
  · rintro ((h | h) | ⟨⟨⟨h3, h31, h32⟩, h4⟩, h9⟩)
    · exact Or.inl h
    · exact Or.inr ⟨Or.inl h, h.2⟩
    · exact Or.inr ⟨Or.inr ⟨by omega, by omega, h3, h4⟩, h9⟩

/-- C18: for every bitboard set, `getPawnMoves` for White is
`((NE(P) | NW(P)) & Black) | (N(P) & E) | (N(N(P & rank2) & E) & E)` with `P = Pawn & White`
and `E = ~AllPieces`, and symmetrically for Black with the south shifts, the White mask
as capture targets and the seventh rank as home rank.  Hence a double step arrives on
the square two ranks ahead of a pawn of the home rank, and only when the intermediate
and the destination square are both empty. -/
theorem C18_pawn_moves_formula (b : BitbArray) :
    getPawnMoves b .nWhite =
      (((shiftNorthEast (b.pawn &&& b.white) ||| shiftNorthWest (b.pawn &&& b.white)) &&&
        b.black) |||
      (shiftNorth (b.pawn &&& b.white) &&& bnot b.all) |||
      (shiftNorth (shiftNorth (b.pawn &&& b.white &&& rank2) &&& bnot b.all) &&&
        bnot b.all)) ∧
    getPawnMoves b .nBlack =
      (((shiftSouthEast (b.pawn &&& b.black) ||| shiftSouthWest (b.pawn &&& b.black)) &&&
        b.white) |||
      (shiftSouth (b.pawn &&& b.black) &&& bnot b.all) |||
      (shiftSouth (shiftSouth (b.pawn &&& b.black &&& rank7) &&& bnot b.all) &&&
        bnot b.all)) ∧
    (∀ t, (shiftNorth (shiftNorth (b.pawn &&& b.white &&& rank2) &&& bnot b.all) &&&
        bnot b.all).testBit t = true ↔
      rankOf t = 3 ∧ (b.pawn &&& b.white).testBit (t - 16) = true ∧
        b.all.testBit (t - 8) = false ∧ b.all.testBit t = false) ∧
    (∀ t, (shiftSouth (shiftSouth (b.pawn &&& b.black &&& rank7) &&& bnot b.all) &&&
        bnot b.all).testBit t = true ↔
      rankOf t = 4 ∧ (b.pawn &&& b.black).testBit (t + 16) = true ∧
        b.all.testBit (t + 8) = false ∧ b.all.testBit t = false) := by
  refine ⟨getPawnMovesWhite_eq b, getPawnMovesBlack_eq b, ?_, ?_⟩
  · intro t
    rw [whiteDouble_testBit, testBit_bnot, testBit_bnot]
    unfold rankOf
    constructor
    · rintro ⟨h1, h2, h3, h4, h5⟩
      have e1 : decide (t - 8 < 64) = true := decide_eq_true (by omega)
      have e2 : decide (t < 64) = true := decide_eq_true (by omega)
      rw [e1] at h4
      rw [e2] at h5
      exact ⟨by omega, h3, by simpa using h4, by simpa using h5⟩
    · rintro ⟨h1, h3, h4, h5⟩
      have e1 : decide (t - 8 < 64) = true := decide_eq_true (by omega)
      have e2 : decide (t < 64) = true := decide_eq_true (by omega)
      rw [e1, e2, h4, h5]
      exact ⟨by omega, by omega, h3, rfl, rfl⟩
  · intro t
    rw [blackDouble_testBit, testBit_bnot, testBit_bnot]
    unfold rankOf
    constructor
    · rintro ⟨h1, h2, h3, h4, h5⟩
      have e1 : decide (t + 8 < 64) = true := decide_eq_true (by omega)
      have e2 : decide (t < 64) = true := decide_eq_true (by omega)
      rw [e1] at h4
      rw [e2] at h5
      exact ⟨by omega, h3, by simpa using h4, by simpa using h5⟩
    · rintro ⟨h1, h3, h4, h5⟩
      have e1 : decide (t + 8 < 64) = true := decide_eq_true (by omega)
      have e2 : decide (t < 64) = true := decide_eq_true (by omega)
      rw [e1, e2, h4, h5]
      exact ⟨by omega, by omega, h3, rfl, rfl⟩

/-! ## Knight moves -/

theorem knight_bits (K t : Nat) (hK : K < 2 ^ 64) :
    (shiftNorthWest (shiftWest K) ||| shiftNorthWest (shiftNorth K) |||
      shiftNorthEast (shiftNorth K) ||| shiftNorthEast (shiftEast K) |||
      shiftSouthEast (shiftEast K) ||| shiftSouthEast (shiftSouth K) |||
      shiftSouthWest (shiftSouth K) ||| shiftSouthWest (shiftWest K)).testBit t = true ↔
      t < 64 ∧ ∃ s, s < 64 ∧ K.testBit s = true ∧ knightJump s t := by
  simp only [Nat.testBit_or, Bool.or_eq_true, shiftNorthWest_testBit, shiftNorthEast_testBit,
    shiftSouthWest_testBit, shiftSouthEast_testBit, shiftNorth_testBit, shiftSouth_testBit,
    shiftEast_testBit, shiftWest_testBit]
  unfold knightJump absDiff fileOf rankOf
  constructor
  · rintro (((((((h | h) | h) | h) | h) | h) | h) | h)
    · obtain ⟨h64, h7, ⟨hk, -, hf1⟩, hf2⟩ := h
      exact ⟨h64, t - 7 + 1, by omega, hk, by omega⟩
    · obtain ⟨h64, h7, ⟨-, h8, hk⟩, hf⟩ := h
      exact ⟨h64, t - 7 - 8, by omega, hk, by omega⟩
    · obtain ⟨h64, h9, ⟨-, h8, hk⟩, hf⟩ := h
      exact ⟨h64, t - 9 - 8, by omega, hk, by omega⟩
    · obtain ⟨h64, h9, ⟨-, h1, hk, hf1⟩, hf2⟩ := h
      exact ⟨h64, t - 9 - 1, by omega, hk, by omega⟩
    · obtain ⟨⟨h1, -, hk, hf1⟩, h64, hf2⟩ := h
      exact ⟨h64, t + 7 - 1, by omega, hk, by omega⟩
    · obtain ⟨hk, h64, hf⟩ := h
      have := testBit_of_lt hK hk
      exact ⟨h64, t + 7 + 8, this, hk, by omega⟩
    · obtain ⟨hk, h64, hf⟩ := h
      have := testBit_of_lt hK hk
      exact ⟨h64, t + 9 + 8, this, hk, by omega⟩
    · obtain ⟨⟨hk, h1, hf1⟩, h64, hf2⟩ := h
      exact ⟨h64, t + 9 + 1, by omega, hk, by omega⟩
  · rintro ⟨h64, s, hs, hk, hj⟩
    rcases hj with ⟨h1, h2⟩ | ⟨h1, h2⟩
    · have hf : t % 8 = s % 8 + 1 ∨ s % 8 = t % 8 + 1 := by omega
      have hr : t / 8 = s / 8 + 2 ∨ s / 8 = t / 8 + 2 := by omega
      rcases hf with hf | hf <;> rcases hr with hr | hr
      · have e : s = t - 9 - 8 := by omega
        subst e
        exact Or.inl (Or.inl (Or.inl (Or.inl (Or.inl (Or.inr
          ⟨h64, by omega, ⟨by omega, by omega, hk⟩, by omega⟩)))))
      · have e : s = t + 7 + 8 := by omega
        subst e
        exact Or.inl (Or.inl (Or.inr ⟨hk, h64, by omega⟩))
      · have e : s = t - 7 - 8 := by omega
        subst e
        exact Or.inl (Or.inl (Or.inl (Or.inl (Or.inl (Or.inl (Or.inr
          ⟨h64, by omega, ⟨by omega, by omega, hk⟩, by omega⟩))))))
      · have e : s = t + 9 + 8 := by omega
        subst e
        exact Or.inl (Or.inr ⟨hk, h64, by omega⟩)
    · have hf : t % 8 = s % 8 + 2 ∨ s % 8 = t % 8 + 2 := by omega
      have hr : t / 8 = s / 8 + 1 ∨ s / 8 = t / 8 + 1 := by omega
      rcases hf with hf | hf <;> rcases hr with hr | hr
      · have e : s = t - 9 - 1 := by omega
        subst e
        exact Or.inl (Or.inl (Or.inl (Or.inl (Or.inr
          ⟨h64, by omega, ⟨by omega, by omega, hk, by omega⟩, by omega⟩))))
      · have e : s = t + 7 - 1 := by omega
        subst e
        exact Or.inl (Or.inl (Or.inl (Or.inr ⟨⟨by omega, by omega, hk, by omega⟩, h64, by omega⟩)))
      · have e : s = t - 7 + 1 := by omega
        subst e
        exact Or.inl (Or.inl (Or.inl (Or.inl (Or.inl (Or.inl (Or.inl
          ⟨h64, by omega, ⟨hk, by omega, by omega⟩, by omega⟩))))))
      · have e : s = t + 9 + 1 := by omega
        subst e
        exact Or.inr ⟨⟨hk, by omega, by omega⟩, h64, by omega⟩

/-- C19: for every bitboard set of 64-bit masks and colour `c` in White, Black,
`getKnightMoves(b, c)` is exactly the set of on-board squares `t` not occupied by colour
`c` for which some knight `s` of colour `c` has file distance and rank distance 1 and 2
in some order; no destination arises from wrapping across a file or rank edge. -/
theorem C19_knight_moves_exact (b : BitbArray) (hb : b.WF) (c : enumColor)
    (hc : c = .nWhite ∨ c = .nBlack) (t : Nat) :
    (getKnightMoves b c).testBit t = true ↔
      t < 64 ∧ (b.color c).testBit t = false ∧
        ∃ s, s < 64 ∧ (b.knight &&& b.color c).testBit s = true ∧ knightJump s t := by
  have hK : b.knight &&& b.color c < 2 ^ 64 := and_lt_right _ _ (hb.color_lt c)
  have hm : getKnightMoves b c = getKnightMovesOne b c := by
    rcases hc with rfl | rfl <;> rfl
  rw [hm]
  show ((shiftNorthWest (shiftWest (b.knight &&& b.color c)) |||
      shiftNorthWest (shiftNorth (b.knight &&& b.color c)) |||
      shiftNorthEast (shiftNorth (b.knight &&& b.color c)) |||
      shiftNorthEast (shiftEast (b.knight &&& b.color c)) |||
      shiftSouthEast (shiftEast (b.knight &&& b.color c)) |||
      shiftSouthEast (shiftSouth (b.knight &&& b.color c)) |||
      shiftSouthWest (shiftSouth (b.knight &&& b.color c)) |||
      shiftSouthWest (shiftWest (b.knight &&& b.color c))) &&&
        bnot (b.color c)).testBit t = true ↔ _
  rw [Nat.testBit_and, Bool.and_eq_true, knight_bits _ t hK,
    testBit_empty _ t (hb.color_lt c)]
  tauto

theorem C19_knight_moves_exact_witness :
    Bitboard.standard.WF ∧ (enumColor.nWhite = .nWhite ∨ enumColor.nWhite = .nBlack) ∧
    ((getKnightMoves Bitboard.standard .nWhite).testBit 16 = true ↔
      16 < 64 ∧ (Bitboard.standard.color .nWhite).testBit 16 = false ∧
        ∃ s, s < 64 ∧
          (Bitboard.standard.knight &&& Bitboard.standard.color .nWhite).testBit s = true ∧
          knightJump s 16) :=
  ⟨by decide, Or.inl rfl,
    C19_knight_moves_exact Bitboard.standard (by decide) .nWhite (Or.inl rfl) 16⟩

/-! ## The order of the move list -/

theorem flatMap_congr_mem {α β : Type} (l : List α) (f g : α → List β)
    (h : ∀ x, x ∈ l → f x = g x) : l.flatMap f = l.flatMap g := by
  induction l with
  | nil => rfl
  | cons a l ih =>
    rw [List.flatMap_cons, List.flatMap_cons, h a (List.mem_cons_self _ _),
      ih (fun x hx => h x (List.mem_cons_of_mem _ hx))]

theorem squaresOf_zero : squaresOf 0 = [] := by
  unfold squaresOf
  rw [List.filter_eq_nil_iff]
  intro a _
  simp

/-- The squares of a mask are listed in increasing order. -/
theorem squaresOf_sorted (x : Nat) : (squaresOf x).Pairwise (fun a b => a < b) :=
  List.Pairwise.sublist (List.filter_sublist _) (List.pairwise_lt_range 64)

/-- When the destinations of a pawn are all off the first and eighth ranks, or all on
the eighth rank, or all on the first rank, the promotions followed by the plain moves
are the moves of the destinations in increasing order. -/
theorem promotions_then_plain (G i : Nat)
    (h : (∀ t, G.testBit t = true → rankOf t ≠ 0 ∧ rankOf t ≠ 7) ∨
      (∀ t, G.testBit t = true → t < 64 ∧ rankOf t = 7) ∨
      (∀ t, G.testBit t = true → rankOf t = 0)) :
    (squaresOf (G &&& rank8) ++ squaresOf (G &&& rank1)).flatMap (promotionsTo (shl 1 i)) ++
      plainMoves i (G ^^^ (G &&& rank8) ^^^ (G &&& rank1)) =
    (squaresOf G).flatMap (movesTo .nPawn i) := by
  rcases h with h | h | h
  · have e8 : G &&& rank8 = 0 := and_eq_zero_of_testBit _ _ (fun t ht => by
      cases hr : rank8.testBit t with
      | false => rfl
      | true => exact absurd ((testBit_rank8 t).1 hr).2 (h t ht).2)
    have e1 : G &&& rank1 = 0 := and_eq_zero_of_testBit _ _ (fun t ht => by
      cases hr : rank1.testBit t with
      | false => rfl
      | true => exact absurd ((testBit_rank1 t).1 hr) (h t ht).1)
    rw [e8, e1, Nat.xor_zero, Nat.xor_zero, squaresOf_zero, List.append_nil,
      List.flatMap_nil, List.nil_append]
    unfold plainMoves
    apply flatMap_congr_mem
    intro j hj
    have hb := ((mem_squaresOf G j).1 hj).2
    unfold movesTo
    rw [if_neg]
    rintro ⟨-, h7 | h0⟩
    · exact (h j hb).2 h7
    · exact (h j hb).1 h0
  · have e8 : G &&& rank8 = G := by
      apply Nat.eq_of_testBit_eq
      intro t
      rw [Nat.testBit_and]
      cases ht : G.testBit t with
      | false => rfl
      | true =>
        have := (testBit_rank8 t).2 (h t ht)
        rw [this]; rfl
    have e1 : G &&& rank1 = 0 := and_eq_zero_of_testBit _ _ (fun t ht => by
      cases hr : rank1.testBit t with
      | false => rfl
      | true =>
        have := (testBit_rank1 t).1 hr
        have := (h t ht).2
        omega)
    rw [e8, e1, Nat.xor_self, Nat.xor_zero, squaresOf_zero, List.append_nil]
    unfold plainMoves
    rw [squaresOf_zero, List.flatMap_nil, List.append_nil]
    apply flatMap_congr_mem
    intro j hj
    have hb := ((mem_squaresOf G j).1 hj).2
    unfold movesTo
    rw [if_pos ⟨rfl, Or.inl (h j hb).2⟩]
  · have e1 : G &&& rank1 = G := by
      apply Nat.eq_of_testBit_eq
      intro t
      rw [Nat.testBit_and]
      cases ht : G.testBit t with
      | false => rfl
      | true =>
        have := (testBit_rank1 t).2 (h t ht)
        rw [this]; rfl
    have e8 : G &&& rank8 = 0 := and_eq_zero_of_testBit _ _ (fun t ht => by
      cases hr : rank8.testBit t with
      | false => rfl
      | true =>
        have := ((testBit_rank8 t).1 hr).2
        have := h t ht
        omega)
    rw [e8, e1, Nat.xor_zero, Nat.xor_self, squaresOf_zero, List.nil_append]
    unfold plainMoves
    rw [squaresOf_zero, List.flatMap_nil, List.append_nil]
    apply flatMap_congr_mem
    intro j hj
    have hb := ((mem_squaresOf G j).1 hj).2
    unfold movesTo
    rw [if_pos ⟨rfl, Or.inr (h j hb)⟩]

/-- The destinations of a single white pawn on square `i`. -/
theorem whitePawn_dest (b : BitbArray) (i t : Nat)
    (h : (getPawnMovesWhite (b.setPiece .nPawn (shl 1 i))).testBit t = true) :
    t < 64 ∧ (t = i + 9 ∧ t % 8 ≠ 0 ∨ t = i + 7 ∧ t % 8 ≠ 7 ∨ t = i + 8 ∨
      (t = i + 16 ∧ t < 32)) := by
  rw [getPawnMovesWhite_eq] at h
  have hp : (b.setPiece .nPawn (shl 1 i)).pawn = shl 1 i := rfl
  rw [hp] at h
  simp only [Nat.testBit_or, Nat.testBit_and, Bool.or_eq_true, Bool.and_eq_true,
    shiftNorthEast_testBit, shiftNorthWest_testBit, shiftNorth_testBit, testBit_rank2,
    testBit_shl_one] at h
  omega

/-- The destinations of a single black pawn on square `i`. -/
theorem blackPawn_dest (b : BitbArray) (i t : Nat)
    (h : (getPawnMovesBlack (b.setPiece .nPawn (shl 1 i))).testBit t = true) :
    t < 64 ∧ i < 64 ∧ (i = t + 7 ∧ t % 8 ≠ 0 ∨ i = t + 9 ∧ t % 8 ≠ 7 ∨ i = t + 8 ∨
      (i = t + 16 ∧ 32 ≤ t)) := by
  rw [getPawnMovesBlack_eq] at h
  have hp : (b.setPiece .nPawn (shl 1 i)).pawn = shl 1 i := rfl
  rw [hp] at h
  simp only [Nat.testBit_or, Nat.testBit_and, Bool.or_eq_true, Bool.and_eq_true,
    shiftSouthEast_testBit, shiftSouthWest_testBit, shiftSouth_testBit, testBit_rank7,
    testBit_shl_one] at h
  omega


/-- The moves of one origin square are the moves of its destinations in increasing
order of the destination square. -/
theorem originMoves_ordered (b : BitbArray) (c : enumColor)
    (hc : c = .nWhite ∨ c = .nBlack) (k : enumType) (i : Nat) :
    originMoves b c k i =
      (squaresOf (generatorOf k (b.setPiece k (shl 1 i)) c)).flatMap (movesTo k i) := by
  by_cases hk : k = .nPawn
  · subst hk
    rewrite [originMoves_pawn]
    show _ = (squaresOf (getPawnMoves (b.setPiece .nPawn (shl 1 i)) c)).flatMap
      (movesTo .nPawn i)
    apply promotions_then_plain
    rcases hc with rfl | rfl
    · by_cases hi : 48 ≤ i
      · right; left
        intro t ht
        have := whitePawn_dest b i t ht
        unfold rankOf
        omega
      · left
        intro t ht
        have := whitePawn_dest b i t ht
        unfold rankOf
        omega
    · by_cases hi : i < 16
      · right; right
        intro t ht
        have := blackPawn_dest b i t ht
        unfold rankOf
        omega
      · left
        intro t ht
        have := blackPawn_dest b i t ht
        unfold rankOf
        omega
  · rewrite [originMoves_other b c k i hk]
    unfold plainMoves
    apply flatMap_congr_mem
    intro j _
    unfold movesTo
    rw [if_neg (fun h => hk h.1)]

theorem moveList_eq_orderedMoves (b : BitbArray) (c : enumColor)
    (hc : c = .nWhite ∨ c = .nBlack) : moveList b c = orderedMoves b c := by
  unfold moveList orderedMoves
  apply flatMap_congr_mem
  intro k _
  unfold typeMoves
  apply flatMap_congr_mem
  intro i _
  exact originMoves_ordered b c hc k i

/-- C20: for every bitboard set of 64-bit masks and colour in White, Black,
`getPseudoLegalMoves` returns the list ordered by the piece type of the moving piece in
the order pawn, knight, bishop, rook, queen, king; within one piece type by increasing
origin square; within one origin square by increasing destination square, the four
promotion variants of one destination staying adjacent in the order n, b, r, q. -/
theorem C20_move_list_order (b : BitbArray) (hb : b.WF) (c : enumColor)
    (hc : c = .nWhite ∨ c = .nBlack) :
    getPseudoLegalMoves b c = some (orderedMoves b c) ∧
    pieceTypes = [.nPawn, .nKnight, .nBishop, .nRook, .nQueen, .nKing] ∧
    (∀ x : Nat, (squaresOf x).Pairwise (fun i j => i < j)) ∧
    (∀ i j : Nat, movesTo .nPawn i 56 = promotionsTo (shl 1 i) 56 ∧
      promotionsTo (shl 1 i) j =
        [moveName (shl 1 i) (shl 1 j) ++ "n", moveName (shl 1 i) (shl 1 j) ++ "b",
          moveName (shl 1 i) (shl 1 j) ++ "r", moveName (shl 1 i) (shl 1 j) ++ "q"]) := by
  refine ⟨?_, rfl, squaresOf_sorted, fun i j => ⟨rfl, rfl⟩⟩
  rcases hc with rfl | rfl
  · rewrite [getPseudoLegalMoves_white b hb, moveList_eq_orderedMoves b _ (Or.inl rfl)]
    exact Eq.refl _
  · rewrite [getPseudoLegalMoves_black b hb, moveList_eq_orderedMoves b _ (Or.inr rfl)]
    exact Eq.refl _

theorem C20_move_list_order_witness :
    (lonePawnOnSeventh 0).WF ∧ (enumColor.nWhite = .nWhite ∨ enumColor.nWhite = .nBlack) ∧
    (getPseudoLegalMoves (lonePawnOnSeventh 0) .nWhite =
      some (orderedMoves (lonePawnOnSeventh 0) .nWhite) ∧
    pieceTypes = [.nPawn, .nKnight, .nBishop, .nRook, .nQueen, .nKing] ∧
    (∀ x : Nat, (squaresOf x).Pairwise (fun i j => i < j)) ∧
    (∀ i j : Nat, movesTo .nPawn i 56 = promotionsTo (shl 1 i) 56 ∧
      promotionsTo (shl 1 i) j =
        [moveName (shl 1 i) (shl 1 j) ++ "n", moveName (shl 1 i) (shl 1 j) ++ "b",
          moveName (shl 1 i) (shl 1 j) ++ "r", moveName (shl 1 i) (shl 1 j) ++ "q"])) :=
  ⟨by decide, Or.inl rfl, C20_move_list_order (lonePawnOnSeventh 0) (by decide) .nWhite (Or.inl rfl)⟩

/-! ## Malformed descriptions -/

/-- A move string determines its origin square, its destination square and its
promotion letter. -/
theorem move_name_inj (i j i' j' : Nat) (s s' : String) (hi : i < 64) (hj : j < 64)
    (hi' : i' < 64) (hj' : j' < 64)
    (h : moveName (shl 1 i) (shl 1 j) ++ s = moveName (shl 1 i') (shl 1 j') ++ s') :
    i = i' ∧ j = j' ∧ s = s' := by
  rw [moveName_shl _ j hj, moveName_shl _ j' hj', posToStr_shl i hi, posToStr_shl i' hi'] at h
  have hd := congrArg String.data h
  simp only [String.data_append, List.append_assoc] at hd
  have h1 := List.append_inj hd (by rw [sqName_length i hi, sqName_length i' hi'])
  have h2 := List.append_inj h1.2 (by rw [sqName_length j hj, sqName_length j' hj'])
  exact ⟨sqName_inj i hi i' hi' (String.ext h1.1), sqName_inj j hj j' hj' (String.ext h2.1),
    String.ext h2.2⟩

theorem mem_movesTo (k : enumType) (i j : Nat) (x : String) (h : x ∈ movesTo k i j) :
    ∃ s, x = moveName (shl 1 i) (shl 1 j) ++ s := by
  unfold movesTo at h
  split_ifs at h
  · rw [promotionsTo_eq, List.mem_map] at h
    obtain ⟨s, -, hs⟩ := h
    exact ⟨s, hs.symm⟩
  · rw [List.mem_singleton] at h
    exact ⟨"", by rw [h, String.append_empty]⟩

theorem nodup_movesTo (k : enumType) (i j : Nat) : (movesTo k i j).Nodup := by
  unfold movesTo
  split_ifs
  · rw [promotionsTo_eq]
    apply List.Nodup.map_on
    · intro s _ s' _ h
      have hd := congrArg String.data h
      simp only [String.data_append] at hd
      exact String.ext (List.append_cancel_left hd)
    · decide
  · exact List.nodup_singleton _

/-- A move of the list names an origin square of the colour and a destination. -/
theorem mem_orderedMoves (b : BitbArray) (c : enumColor) (x : String)
    (h : x ∈ orderedMoves b c) :
    ∃ k i j s, i < 64 ∧ (b.piece k &&& b.color c).testBit i = true ∧ j < 64 ∧
      x = moveName (shl 1 i) (shl 1 j) ++ s := by
  unfold orderedMoves at h
  simp only [List.mem_flatMap] at h
  obtain ⟨k, -, i, hi, j, hj, hx⟩ := h
  obtain ⟨s, hs⟩ := mem_movesTo k i j x hx
  exact ⟨k, i, j, s, ((mem_squaresOf _ i).1 hi).1, ((mem_squaresOf _ i).1 hi).2,
    ((mem_squaresOf _ j).1 hj).1, hs⟩

theorem nodup_orderedMoves (b : BitbArray) (c : enumColor)
    (htypes : ∀ k k' : enumType, k ≠ k' → b.piece k &&& b.piece k' = 0) :
    (orderedMoves b c).Nodup := by
  unfold orderedMoves
  rw [List.nodup_flatMap]
  constructor
  · intro k _
    rw [List.nodup_flatMap]
    constructor
    · intro i hi
      rw [List.nodup_flatMap]
      constructor
      · intro j _
        exact nodup_movesTo k i j
      · apply List.Nodup.pairwise_of_forall_ne (nodup_squaresOf _)
        intro j hj j' hj' hne
        intro x hx hx'
        obtain ⟨s, hs⟩ := mem_movesTo k i j x hx
        obtain ⟨s', hs'⟩ := mem_movesTo k i j' x hx'
        have h64 := ((mem_squaresOf _ i).1 hi).1
        exact hne (move_name_inj i j i j' s s' h64 ((mem_squaresOf _ j).1 hj).1 h64
          ((mem_squaresOf _ j').1 hj').1 (hs ▸ hs')).2.1
    · apply List.Nodup.pairwise_of_forall_ne (nodup_squaresOf _)
      intro i hi i' hi' hne
      intro x hx hx'
      rw [List.mem_flatMap] at hx hx'
      obtain ⟨j, hj, hxj⟩ := hx
      obtain ⟨j', hj', hxj'⟩ := hx'
      obtain ⟨s, hs⟩ := mem_movesTo k i j x hxj
      obtain ⟨s', hs'⟩ := mem_movesTo k i' j' x hxj'
      exact hne (move_name_inj i j i' j' s s' ((mem_squaresOf _ i).1 hi).1
        ((mem_squaresOf _ j).1 hj).1 ((mem_squaresOf _ i').1 hi').1
        ((mem_squaresOf _ j').1 hj').1 (hs ▸ hs')).1
  · apply List.Nodup.pairwise_of_forall_ne (by decide : pieceTypes.Nodup)
    intro k _ k' _ hne
    intro x hx hx'
    simp only [List.mem_flatMap] at hx hx'
    obtain ⟨i, hi, j, hj, hxj⟩ := hx
    obtain ⟨i', hi', j', hj', hxj'⟩ := hx'
    obtain ⟨s, hs⟩ := mem_movesTo k i j x hxj
    obtain ⟨s', hs'⟩ := mem_movesTo k' i' j' x hxj'
    have e := (move_name_inj i j i' j' s s' ((mem_squaresOf _ i).1 hi).1
      ((mem_squaresOf _ j).1 hj).1 ((mem_squaresOf _ i').1 hi').1
      ((mem_squaresOf _ j').1 hj').1 (hs ▸ hs')).1
    subst e
    have h1 := ((mem_squaresOf _ i).1 hi).2
    have h2 := ((mem_squaresOf _ i).1 hi').2
    rw [Nat.testBit_and, Bool.and_eq_true] at h1 h2
    have h0 : (b.piece k &&& b.piece k').testBit i = true := by
      rw [Nat.testBit_and, h1.1, h2.1]; rfl
    rw [htypes k k' hne, Nat.zero_testBit] at h0
    exact Bool.noConfusion h0

/-- C21: for every bitboard set of 64-bit masks with `White & Black = 0` and pairwise
disjoint piece-type masks, and for every colour argument (White, Black or both),
`getPseudoLegalMoves` returns a list, and the list contains no move string twice. -/
theorem C21_no_move_listed_twice (b : BitbArray) (hb : b.WF)
    (hwb : b.white &&& b.black = 0)
    (htypes : ∀ k k' : enumType, k ≠ k' → b.piece k &&& b.piece k' = 0) (c : enumColor) :
    ∃ moves, getPseudoLegalMoves b c = some moves ∧ moves.Nodup := by
  cases c
  · refine ⟨_, getPseudoLegalMoves_white b hb, ?_⟩
    rw [moveList_eq_orderedMoves b _ (Or.inl rfl)]
    exact nodup_orderedMoves b _ htypes
  · refine ⟨_, getPseudoLegalMoves_black b hb, ?_⟩
    rw [moveList_eq_orderedMoves b _ (Or.inr rfl)]
    exact nodup_orderedMoves b _ htypes
  · refine ⟨_, getPseudoLegalMoves_both b hb, ?_⟩
    rw [moveList_eq_orderedMoves b _ (Or.inl rfl), moveList_eq_orderedMoves b _ (Or.inr rfl),
      List.nodup_append]
    refine ⟨nodup_orderedMoves b _ htypes, nodup_orderedMoves b _ htypes, ?_⟩
    intro x hx hx'
    obtain ⟨k, i, j, s, hi, hbit, hj, hs⟩ := mem_orderedMoves b _ x hx
    obtain ⟨k', i', j', s', hi', hbit', hj', hs'⟩ := mem_orderedMoves b _ x hx'
    have e := (move_name_inj i j i' j' s s' hi hj hi' hj' (hs ▸ hs')).1
    subst e
    rw [Nat.testBit_and, Bool.and_eq_true] at hbit hbit'
    have h0 : (b.white &&& b.black).testBit i = true := by
      rw [Nat.testBit_and]
      have h1 : b.white.testBit i = true := hbit.2
      have h2 : b.black.testBit i = true := hbit'.2
      rw [h1, h2]; rfl
    rw [hwb, Nat.zero_testBit] at h0
    exact Bool.noConfusion h0

theorem C21_no_move_listed_twice_witness :
    Bitboard.standard.WF ∧ Bitboard.standard.white &&& Bitboard.standard.black = 0 ∧
    (∀ k k' : enumType, k ≠ k' →
      Bitboard.standard.piece k &&& Bitboard.standard.piece k' = 0) ∧
    ∃ moves, getPseudoLegalMoves Bitboard.standard .nColor = some moves ∧ moves.Nodup :=
  ⟨by decide, by decide, standard_invariant.2.2.1,
    C21_no_move_listed_twice Bitboard.standard (by decide) (by decide)
      standard_invariant.2.2.1 .nColor⟩

/-! ## Maps that work square by square -/

theorem unionOver_testBit (l : List Nat) (f : Nat → Nat) (t : Nat) :
    (unionOver l f).testBit t = true ↔ ∃ i, i ∈ l ∧ (f i).testBit t = true := by
  induction l with
  | nil => simp [unionOver]
  | cons a l ih =>
    have e : unionOver (a :: l) f = f a ||| unionOver l f := rfl
    rw [e, Nat.testBit_or, Bool.or_eq_true, ih]
    constructor
    · rintro (h | ⟨i, hi, h⟩)
      · exact ⟨a, List.mem_cons_self _ _, h⟩
      · exact ⟨i, List.mem_cons_of_mem _ hi, h⟩
    · rintro ⟨i, hi, h⟩
      rcases List.mem_cons.1 hi with rfl | hi
      · exact Or.inl h
      · exact Or.inr ⟨i, hi, h⟩

theorem additive_id : Additive (fun P => P) := by
  intro P hP
  refine ⟨hP, fun t => ?_⟩
  constructor
  · intro h
    exact ⟨t, testBit_of_lt hP h, h, (testBit_shl_one t t).2 ⟨rfl, testBit_of_lt hP h⟩⟩
  · rintro ⟨i, -, hi, h⟩
    rw [((testBit_shl_one i t).1 h).1] at hi
    exact hi

theorem testBit_shl_iff (x n t : Nat) :
    (shl x n).testBit t = true ↔ t < 64 ∧ n ≤ t ∧ x.testBit (t - n) = true := by
  rw [testBit_shl]
  simp only [Bool.and_eq_true, decide_eq_true_eq]

theorem additive_shl (n : Nat) : Additive (fun P => shl P n) := by
  intro P hP
  refine ⟨shl_lt _ _, fun t => ?_⟩
  constructor
  · intro h
    have h1 := (testBit_shl_iff P n t).1 h
    exact ⟨t - n, by omega, h1.2.2,
      (testBit_shl_iff _ n t).2 ⟨h1.1, h1.2.1, (testBit_shl_one _ _).2 ⟨rfl, by omega⟩⟩⟩
  · rintro ⟨i, -, hi, h⟩
    have h1 := (testBit_shl_iff _ n t).1 h
    rw [((testBit_shl_one i _).1 h1.2.2).1] at hi
    exact (testBit_shl_iff P n t).2 ⟨h1.1, h1.2.1, hi⟩

theorem additive_shr (n : Nat) : Additive (fun P => shr P n) := by
  intro P hP
  refine ⟨shr_lt _ _ hP, fun t => ?_⟩
  simp only [testBit_shr]
  constructor
  · intro h
    exact ⟨t + n, testBit_of_lt hP h, h, (testBit_shl_one _ _).2 ⟨rfl, testBit_of_lt hP h⟩⟩
  · rintro ⟨i, -, hi, h⟩
    rw [((testBit_shl_one i _).1 h).1] at hi
    exact hi

theorem additive_and (F : Nat → Nat) (M : Nat) (hF : Additive F) :
    Additive (fun P => F P &&& M) := by
  intro P hP
  refine ⟨and_lt_left _ _ (hF P hP).1, fun t => ?_⟩
  simp only [Nat.testBit_and, Bool.and_eq_true]
  rw [(hF P hP).2 t]
  constructor
  · rintro ⟨⟨i, hi, hp, h⟩, hm⟩
    exact ⟨i, hi, hp, h, hm⟩
  · rintro ⟨i, hi, hp, h, hm⟩
    exact ⟨⟨i, hi, hp, h⟩, hm⟩

theorem additive_and_left (F : Nat → Nat) (M : Nat) (hF : Additive F) :
    Additive (fun P => M &&& F P) := by
  have h := additive_and F M hF
  have e : (fun P => M &&& F P) = (fun P => F P &&& M) := by
    funext P; exact Nat.land_comm _ _
  rw [e]; exact h

theorem additive_or (F G : Nat → Nat) (hF : Additive F) (hG : Additive G) :
    Additive (fun P => F P ||| G P) := by
  intro P hP
  refine ⟨or_lt _ _ (hF P hP).1 (hG P hP).1, fun t => ?_⟩
  simp only [Nat.testBit_or, Bool.or_eq_true]
  rw [(hF P hP).2 t, (hG P hP).2 t]
  constructor
  · rintro (⟨i, hi, hp, h⟩ | ⟨i, hi, hp, h⟩)
    · exact ⟨i, hi, hp, Or.inl h⟩
    · exact ⟨i, hi, hp, Or.inr h⟩
  · rintro ⟨i, hi, hp, h | h⟩
    · exact Or.inl ⟨i, hi, hp, h⟩
    · exact Or.inr ⟨i, hi, hp, h⟩

theorem additive_comp (F G : Nat → Nat) (hF : Additive F) (hG : Additive G) :
    Additive (fun P => F (G P)) := by
  intro P hP
  refine ⟨(hF _ (hG P hP).1).1, fun t => ?_⟩
  show (F (G P)).testBit t = true ↔ ∃ i, i < 64 ∧ P.testBit i = true ∧
    (F (G (shl 1 i))).testBit t = true
  rw [(hF _ (hG P hP).1).2 t]
  constructor
  · rintro ⟨j, hj, hg, hf⟩
    obtain ⟨i, hi, hp, hgi⟩ := ((hG P hP).2 j).1 hg
    exact ⟨i, hi, hp, ((hF _ (hG _ (shl_lt 1 i)).1).2 t).2 ⟨j, hj, hgi, hf⟩⟩
  · rintro ⟨i, hi, hp, hf⟩
    obtain ⟨j, hj, hgi, hfj⟩ := ((hF _ (hG _ (shl_lt 1 i)).1).2 t).1 hf
    exact ⟨j, hj, ((hG P hP).2 j).2 ⟨i, hi, hp, hgi⟩, hfj⟩

theorem additive_koggeL (d pro : Nat) : Additive (fun g => koggeL d g pro) :=
  additive_comp (fun g => g ||| (pro &&& shl pro d &&& shl (pro &&& shl pro d) (2 * d) &&&
      shl g (4 * d)))
    (fun g => (g ||| (pro &&& shl g d)) |||
      (pro &&& shl pro d &&& shl (g ||| (pro &&& shl g d)) (2 * d)))
    (additive_or _ _ additive_id (additive_and_left _ _ (additive_shl _)))
    (additive_comp (fun g => g ||| (pro &&& shl pro d &&& shl g (2 * d)))
      (fun g => g ||| (pro &&& shl g d))
      (additive_or _ _ additive_id (additive_and_left _ _ (additive_shl _)))
      (additive_or _ _ additive_id (additive_and_left _ _ (additive_shl _))))

theorem additive_koggeR (d pro : Nat) : Additive (fun g => koggeR d g pro) :=
  additive_comp (fun g => g ||| (pro &&& shr pro d &&& shr (pro &&& shr pro d) (2 * d) &&&
      shr g (4 * d)))
    (fun g => (g ||| (pro &&& shr g d)) |||
      (pro &&& shr pro d &&& shr (g ||| (pro &&& shr g d)) (2 * d)))
    (additive_or _ _ additive_id (additive_and_left _ _ (additive_shr _)))
    (additive_comp (fun g => g ||| (pro &&& shr pro d &&& shr g (2 * d)))
      (fun g => g ||| (pro &&& shr g d))
      (additive_or _ _ additive_id (additive_and_left _ _ (additive_shr _)))
      (additive_or _ _ additive_id (additive_and_left _ _ (additive_shr _))))

/-! ## The generators work square by square -/

theorem additive_shiftNorth : Additive shiftNorth := additive_shl 8
theorem additive_shiftSouth : Additive shiftSouth := additive_shr 8
theorem additive_shiftEast : Additive shiftEast := additive_and _ notAFile (additive_shl 1)
theorem additive_shiftNorthEast : Additive shiftNorthEast :=
  additive_and _ notAFile (additive_shl 9)
theorem additive_shiftNorthWest : Additive shiftNorthWest :=
  additive_and _ notHFile (additive_shl 7)
theorem additive_shiftWest : Additive shiftWest := additive_and _ notHFile (additive_shr 1)
theorem additive_shiftSouthWest : Additive shiftSouthWest :=
  additive_and _ notHFile (additive_shr 9)
theorem additive_shiftSouthEast : Additive shiftSouthEast :=
  additive_and _ notAFile (additive_shr 7)

theorem setPiece_color (b : BitbArray) (k : enumType) (v : Nat) (c : enumColor) :
    (b.setPiece k v).color c = b.color c := by
  cases k <;> cases c <;> rfl

theorem setPiece_all (b : BitbArray) (k : enumType) (v : Nat) :
    (b.setPiece k v).all = b.all := by
  cases k <;> rfl

theorem setPiece_self (b : BitbArray) (k : enumType) : b.setPiece k (b.piece k) = b := by
  cases k <;> rfl

theorem setPiece_colorsOk (b : BitbArray) (h : ColorsOk b) (k : enumType) (v : Nat)
    (hv : v < 2 ^ 64) : ColorsOk (b.setPiece k v) :=
  ⟨setPiece_WF b h.wf k v hv, by cases k <;> exact h.union, by cases k <;> exact h.disjoint⟩

theorem single_and (x i : Nat) (h : x.testBit i = true) : shl 1 i &&& x = shl 1 i := by
  apply Nat.eq_of_testBit_eq
  intro t
  rw [Nat.testBit_and]
  cases ht : (shl 1 i).testBit t with
  | false => rfl
  | true =>
    rw [← ((testBit_shl_one i t).1 ht).1, h]; rfl

/-- The diagonal slider generator is a square-by-square map of the sliders of the
colour, for every value of the piece mask. -/
theorem bishop_additive (b : BitbArray) (hok : ColorsOk b) (c : enumColor) (k : enumType) :
    ∃ H, Additive H ∧ ∀ v, v < 2 ^ 64 → ∀ t,
      ((getBishopMovesOne (b.setPiece k v) c k).testBit t = true ↔
        (H (v &&& b.color c)).testBit t = true) := by
  have hA : Additive (fun P => shiftNorthEast (noEaOccl P (bnot b.all)) |||
      shiftSouthEast (soEaOccl P (bnot b.all)) |||
      shiftNorthWest (noWeOccl P (bnot b.all)) |||
      shiftSouthWest (soWeOccl P (bnot b.all))) :=
    additive_or _ _ (additive_or _ _ (additive_or _ _
      (additive_comp shiftNorthEast (fun P => noEaOccl P (bnot b.all)) additive_shiftNorthEast
        (additive_koggeL 9 _))
      (additive_comp shiftSouthEast (fun P => soEaOccl P (bnot b.all)) additive_shiftSouthEast
        (additive_koggeR 7 _)))
      (additive_comp shiftNorthWest (fun P => noWeOccl P (bnot b.all)) additive_shiftNorthWest
        (additive_koggeL 7 _)))
      (additive_comp shiftSouthWest (fun P => soWeOccl P (bnot b.all)) additive_shiftSouthWest
        (additive_koggeR 9 _))
  refine ⟨_, additive_and _ (bnot (b.color c)) hA, ?_⟩
  intro v hv t
  rw [getBishopMovesOne_testBit _ (setPiece_colorsOk b hok k v hv) c k t, setPiece_color,
    setPiece_all, setPiece_piece, if_pos rfl]
  have hP : v &&& b.color c < 2 ^ 64 := and_lt_left _ _ hv
  simp only [Nat.testBit_and, Nat.testBit_or, Bool.and_eq_true, Bool.or_eq_true]
  rw [testBit_empty _ t (hok.own_lt c)]
  constructor
  · rintro ⟨h, hc⟩
    have h64 : t < 64 := by
      apply testBit_of_lt (hA _ hP).1
      simp only [Nat.testBit_or, Bool.or_eq_true]
      tauto
    exact ⟨by tauto, h64, hc⟩
  · rintro ⟨h, -, hc⟩
    exact ⟨by tauto, hc⟩

/-- The orthogonal slider generator is a square-by-square map of the sliders of the
colour, for every value of the piece mask. -/
theorem rook_additive (b : BitbArray) (hok : ColorsOk b) (c : enumColor) (k : enumType) :
    ∃ H, Additive H ∧ ∀ v, v < 2 ^ 64 → ∀ t,
      ((getRookMovesOne (b.setPiece k v) c k).testBit t = true ↔
        (H (v &&& b.color c)).testBit t = true) := by
  have hA : Additive (fun P => shiftSouth (soutOccl P (bnot b.all)) |||
      shiftNorth (nortOccl P (bnot b.all)) |||
      shiftEast (eastOccl P (bnot b.all)) |||
      shiftWest (westOccl P (bnot b.all))) :=
    additive_or _ _ (additive_or _ _ (additive_or _ _
      (additive_comp shiftSouth (fun P => soutOccl P (bnot b.all)) additive_shiftSouth
        (additive_koggeR 8 _))
      (additive_comp shiftNorth (fun P => nortOccl P (bnot b.all)) additive_shiftNorth
        (additive_koggeL 8 _)))
      (additive_comp shiftEast (fun P => eastOccl P (bnot b.all)) additive_shiftEast
        (additive_koggeL 1 _)))
      (additive_comp shiftWest (fun P => westOccl P (bnot b.all)) additive_shiftWest
        (additive_koggeR 1 _))
  refine ⟨_, additive_and _ (bnot (b.color c)) hA, ?_⟩
  intro v hv t
  rw [getRookMovesOne_testBit _ (setPiece_colorsOk b hok k v hv) c k t, setPiece_color,
    setPiece_all, setPiece_piece, if_pos rfl]
  have hP : v &&& b.color c < 2 ^ 64 := and_lt_left _ _ hv
  simp only [Nat.testBit_and, Nat.testBit_or, Bool.and_eq_true, Bool.or_eq_true]
  rw [testBit_empty _ t (hok.own_lt c)]
  constructor
  · rintro ⟨h, hc⟩
    have h64 : t < 64 := by
      apply testBit_of_lt (hA _ hP).1
      simp only [Nat.testBit_or, Bool.or_eq_true]
      tauto
    exact ⟨by tauto, h64, hc⟩
  · rintro ⟨h, -, hc⟩
    exact ⟨by tauto, hc⟩

/-- Every generator of `getPseudoLegalMoves` is a square-by-square map of the pieces of
the colour, whatever value the piece mask of its type has. -/
theorem generator_additive (b : BitbArray) (hok : ColorsOk b) (c : enumColor)
    (hc : c = .nWhite ∨ c = .nBlack) (k : enumType) :
    ∃ H, Additive H ∧ ∀ v, v < 2 ^ 64 → ∀ t,
      ((generatorOf k (b.setPiece k v) c).testBit t = true ↔
        (H (v &&& b.color c)).testBit t = true) := by
  cases k
  · rcases hc with rfl | rfl
    · refine ⟨fun P => ((shiftNorthEast P ||| shiftNorthWest P) &&& b.black) |||
          (shiftNorth P &&& bnot b.all) |||
          (shiftNorth (shiftNorth (P &&& rank2) &&& bnot b.all) &&& bnot b.all), ?_, ?_⟩
      · exact additive_or _ _ (additive_or _ _
          (additive_and _ _ (additive_or _ _ additive_shiftNorthEast additive_shiftNorthWest))
          (additive_and _ _ additive_shiftNorth))
          (additive_and _ _ (additive_comp shiftNorth
            (fun P => shiftNorth (P &&& rank2) &&& bnot b.all) additive_shiftNorth
            (additive_and _ _ (additive_comp shiftNorth (fun P => P &&& rank2)
              additive_shiftNorth (additive_and _ _ additive_id)))))
      · intro v _ t
        rw [show generatorOf .nPawn (b.setPiece .nPawn v) .nWhite =
          getPawnMovesWhite (b.setPiece .nPawn v) from rfl, getPawnMovesWhite_eq]
        exact Iff.rfl
    · refine ⟨fun P => ((shiftSouthEast P ||| shiftSouthWest P) &&& b.white) |||
          (shiftSouth P &&& bnot b.all) |||
          (shiftSouth (shiftSouth (P &&& rank7) &&& bnot b.all) &&& bnot b.all), ?_, ?_⟩
      · exact additive_or _ _ (additive_or _ _
          (additive_and _ _ (additive_or _ _ additive_shiftSouthEast additive_shiftSouthWest))
          (additive_and _ _ additive_shiftSouth))
          (additive_and _ _ (additive_comp shiftSouth
            (fun P => shiftSouth (P &&& rank7) &&& bnot b.all) additive_shiftSouth
            (additive_and _ _ (additive_comp shiftSouth (fun P => P &&& rank7)
              additive_shiftSouth (additive_and _ _ additive_id)))))
      · intro v _ t
        rw [show generatorOf .nPawn (b.setPiece .nPawn v) .nBlack =
          getPawnMovesBlack (b.setPiece .nPawn v) from rfl, getPawnMovesBlack_eq]
        exact Iff.rfl
  · have hA : Additive (fun K => (shiftNorthWest (shiftWest K) |||
        shiftNorthWest (shiftNorth K) ||| shiftNorthEast (shiftNorth K) |||
        shiftNorthEast (shiftEast K) ||| shiftSouthEast (shiftEast K) |||
        shiftSouthEast (shiftSouth K) ||| shiftSouthWest (shiftSouth K) |||
        shiftSouthWest (shiftWest K)) &&& bnot (b.color c)) :=
      additive_and _ _ (additive_or _ _ (additive_or _ _ (additive_or _ _ (additive_or _ _
        (additive_or _ _ (additive_or _ _ (additive_or _ _
        (additive_comp shiftNorthWest shiftWest additive_shiftNorthWest additive_shiftWest)
        (additive_comp shiftNorthWest shiftNorth additive_shiftNorthWest additive_shiftNorth))
        (additive_comp shiftNorthEast shiftNorth additive_shiftNorthEast additive_shiftNorth))
        (additive_comp shiftNorthEast shiftEast additive_shiftNorthEast additive_shiftEast))
        (additive_comp shiftSouthEast shiftEast additive_shiftSouthEast additive_shiftEast))
        (additive_comp shiftSouthEast shiftSouth additive_shiftSouthEast additive_shiftSouth))
        (additive_comp shiftSouthWest shiftSouth additive_shiftSouthWest additive_shiftSouth))
        (additive_comp shiftSouthWest shiftWest additive_shiftSouthWest additive_shiftWest))
    refine ⟨_, hA, ?_⟩
    intro v _ t
    rcases hc with rfl | rfl <;> exact Iff.rfl
  · obtain ⟨H, hH, hr⟩ := bishop_additive b hok c .nBishop
    refine ⟨H, hH, ?_⟩
    intro v hv t
    rcases hc with rfl | rfl <;> exact hr v hv t
  · obtain ⟨H, hH, hr⟩ := rook_additive b hok c .nRook
    refine ⟨H, hH, ?_⟩
    intro v hv t
    rcases hc with rfl | rfl <;> exact hr v hv t
  · obtain ⟨HB, hB, rB⟩ := bishop_additive b hok c .nQueen
    obtain ⟨HR, hR, rR⟩ := rook_additive b hok c .nQueen
    refine ⟨fun P => HB P ||| HR P, additive_or _ _ hB hR, ?_⟩
    intro v hv t
    have e : generatorOf .nQueen (b.setPiece .nQueen v) c =
        getBishopMovesOne (b.setPiece .nQueen v) c .nQueen |||
          getRookMovesOne (b.setPiece .nQueen v) c .nQueen := by
      rcases hc with rfl | rfl <;> rfl
    rw [e]
    show (getBishopMovesOne (b.setPiece .nQueen v) c .nQueen |||
      getRookMovesOne (b.setPiece .nQueen v) c .nQueen).testBit t = true ↔
        (HB (v &&& b.color c) ||| HR (v &&& b.color c)).testBit t = true
    rw [Nat.testBit_or, Nat.testBit_or, Bool.or_eq_true, Bool.or_eq_true, rB v hv t, rR v hv t]
  · have hA : Additive (fun K => (shiftNorth K ||| shiftNorthEast K ||| shiftEast K |||
        shiftSouthEast K ||| shiftSouth K ||| shiftSouthWest K ||| shiftWest K |||
        shiftNorthWest K) &&& bnot (b.color c)) :=
      additive_and _ _ (additive_or _ _ (additive_or _ _ (additive_or _ _ (additive_or _ _
        (additive_or _ _ (additive_or _ _ (additive_or _ _
        additive_shiftNorth additive_shiftNorthEast) additive_shiftEast)
        additive_shiftSouthEast) additive_shiftSouth) additive_shiftSouthWest)
        additive_shiftWest) additive_shiftNorthWest)
    refine ⟨_, hA, ?_⟩
    intro v _ t
    rcases hc with rfl | rfl <;> exact Iff.rfl

/-- C23: for every bitboard set of 64-bit masks with `AllPieces = White | Black` and
`White & Black = 0`, colour `c` in White, Black and each piece type `k`, the bitwise OR,
over the squares `i` of `mask k & colour c`, of the type-`k` generator applied to the
snapshot in which mask `k` is replaced by the single bit `i`, equals the type-`k`
generator applied to the unmodified snapshot: the per-square isolation of
`getPseudoLegalMoves` neither loses nor invents destinations. -/
theorem C23_isolation_preserves_destinations (b : BitbArray) (hok : ColorsOk b)
    (c : enumColor) (hc : c = .nWhite ∨ c = .nBlack) (k : enumType) :
    unionOver (squaresOf (b.piece k &&& b.color c))
      (fun i => generatorOf k (b.setPiece k (shl 1 i)) c) = generatorOf k b c := by
  obtain ⟨H, hH, hr⟩ := generator_additive b hok c hc k
  have hP : b.piece k &&& b.color c < 2 ^ 64 := and_lt_left _ _ (hok.wf.piece_lt k)
  apply Nat.eq_of_testBit_eq
  intro t
  rw [Bool.eq_iff_iff, unionOver_testBit]
  have hw := hr (b.piece k) (hok.wf.piece_lt k) t
  rw [setPiece_self] at hw
  rw [hw, (hH _ hP).2 t]
  constructor
  · rintro ⟨i, hi, h⟩
    obtain ⟨h64, hbit⟩ := (mem_squaresOf _ i).1 hi
    have hcol : (b.color c).testBit i = true := by
      rw [Nat.testBit_and, Bool.and_eq_true] at hbit
      exact hbit.2
    have := (hr (shl 1 i) (shl_lt 1 i) t).1 h
    rw [single_and _ i hcol] at this
    exact ⟨i, h64, hbit, this⟩
  · rintro ⟨i, h64, hbit, h⟩
    have hcol : (b.color c).testBit i = true := by
      rw [Nat.testBit_and, Bool.and_eq_true] at hbit
      exact hbit.2
    refine ⟨i, (mem_squaresOf _ i).2 ⟨h64, hbit⟩, (hr (shl 1 i) (shl_lt 1 i) t).2 ?_⟩
    rw [single_and _ i hcol]
    exact h

theorem C23_isolation_preserves_destinations_witness :
    ColorsOk Bitboard.standard ∧ (enumColor.nWhite = .nWhite ∨ enumColor.nWhite = .nBlack) ∧
    unionOver (squaresOf (Bitboard.standard.piece .nKnight &&& Bitboard.standard.color .nWhite))
      (fun i => generatorOf .nKnight (Bitboard.standard.setPiece .nKnight (shl 1 i)) .nWhite) =
      generatorOf .nKnight Bitboard.standard .nWhite :=
  ⟨⟨by decide, by decide, by decide⟩, Or.inl rfl,
    C23_isolation_preserves_destinations Bitboard.standard ⟨by decide, by decide, by decide⟩
      .nWhite (Or.inl rfl) .nKnight⟩

end chessqdl
